import Mathlib

/-! Guest virtual memory (`rpcs3/Emu/Memory/vm.cpp`) and the stack of PPU threads
(`rpcs3/Emu/Cell/lv2/sys_ppu_thread.cpp`)

A shallow embedding of the page table `g_pages`, of `vm::check_addr`,
`vm::page_protect`, `_page_map`, `_page_unmap`, of the `block_t` allocator
(`try_alloc`, `alloc`, `falloc`, `dealloc`, `unmap`, `peek`), of the block registry
`g_locations` (`vm::map`, `vm::find_map`, `vm::reserve_map`, `vm::unmap`, `vm::alloc`,
`vm::dealloc`), of the stack handling of `_sys_ppu_thread_create` and `ppu_thread_exit`,
of the reservation tokens, of the range-lock slots and one pass of
`vm::range_lock_internal`, of the mirror table `g_shmem`, and of the join status of PPU
threads, followed by theorems about them.

Conventions of the embedding.

* `u8`, `u32` and `u64` values are natural numbers; where the C++ arithmetic can
  wrap, the wrap is written out (`u32`, `u32_sub`, `u64`).
* `g_pages` is a function from the page index to the `u8` entry.
* A `throw`/`ensure` failure is a `Fault`.  Exceptions do not roll the page table
  back, so every operation returns the page table it leaves behind together with
  its outcome (`Res`, `BRes`, `VRes`).
* The page table, the blocks and the registry are modelled sequentially: one thread,
  holding `vm::writer_lock`, runs an operation from start to end.
  `_lock_main_range_lock` is kept for its argument validation (which throws); its wait
  for other threads' range locks is not modelled.  Host calls (`memory_protect`,
  `shm::map_critical`, ...) are assumed to succeed.  The shared-memory mirror table
  `g_shmem` is a separate array that no function reads in order to decide what to do
  with `g_pages`; `_page_map` and `_page_unmap` leave it out, and `_page_map_shm` and
  `_page_unmap_shm` are the same two functions with the mirror table and the backing
  object carried along.
* A reservation token is one atomic `u64`.  Each atomic operation on it is one step of
  the model, and the values other threads may have stored between two steps are
  arguments of the model.  The same holds for the writer descriptor `g_range_lock` that
  a pass of `vm::range_lock_internal` loads twice, and for the join status of a thread.
-/

namespace vm

/-! ## Constants of `vm.h` -/

/-- Modelled from the spec: `page_readable` of `enum page_info_t` (vm.h, not under src/). -/
def page_readable : Nat := 0x01
/-- Modelled from the spec: `page_writable` of `enum page_info_t` (vm.h, not under src/). -/
def page_writable : Nat := 0x02
/-- Modelled from the spec: `page_executable` of `enum page_info_t` (vm.h, not under src/). -/
def page_executable : Nat := 0x04
/-- Modelled from the spec: `page_64k_size`, the 64 KiB size-class flag (vm.h, not under src/). -/
def page_64k_size : Nat := 0x20
/-- Modelled from the spec: `page_1m_size`, the 1 MiB size-class flag (vm.h, not under src/). -/
def page_1m_size : Nat := 0x40
/-- Modelled from the spec: `page_allocated` of `enum page_info_t` (vm.h, not under src/). -/
def page_allocated : Nat := 0x80

/-- Modelled from the spec: `page_size_4k` block flag (vm.h, not under src/). -/
def page_size_4k : Nat := 0x100
/-- Modelled from the spec: `page_size_64k` block flag (vm.h, not under src/). -/
def page_size_64k : Nat := 0x200
/-- Modelled from the spec: `page_size_1m` block flag (vm.h, not under src/). -/
def page_size_1m : Nat := 0x400
/-- Modelled from the spec: `page_size_mask` block flag mask (vm.h, not under src/). -/
def page_size_mask : Nat := 0xF00
/-- Modelled from the spec: `stack_guarded` block flag (vm.h, not under src/). -/
def stack_guarded : Nat := 0x10
/-- Modelled from the spec: `preallocated` block flag (vm.h, not under src/). -/
def preallocated : Nat := 0x20
/-- Modelled from the spec: `alloc_hidden` allocation flag (vm.h, not under src/). -/
def alloc_hidden : Nat := 0x1000
/-- Modelled from the spec: `alloc_unwritable` allocation flag (vm.h, not under src/). -/
def alloc_unwritable : Nat := 0x2000
/-- Modelled from the spec: `alloc_executable` allocation flag (vm.h, not under src/). -/
def alloc_executable : Nat := 0x4000
/-- Modelled from the spec: `alloc_prot_mask` (vm.h, not under src/). -/
def alloc_prot_mask : Nat := 0x7000

/-! ## Machine arithmetic -/

/-- Truncation to `u32`. -/
def u32 (n : Nat) : Nat := n % 0x100000000

/-- The `u32` difference `a - b` (wrapping). -/
def u32_sub (a b : Nat) : Nat := (a + 0x100000000 - b % 0x100000000) % 0x100000000

/-- The `u64` complement `~x`. -/
def u64_not (x : Nat) : Nat := x ^^^ 0xFFFFFFFFFFFFFFFF

/-- The `u8` complement `~x` as it is used under a `u8` mask. -/
def u8_not (x : Nat) : Nat := x ^^^ 0xFF

/-- Modelled from the spec: `utils::align<u32>(value, align)` of util/asm.hpp (not under
src/), which rounds `value` up to a multiple of the power of two `align`, in `u32`:
`(value + (align - 1)) & (0 - align)`. -/
def align (value al : Nat) : Nat := u32 (value + (al - 1)) &&& u32_sub 0 al

/-- The loop of `std::countl_zero<u32>`: leading zero bits below bit `n`. -/
def countl_zero_aux : Nat → Nat → Nat
  | 0, _ => 0
  | n + 1, x => if x.testBit n then 0 else 1 + countl_zero_aux n x

/-- Standard `std::countl_zero` on a `u32`. -/
def countl_zero (x : Nat) : Nat := countl_zero_aux 32 x

/-! ## Faults and results -/

/-- The exceptions the modelled functions throw (`fmt::throw_exception`, `ensure`);
`null_deref`, the dereference of a null `shared_ptr`; and `fuel_exhausted`, which only the
model can produce: a search loop that used up the iteration bound it was given. -/
inductive Fault where
  | invalid_arguments
  | already_mapped
  | concurrent_access
  | lock_range
  | invalid_alignment
  | ensure_failed
  | unexpected_pages
  | null_deref
  | out_of_lock_bits
  | invalid_range_lock
  | fuel_exhausted
  deriving DecidableEq, Repr

deriving instance DecidableEq for Except

/-- The page table. -/
abbrev PageTable := Nat → Nat

/-- Single store `g_pages[i] = v`. -/
def PageTable.set (pt : PageTable) (i v : Nat) : PageTable :=
  fun j => if j = i then v else pt j

/-- Result of an operation on the page table: the table left behind and the outcome. -/
structure Res (α : Type) where
  pages : PageTable
  out : Except Fault α

/-! ## `vm::check_addr` -/

/-- The scan loop of `check_addr` (vm.cpp:926-948) at index `i`; `none` when the
iteration bound `fuel` is used up. -/
def check_addr_loop (pt : PageTable) (flags max : Nat) : Nat → Nat → Option Bool
  | 0, _ => none
  | fuel + 1, i =>
    if i ≤ max then
      let state := pt i
      if u8_not state &&& flags ≠ 0 then some false
      else if state &&& page_1m_size ≠ 0 then
        check_addr_loop pt flags max fuel (align (i + 1) (0x100000 / 4096))
      else if state &&& page_64k_size ≠ 0 then
        check_addr_loop pt flags max fuel (align (i + 1) (0x10000 / 4096))
      else check_addr_loop pt flags max fuel (i + 1)
    else some true

/-- Embedding of `vm::check_addr(addr, flags, size)` (vm.cpp:910-951).  The loop gets one
iteration per page of the range plus one for the exit test. -/
def check_addr (pt : PageTable) (addr flags size : Nat) : Option Bool :=
  if size = 0 then some true
  else if 0x100000000 - addr < size then some false
  else
    let flags := flags ||| page_allocated
    let i := addr / 4096
    let max := u32_sub (u32 (addr + size)) 1 / 4096
    check_addr_loop pt flags max (max + 2 - i) i

/-! ## Range lock, `_page_map`, `vm::page_protect`, `_page_unmap` -/

/-- Modelled from the spec: `range_allocation`, the writer-descriptor flags of a range
that is being mapped or unmapped (vm_locking.h, not under src/). -/
def range_allocation : Nat := 0
/-- Modelled from the spec: `range_readable` writer-descriptor flag (vm_locking.h, not under src/). -/
def range_readable : Nat := 2 * 2 ^ 61
/-- Modelled from the spec: `range_writable` writer-descriptor flag (vm_locking.h, not under src/). -/
def range_writable : Nat := 4 * 2 ^ 61

/-- Embedding of `_lock_main_range_lock(flags, addr, size)` (vm.cpp:273-318): an empty
range is ignored, a range of 512 MiB or more (or a large unaligned one) throws.  The
descriptor written to `g_range_lock` and the wait for other threads are outside the
sequential model, so `flags` and `addr` do not influence the outcome. -/
def _lock_main_range_lock (_flags _addr size : Nat) : Except Fault Unit :=
  if size = 0 then .ok ()
  else if size ≥ 512 * 1024 * 1024 ∨ (size > 65536 ∧ size % 4096 ≠ 0) then .error .lock_range
  else .ok ()

/-- The final loop of `_page_map` (vm.cpp:723-729): `n` exchanges starting at page `i`,
throwing when an exchanged entry was not zero. -/
def page_map_store (v : Nat) : Nat → PageTable → Nat → Res Unit
  | 0, pt, _ => ⟨pt, .ok ()⟩
  | n + 1, pt, i =>
    if pt i ≠ 0 then ⟨pt.set i v, .error .concurrent_access⟩
    else page_map_store v n (pt.set i v) (i + 1)

/-- Embedding of `_page_map(addr, flags, size, shm, bflags, search_shm)` (vm.cpp:612-730)
on the page table.  The arguments `shm`, `bflags` and `search_shm` only steer the mirror
table and the host mappings and are left out. -/
def _page_map (pt : PageTable) (addr flags size : Nat) : Res Unit :=
  if size = 0 ∨ (size ||| addr) % 4096 ≠ 0 ∨ flags &&& page_allocated ≠ 0 then
    ⟨pt, .error .invalid_arguments⟩
  else if (List.range' (addr / 4096) (size / 4096)).any (fun i => pt i != 0) then
    ⟨pt, .error .already_mapped⟩
  else
    match _lock_main_range_lock range_allocation addr size with
    | .error e => ⟨pt, .error e⟩
    | .ok _ => page_map_store (flags ||| page_allocated) (size / 4096) pt (addr / 4096)

/-- The store loop `for (j = start; j < i; j++) g_pages[j].release(v)` of `page_protect`. -/
def store_range (v : Nat) : Nat → PageTable → Nat → PageTable
  | 0, pt, _ => pt
  | n + 1, pt, j => store_range v n (pt.set j v) (j + 1)

/-- The run-merging loop of `page_protect` (vm.cpp:762-804) with `n` iterations left. -/
def page_protect_loop (flags_set flags_clear end_ : Nat) :
    Nat → PageTable → Nat → Nat → Nat → Res Bool
  | 0, pt, _, _, _ => ⟨pt, .ok true⟩
  | n + 1, pt, start, start_value, i =>
    let new_val :=
      if i < end_ then (pt i ||| flags_set) &&& u8_not flags_clear else page_executable
    if new_val ≠ start_value then
      let old_val := pt start
      let page_size := u32 ((i - start) * 4096)
      if page_size ≠ 0 ∧ old_val ≠ start_value then
        let safe_bits0 :=
          if old_val &&& start_value &&& page_readable ≠ 0 then range_readable else 0
        let safe_bits :=
          if old_val &&& start_value &&& page_writable ≠ 0 ∧ safe_bits0 &&& range_readable ≠ 0
          then safe_bits0 ||| range_writable else safe_bits0
        match _lock_main_range_lock safe_bits (u32 (start * 4096)) page_size with
        | .error e => ⟨pt, .error e⟩
        | .ok _ =>
          page_protect_loop flags_set flags_clear end_ n
            (store_range start_value (i - start) pt start) i new_val (i + 1)
      else page_protect_loop flags_set flags_clear end_ n pt i new_val (i + 1)
    else page_protect_loop flags_set flags_clear end_ n pt start start_value (i + 1)

/-- Embedding of `vm::page_protect(addr, size, flags_test, flags_set, flags_clear)`
(vm.cpp:732-807). -/
def page_protect (pt : PageTable) (addr size flags_test flags_set flags_clear : Nat) :
    Res Bool :=
  if size = 0 ∨ (size ||| addr) % 4096 ≠ 0 then ⟨pt, .error .invalid_arguments⟩
  else
    let flags_both := flags_set &&& flags_clear
    let flags_test := flags_test ||| page_allocated
    let flags_set := flags_set &&& u8_not flags_both
    let flags_clear := flags_clear &&& u8_not flags_both
    match check_addr pt addr flags_test size with
    | none => ⟨pt, .error .fuel_exhausted⟩
    | some false => ⟨pt, .ok false⟩
    | some true =>
      if flags_set = 0 ∧ flags_clear = 0 then ⟨pt, .ok true⟩
      else
        page_protect_loop flags_set flags_clear (addr / 4096 + size / 4096) (size / 4096 + 1)
          pt (addr / 4096) page_executable (addr / 4096)

/-- The size-determination loop of `_page_unmap` (vm.cpp:825-843). -/
def page_unmap_size (pt : PageTable) : Nat → Nat → Nat → Bool → Except Fault Nat
  | 0, _, size, _ => .ok size
  | n + 1, i, size, is_exec =>
    if pt i &&& page_allocated = 0 then .ok size
    else if size = 0 then
      page_unmap_size pt n (i + 1) (u32 (size + 4096)) (decide (pt i &&& page_executable ≠ 0))
    else if is_exec ≠ decide (pt i &&& page_executable ≠ 0) then .error .ensure_failed
    else page_unmap_size pt n (i + 1) (u32 (size + 4096)) is_exec

/-- The clearing loop of `_page_unmap` (vm.cpp:858-866). -/
def page_unmap_clear : Nat → PageTable → Nat → Res Unit
  | 0, pt, _ => ⟨pt, .ok ()⟩
  | n + 1, pt, i =>
    if pt i &&& page_allocated = 0 then ⟨pt, .error .concurrent_access⟩
    else page_unmap_clear n (pt.set i 0) (i + 1)

/-- Embedding of `_page_unmap(addr, max_size, bflags, shm)` (vm.cpp:809-908) on the page
table; it returns the number of bytes unmapped. -/
def _page_unmap (pt : PageTable) (addr max_size : Nat) : Res Nat :=
  if max_size = 0 ∨ (max_size ||| addr) % 4096 ≠ 0 then ⟨pt, .error .invalid_arguments⟩
  else
    match page_unmap_size pt (max_size / 4096) (addr / 4096) 0 false with
    | .error e => ⟨pt, .error e⟩
    | .ok size =>
      match _lock_main_range_lock range_allocation addr size with
      | .error e => ⟨pt, .error e⟩
      | .ok _ =>
        let r := page_unmap_clear (size / 4096) pt (addr / 4096)
        match r.out with
        | .error e => ⟨r.pages, .error e⟩
        | .ok _ => ⟨r.pages, .ok size⟩

/-! ## `block_t` -/

/-- A host shared-memory object (`utils::shm`): `id` stands for the identity of the
object (its address), `size` and `flags` for what `size()` and `flags()` return. -/
structure Shm where
  id : Nat
  size : Nat
  flags : Nat
  deriving DecidableEq, Repr

/-- A `std::shared_ptr<utils::shm>`, possibly null. -/
abbrev ShmPtr := Option Shm

/-- What `shared_ptr::get()` returns, as far as pointer comparison goes. -/
def ShmPtr.get_id (p : ShmPtr) : Option Nat := p.map (fun s => s.id)

/-- The map `addr -> (size, shm)` of mapped regions (`block_map`, vm.cpp:1009), a
`std::map` kept as a list in key order. -/
abbrev RegionMap := List (Nat × Nat × ShmPtr)

/-- Lookup `m_map.find(k)`. -/
def RegionMap.find : RegionMap → Nat → Option (Nat × ShmPtr)
  | [], _ => none
  | (k1, v1) :: t, k => if k = k1 then some v1 else RegionMap.find t k

/-- Assignment `m_map[k] = v`. -/
def RegionMap.assign : RegionMap → Nat → Nat × ShmPtr → RegionMap
  | [], k, v => [(k, v)]
  | (k1, v1) :: t, k, v =>
    if k < k1 then (k, v) :: (k1, v1) :: t
    else if k = k1 then (k, v) :: t
    else (k1, v1) :: RegionMap.assign t k v

/-- Removal `m_map.erase(found)` of the entry with key `k`. -/
def RegionMap.erase : RegionMap → Nat → RegionMap
  | [], _ => []
  | (k1, v1) :: t, k => if k = k1 then t else (k1, v1) :: RegionMap.erase t k

/-- The fields of a `block_t`: `m_id` (zero once unmapped), `addr`, `size`, `flags`, the
common backing `m_common` and the region map. -/
structure Block where
  m_id : Nat
  addr : Nat
  size : Nat
  flags : Nat
  m_common : ShmPtr
  m_map : RegionMap
  deriving DecidableEq, Repr

/-- Embedding of `process_block_flags` (vm.cpp:1114-1131), which the constructor of
`block_t` applies to the creation flags. -/
def process_block_flags (flags : Nat) : Nat :=
  let flags := if flags &&& page_size_mask = 0 then flags ||| page_size_1m else flags
  if flags &&& page_size_4k ≠ 0 then flags ||| preallocated
  else flags &&& u64_not stack_guarded

/-- Result of a `block_t` operation: the page table and the block left behind, and the
outcome. -/
structure BRes (α : Type) where
  pages : PageTable
  block : Block
  out : Except Fault α

/-- The page flags `try_alloc` derives from the allocation flags (vm.cpp:1025-1051). -/
def try_alloc_flags (bflags : Nat) : Nat :=
  let flags := 0
  let flags :=
    if u64_not bflags &&& alloc_hidden ≠ 0 then
      let flags := flags ||| page_readable
      if u64_not bflags &&& alloc_unwritable ≠ 0 then flags ||| page_writable else flags
    else flags
  let flags := if bflags &&& alloc_executable ≠ 0 then flags ||| page_executable else flags
  if bflags &&& page_size_mask = page_size_64k then flags ||| page_64k_size
  else if bflags &&& (page_size_mask &&& u64_not page_size_1m) = 0 then flags ||| page_1m_size
  else flags

/-- The first loop of `try_alloc` (vm.cpp:1014-1020): whether some page from
`addr / 4096` to `(addr + size - 1) / 4096` has a non-zero entry. -/
def area_mapped (pt : PageTable) (addr size : Nat) : Bool :=
  let last := u32_sub (u32 (addr + size)) 1 / 4096
  (List.range' (addr / 4096) (last + 1 - addr / 4096)).any (fun i => pt i != 0)

/-- The guard-page block of `try_alloc` (vm.cpp:1053-1058): in a stack-guarded block the
first and the last page of the area are exchanged with `page_allocated`, each under an
`ensure` that the old entry was zero. -/
def try_alloc_guards (b : Block) (pt : PageTable) (addr size : Nat) : Res Unit :=
  if b.flags &&& stack_guarded ≠ 0 then
    let g1 := addr / 4096
    if pt g1 ≠ 0 then ⟨pt.set g1 page_allocated, .error .ensure_failed⟩
    else
      let pt1 := pt.set g1 page_allocated
      let g2 := u32_sub (u32 (addr / 4096 + size / 4096)) 1
      if pt1 g2 ≠ 0 then ⟨pt1.set g2 page_allocated, .error .ensure_failed⟩
      else ⟨pt1.set g2 page_allocated, .ok ()⟩
  else ⟨pt, .ok ()⟩

/-- Embedding of `block_t::try_alloc(addr, bflags, size, shm)` (vm.cpp:1011-1112). -/
def try_alloc (b : Block) (pt : PageTable) (addr bflags size : Nat) (shm : ShmPtr) :
    BRes Bool :=
  if area_mapped pt addr size then ⟨pt, b, .ok false⟩
  else
    let page_addr := u32 (addr + (if b.flags &&& stack_guarded ≠ 0 then 0x1000 else 0))
    let page_size := u32_sub size (if b.flags &&& stack_guarded ≠ 0 then 0x2000 else 0)
    let flags := try_alloc_flags bflags
    let rg := try_alloc_guards b pt addr size
    match rg.out with
    | .error e => ⟨rg.pages, b, .error e⟩
    | .ok _ =>
      let r := _page_map rg.pages page_addr flags page_size
      match r.out with
      | .error e => ⟨r.pages, b, .error e⟩
      | .ok _ => ⟨r.pages, { b with m_map := b.m_map.assign addr (size, shm) }, .ok true⟩

/-- The search loop of `block_t::alloc` (vm.cpp:1238-1251); `fuel` bounds the number of
candidates tried. -/
def alloc_loop (b : Block) (flags size al max : Nat) (shm : ShmPtr) :
    Nat → PageTable → Nat → BRes Nat
  | 0, pt, _ => ⟨pt, b, .error .fuel_exhausted⟩
  | fuel + 1, pt, addr =>
    let r := try_alloc b pt addr flags size shm
    match r.out with
    | .error e => ⟨r.pages, r.block, .error e⟩
    | .ok true =>
      ⟨r.pages, r.block, .ok (u32 (addr + (if flags &&& stack_guarded ≠ 0 then 0x1000 else 0)))⟩
    | .ok false =>
      if addr = max then ⟨r.pages, r.block, .ok 0⟩
      else alloc_loop b flags size al max shm fuel r.pages (u32 (addr + al))

/-- Embedding of `block_t::alloc(orig_size, src, align, flags)` (vm.cpp:1182-1252).
`src` is the optional pointer to a shared pointer; `fresh` is the identity of the object
`std::make_shared<utils::shm>(size)` creates when the block makes its own backing. -/
def alloc (b : Block) (pt : PageTable) (orig_size : Nat) (src : Option ShmPtr)
    (al flags fresh : Nat) : BRes Nat :=
  let flags :=
    if src.isNone then (b.flags &&& u64_not alloc_prot_mask) ||| (flags &&& alloc_prot_mask)
    else flags
  let min_page_size := if flags &&& page_size_4k ≠ 0 then 0x1000 else 0x10000
  let size :=
    u32 (align orig_size min_page_size + (if flags &&& stack_guarded ≠ 0 then 0x2000 else 0))
  if al < min_page_size ∨ al ≠ 0x80000000 >>> countl_zero al then
    ⟨pt, b, .error .invalid_alignment⟩
  else if orig_size = 0 ∨ size = 0 ∨ orig_size > size ∨ size > b.size then ⟨pt, b, .ok 0⟩
  else if b.m_common.isSome ∧ src.isSome then ⟨pt, b, .error .ensure_failed⟩
  else
    let shm : ShmPtr :=
      if b.m_common.isSome then none
      else match src with
        | some p => p
        | none => some ⟨fresh, size, 0⟩
    let max := u32_sub (u32 (b.addr + b.size)) size &&& u32_sub 0 al
    let addr := align b.addr al
    if b.addr > min max addr then ⟨pt, b, .ok 0⟩
    else if b.m_id = 0 then ⟨pt, b, .ok 0⟩
    else alloc_loop b flags size al max shm ((max - addr) / al + 1) pt addr

/-- Embedding of `block_t::falloc(addr, orig_size, src, flags)` (vm.cpp:1254-1313). -/
def falloc (b : Block) (pt : PageTable) (addr orig_size : Nat) (src : Option ShmPtr)
    (flags fresh : Nat) : BRes Nat :=
  let flags :=
    if src.isNone then (b.flags &&& u64_not alloc_prot_mask) ||| (flags &&& alloc_prot_mask)
    else flags
  let min_page_size := if flags &&& page_size_4k ≠ 0 then 0x1000 else 0x10000
  let size0 := u32 (orig_size + addr % min_page_size)
  let size := align size0 min_page_size
  if size = 0 ∨ addr < b.addr ∨ orig_size > size0 ∨ orig_size > size ∨
      (addr - addr % min_page_size) + size > b.addr + b.size ∨
      (src.isSome ∧ (orig_size ||| addr) % min_page_size ≠ 0) ∨
      flags &&& stack_guarded ≠ 0 then ⟨pt, b, .ok 0⟩
  else
    let addr := addr - addr % min_page_size
    if b.m_common.isSome ∧ src.isSome then ⟨pt, b, .error .ensure_failed⟩
    else
      let shm : ShmPtr :=
        if b.m_common.isSome then none
        else match src with
          | some p => p
          | none => some ⟨fresh, size, 0⟩
      if b.m_id = 0 then ⟨pt, b, .ok 0⟩
      else
        let r := try_alloc b pt addr flags size shm
        match r.out with
        | .error e => ⟨r.pages, r.block, .error e⟩
        | .ok false => ⟨r.pages, r.block, .ok 0⟩
        | .ok true => ⟨r.pages, r.block, .ok addr⟩

/-- The guard-page block of `dealloc` (vm.cpp:1336-1341): both guard entries are
exchanged with zero, each under an `ensure` that the old entry was `page_allocated`. -/
def dealloc_guards (b : Block) (pt : PageTable) (addr size : Nat) : Res Unit :=
  if b.flags &&& stack_guarded ≠ 0 then
    let g1 := u32_sub (addr / 4096) 1
    if pt g1 ≠ page_allocated then ⟨pt.set g1 0, .error .ensure_failed⟩
    else
      let pt1 := pt.set g1 0
      let g2 := u32 (addr / 4096 + size / 4096)
      if pt1 g2 ≠ page_allocated then ⟨pt1.set g2 0, .error .ensure_failed⟩
      else ⟨pt1.set g2 0, .ok ()⟩
  else ⟨pt, .ok ()⟩

/-- Embedding of `block_t::dealloc(addr, src)` (vm.cpp:1315-1358). -/
def dealloc (b : Block) (pt : PageTable) (addr : Nat) (src : Option ShmPtr) : BRes Nat :=
  let key := u32_sub addr (if b.flags &&& stack_guarded ≠ 0 then 0x1000 else 0)
  match b.m_map.find key with
  | none => ⟨pt, b, .ok 0⟩
  | some (rsize, rshm) =>
    if src.isSome ∧ rshm.get_id ≠ (src.getD none).get_id then ⟨pt, b, .ok 0⟩
    else
      let size := u32_sub rsize (if b.flags &&& stack_guarded ≠ 0 then 0x2000 else 0)
      let rg := dealloc_guards b pt addr size
      match rg.out with
      | .error e => ⟨rg.pages, b, .error e⟩
      | .ok _ =>
        let r := _page_unmap rg.pages addr size
        match r.out with
        | .error e => ⟨r.pages, b, .error e⟩
        | .ok sz =>
          if size ≠ sz then ⟨r.pages, b, .error .ensure_failed⟩
          else ⟨r.pages, { b with m_map := b.m_map.erase key }, .ok size⟩

/-! ## Blocks as `vm::init` makes them -/

/-- Modelled from the spec: `bf0_0x1` block flag (vm.h, not under src/). -/
def bf0_0x1 : Nat := 0x1

/-- Embedding of the constructor `block_t::block_t(addr, size, flags)` (vm.cpp:1133-1146):
`id` is the value drawn from the static counter and `common` the identity of the object
made for a preallocated block. -/
def block_t (id addr size flags common : Nat) : Block :=
  let flags := process_block_flags flags
  ⟨id, addr, size, flags,
    if flags &&& preallocated ≠ 0 then some ⟨common, size, 0⟩ else none, []⟩

/-- The page table after `std::memset(&g_pages, 0, sizeof(g_pages))` in `vm::init`
(vm.cpp:1702). -/
def init_pages : PageTable := fun _ => 0

/-- The "user 64k pages" block of `vm::init` (vm.cpp:1707). -/
def init_user64k : Block := block_t 2 0x20000000 0x10000000 (page_size_64k ||| bf0_0x1) 0

/-- The stack block of `vm::init` (vm.cpp:1711). -/
def init_stack : Block :=
  block_t 4 0xD0000000 0x10000000
    (page_size_4k ||| preallocated ||| stack_guarded ||| bf0_0x1) 1

/-- The "SPU reserved" block of `vm::init` (vm.cpp:1712). -/
def init_spu : Block := block_t 5 0xE0000000 0x20000000 page_size_64k 0

/-! ## `block_t::unmap`, `block_t::peek`, `block_t::imp_used` -/

/-- The loop of `block_t::unmap` (vm.cpp:1155-1161): `_page_unmap(it->first, size, ...)`
for every entry of the region map, in key order; an exception leaves the loop. -/
def unmap_regions : RegionMap → PageTable → Res Unit
  | [], pt => ⟨pt, .ok ()⟩
  | (k, size, _) :: t, pt =>
    let r := _page_unmap pt k size
    match r.out with
    | .error e => ⟨r.pages, .error e⟩
    | .ok _ => unmap_regions t r.pages

/-- Embedding of `block_t::unmap()` (vm.cpp:1148-1175): `m_id.exchange(0)` decides; the
region map itself is not emptied. -/
def block_t.unmap (b : Block) (pt : PageTable) : BRes Bool :=
  if b.m_id ≠ 0 then
    let r := unmap_regions b.m_map pt
    match r.out with
    | .error e => ⟨r.pages, { b with m_id := 0 }, .error e⟩
    | .ok _ => ⟨r.pages, { b with m_id := 0 }, .ok true⟩
  else ⟨pt, b, .ok false⟩

/-- The entry `std::prev(m_map.upper_bound(addr))`: walking the map in key order up to
the first key greater than `addr`, the entry passed last (`last` when none was passed);
`none` stands for `upper == m_map.begin()`. -/
def RegionMap.floor_from (last : Option (Nat × Nat × ShmPtr)) :
    RegionMap → Nat → Option (Nat × Nat × ShmPtr)
  | [], _ => last
  | (k, v) :: t, addr =>
    if addr < k then last else RegionMap.floor_from (some (k, v)) t addr

/-- Embedding of `block_t::peek(addr, size)` (vm.cpp:1360-1399).  The method is `const`
and writes nothing, so the page table and the block come back as they went in.
`found->second.second->size()` on a null handle is the fault `null_deref`. -/
def peek (b : Block) (pt : PageTable) (addr size : Nat) : BRes (Nat × ShmPtr) :=
  if addr < b.addr ∨ addr + size > b.addr + b.size then ⟨pt, b, .ok (addr, none)⟩
  else
    match RegionMap.floor_from none b.m_map addr with
    | none => ⟨pt, b, .ok (addr, none)⟩
    | some (k, _, shm) =>
      if size = 0 ∧ k ≠ addr then ⟨pt, b, .ok (addr, none)⟩
      else if b.m_common.isSome then ⟨pt, b, .ok (addr, none)⟩
      else
        match shm with
        | none => ⟨pt, b, .error .null_deref⟩
        | some s =>
          if addr + size > k + s.size then ⟨pt, b, .ok (addr, none)⟩
          else ⟨pt, b, .ok (k, some s)⟩

/-- Embedding of `block_t::imp_used` (vm.cpp:1401-1411): the `u32` sum of the recorded
region sizes, guard pages not counted. -/
def imp_used (b : Block) : Nat :=
  b.m_map.foldl
    (fun result entry =>
      u32 (result + u32_sub entry.2.1 (if b.flags &&& stack_guarded ≠ 0 then 0x2000 else 0)))
    0

/-! ## The block registry `g_locations`: `vm::map`, `vm::find_map`, `vm::unmap`,
`vm::reserve_map`, `vm::alloc`, `vm::dealloc` -/

/-- Modelled from the spec: `memory_location_max`, the number of fixed slots of
`enum memory_location_t` (main, user64k, user1m, rsx_context, video, stack, spu; vm.h, not
under src/). -/
def memory_location_max : Nat := 7
/-- Modelled from the spec: the enumerator `vm::stack` of `memory_location_t` (vm.h, not
under src/). -/
def stack : Nat := 5
/-- Modelled from the spec: the enumerator `vm::any` of `memory_location_t` (vm.h, not
under src/). -/
def any : Nat := 0xffffffff
/-- Modelled from the spec: `bf0_0x2` block flag (vm.h, not under src/). -/
def bf0_0x2 : Nat := 0x2
/-- Modelled from the spec: `bf0_mask = bf0_0x1 | bf0_0x2` (vm.h, not under src/). -/
def bf0_mask : Nat := bf0_0x1 ||| bf0_0x2

/-- Modelled from the spec: `utils::address_range` (util/address_range.h, not under
src/), a closed interval of `u32` addresses. -/
structure address_range where
  start : Nat
  end_ : Nat
  deriving DecidableEq, Repr

/-- Modelled from the spec: `address_range::start_length(start, length)`, the range from
`start` to `start + (length - 1)` in `u32` arithmetic (util/address_range.h, not under
src/). -/
def address_range.start_length (start length : Nat) : address_range :=
  ⟨start, u32 (start + u32_sub length 1)⟩

/-- Modelled from the spec: `address_range::valid()`, `start <= end`
(util/address_range.h, not under src/). -/
def address_range.valid (r : address_range) : Bool := decide (r.start ≤ r.end_)

/-- Modelled from the spec: `address_range::overlaps(other)`,
`start <= other.end && other.start <= end` (util/address_range.h, not under src/). -/
def address_range.overlaps (r other : address_range) : Bool :=
  decide (r.start ≤ other.end_ ∧ other.start ≤ r.end_)

/-- A non-null `std::shared_ptr<block_t>`: the address of the object and the object. -/
abbrev BlockPtr := Nat × Block

/-- The vector `g_locations` of slots, each a possibly null `shared_ptr<block_t>`.  Each
block object is held by one slot. -/
abbrev Locations := List (Option BlockPtr)

/-- The state the registry functions work on: `g_locations`, `g_pages` and the static
counter `s_id` of the constructor of `block_t` (vm.cpp:1134). -/
structure VM where
  locations : Locations
  pages : PageTable
  s_id : Nat

/-- Result of a registry function: the state left behind and the outcome. -/
structure VRes (α : Type) where
  vm : VM
  out : Except Fault α

/-- `std::make_shared<block_t>(addr, size, flags)`: `fresh` is the address of the new
object (and the identity of its common backing, if it gets one); the counter `s_id` is
drawn and incremented. -/
def make_block (g : VM) (addr size flags fresh : Nat) : BlockPtr × VM :=
  ((fresh, block_t g.s_id addr size flags fresh), { g with s_id := g.s_id + 1 })

/-- Embedding of `_test_map(addr, size)` (vm.cpp:1420-1444). -/
def _test_map (locs : Locations) (addr size : Nat) : Bool :=
  let range := address_range.start_length addr size
  if ¬ range.valid then false
  else
    locs.all fun o =>
      match o with
      | none => true
      | some (_, b) => !(range.overlaps (address_range.start_length b.addr b.size))

/-- The search loop of `_find_map` (vm.cpp:1454-1465); `fuel` bounds the number of
candidates tried.  The result is the address found, if any. -/
def _find_map_loop (locs : Locations) (size al max : Nat) : Nat → Nat → Except Fault (Option Nat)
  | 0, _ => .error .fuel_exhausted
  | fuel + 1, addr =>
    if _test_map locs addr size then .ok (some addr)
    else if addr = max then .ok none
    else _find_map_loop locs size al max fuel (u32 (addr + al))

/-- Embedding of `_find_map(size, align, flags)` (vm.cpp:1445-1468). -/
def _find_map (g : VM) (size al flags fresh : Nat) : VRes (Option BlockPtr) :=
  let max := u32_sub 0xC0000000 size &&& u32_sub 0 al
  if size > 0xC0000000 - 0x20000000 ∨ max < 0x20000000 then ⟨g, .ok none⟩
  else
    let start := align 0x20000000 al
    match _find_map_loop g.locations size al max ((max - start) / al + 1) start with
    | .error e => ⟨g, .error e⟩
    | .ok none => ⟨g, .ok none⟩
    | .ok (some addr) => ⟨(make_block g addr size flags fresh).2,
        .ok (some (make_block g addr size flags fresh).1)⟩

/-- Embedding of `_map(addr, size, flags)` (vm.cpp:1470-1495). -/
def _map (g : VM) (addr size flags fresh : Nat) : VRes (Option BlockPtr) :=
  if size = 0 ∨ (size ||| addr) % 4096 ≠ 0 then ⟨g, .error .invalid_arguments⟩
  else if ¬ _test_map g.locations addr size then ⟨g, .ok none⟩
  else if (List.range' (addr / 4096) (size / 4096)).any (fun i => g.pages i != 0) then
    ⟨g, .error .unexpected_pages⟩
  else
    ⟨{ (make_block g addr size flags fresh).2 with
        locations := g.locations ++ [some (make_block g addr size flags fresh).1] },
      .ok (some (make_block g addr size flags fresh).1)⟩

/-- The address search of `_get_map` (vm.cpp:1510-1516): the index of the first slot
whose block contains `addr`, counting from `i`. -/
def _get_map_search (addr : Nat) : Locations → Nat → Option Nat
  | [], _ => none
  | none :: t, i => _get_map_search addr t (i + 1)
  | some (_, b) :: t, i =>
    if addr ≥ b.addr ∧ addr ≤ u32_sub (u32 (b.addr + b.size)) 1 then some i
    else _get_map_search addr t (i + 1)

/-- Embedding of `_get_map(location, addr)` (vm.cpp:1497-1519), as the index of the slot
whose pointer is returned; `none` stands for `nullptr`. -/
def _get_map_slot (locs : Locations) (location addr : Nat) : Option Nat :=
  if location ≠ any then
    if location < locs.length then
      match locs.getD location none with
      | some _ => some location
      | none => none
    else none
  else _get_map_search addr locs 0

/-- The pointer `_get_map(location, addr)` returns. -/
def _get_map (locs : Locations) (location addr : Nat) : Option BlockPtr :=
  match _get_map_slot locs location addr with
  | some i => locs.getD i none
  | none => none

/-- Embedding of `vm::map(addr, size, flags)` (vm.cpp:1522-1527). -/
def map (g : VM) (addr size flags fresh : Nat) : VRes (Option BlockPtr) :=
  _map g addr size flags fresh

/-- Embedding of `vm::find_map(orig_size, align, flags)` (vm.cpp:1529-1553). -/
def find_map (g : VM) (orig_size al flags fresh : Nat) : VRes (Option BlockPtr) :=
  let size := align orig_size 0x10000
  if al < 0x10000 ∨ al ≠ 0x80000000 >>> countl_zero al then ⟨g, .error .invalid_alignment⟩
  else if size = 0 then ⟨g, .ok none⟩
  else
    let r := _find_map g size al flags fresh
    match r.out with
    | .ok (some bp) => ⟨{ r.vm with locations := r.vm.locations ++ [some bp] }, .ok (some bp)⟩
    | .ok none => ⟨r.vm, .ok none⟩
    | .error e => ⟨r.vm, .error e⟩

/-- The loop of `vm::unmap` (vm.cpp:1566-1597) over the slots `rest`, `pre` being the
slots before them.  The result is the pair `(block, removed)`. -/
def unmap_from (g : VM) (addr : Nat) (must_be_empty : Bool) (ptr : Option BlockPtr) :
    Locations → Locations → VRes (Option BlockPtr × Bool)
  | _, [] => ⟨g, .ok (none, false)⟩
  | pre, none :: t => unmap_from g addr must_be_empty ptr (pre ++ [none]) t
  | pre, some (p, b) :: t =>
    if b.addr = addr then
      if must_be_empty = true ∧ b.flags &&& bf0_mask ≠ 0 then
        unmap_from g addr must_be_empty ptr (pre ++ [some (p, b)]) t
      else if must_be_empty = false ∧ b.flags &&& bf0_mask ≠ bf0_0x2 then
        unmap_from g addr must_be_empty ptr (pre ++ [some (p, b)]) t
      else if ptr.isSome ∧ ptr.map Prod.fst ≠ some p then ⟨g, .ok (none, false)⟩
      else if must_be_empty = true ∧ imp_used b ≠ 0 then ⟨g, .ok (some (p, b), false)⟩
      else
        let r := block_t.unmap b g.pages
        match r.out with
        | .error e => ⟨{ g with locations := pre ++ t, pages := r.pages }, .error e⟩
        | .ok false => ⟨{ g with locations := pre ++ t, pages := r.pages }, .error .ensure_failed⟩
        | .ok true =>
          ⟨{ g with locations := pre ++ t, pages := r.pages }, .ok (some (p, r.block), true)⟩
    else unmap_from g addr must_be_empty ptr (pre ++ [some (p, b)]) t

/-- Embedding of `vm::unmap(addr, must_be_empty, ptr)` (vm.cpp:1555-1600); the scan
starts at slot `memory_location_max`. -/
def unmap (g : VM) (addr : Nat) (must_be_empty : Bool) (ptr : Option BlockPtr) :
    VRes (Option BlockPtr × Bool) :=
  let addr := match ptr with
    | some (_, b) => b.addr
    | none => addr
  unmap_from g addr must_be_empty ptr (g.locations.take memory_location_max)
    (g.locations.drop memory_location_max)

/-- Embedding of `vm::reserve_map(location, addr, area_size, flags)`
(vm.cpp:1609-1644). -/
def reserve_map (g : VM) (location addr area_size flags fresh : Nat) :
    VRes (Option BlockPtr) :=
  match _get_map g.locations location addr with
  | some area => ⟨g, .ok (some area)⟩
  | none =>
    if location ≠ any ∧ location < g.locations.length then
      match g.locations.getD location none with
      | some loc => ⟨g, .ok (some loc)⟩
      | none =>
        let r := _find_map g area_size 0x10000000 flags fresh
        match r.out with
        | .error e => ⟨r.vm, .error e⟩
        | .ok loc => ⟨{ r.vm with locations := r.vm.locations.set location loc }, .ok loc⟩
    else
      match _get_map g.locations location addr with
      | some area => ⟨g, .ok (some area)⟩
      | none => _map g addr area_size flags fresh

/-- Embedding of `vm::alloc(size, location, align)` (vm.cpp:953-965), named `vm_alloc`
because `alloc` is `block_t::alloc`.  Modelled from the spec: the default arguments
`addr = 0` of `vm::get` and `src = nullptr`, `flags = 0` of `block_t::alloc` (vm.h, not
under src/). -/
def vm_alloc (g : VM) (size location al fresh : Nat) : VRes Nat :=
  match _get_map_slot g.locations location 0 with
  | none =>
    if location < memory_location_max then ⟨g, .ok 0⟩ else ⟨g, .error .ensure_failed⟩
  | some i =>
    match g.locations.getD i none with
    | none => ⟨g, .error .null_deref⟩
    | some (p, b) =>
      let r := alloc b g.pages size none al 0 fresh
      ⟨{ g with locations := g.locations.set i (some (p, r.block)), pages := r.pages }, r.out⟩

/-- Embedding of `vm::dealloc(addr, location, src)` (vm.cpp:981-993), named `vm_dealloc`
because `dealloc` is `block_t::dealloc`. -/
def vm_dealloc (g : VM) (addr location : Nat) (src : Option ShmPtr) : VRes Nat :=
  match _get_map_slot g.locations location addr with
  | none =>
    if location = any ∨ location < memory_location_max then ⟨g, .ok 0⟩
    else ⟨g, .error .ensure_failed⟩
  | some i =>
    match g.locations.getD i none with
    | none => ⟨g, .error .null_deref⟩
    | some (p, b) =>
      let r := dealloc b g.pages addr src
      ⟨{ g with locations := g.locations.set i (some (p, r.block)), pages := r.pages }, r.out⟩

/-- The "main" block of `vm::init` (vm.cpp:1706). -/
def init_main : Block := block_t 1 0x00010000 0x1FFF0000 (page_size_64k ||| preallocated) 2

/-- The "video" block of `vm::init` (vm.cpp:1710). -/
def init_video : Block := block_t 3 0xC0000000 0x10000000 (page_size_64k ||| preallocated) 3

/-- The state `vm::init` leaves (vm.cpp:1702-1713): the seven fixed slots, the page table
zeroed, five ids drawn.  The objects are given the addresses 1 to 5. -/
def init_vm : VM :=
  ⟨[some (1, init_main), some (2, init_user64k), none, none, some (3, init_video),
      some (4, init_stack), some (5, init_spu)],
    init_pages, 6⟩

/-! ## Stack allocation of PPU threads (`rpcs3/Emu/Cell/lv2/sys_ppu_thread.cpp`) -/

/-- Modelled from the spec: the error codes `_sys_ppu_thread_create` returns
(`CELL_OK` and the `CellError` enumerators; Emu/Cell/ErrorCodes.h, not under src/). -/
inductive CellError where
  | CELL_OK
  | CELL_EFAULT
  | CELL_EINVAL
  | CELL_EPERM
  | CELL_ENOMEM
  | CELL_EAGAIN
  | CELL_ESRCH
  | CELL_EBUSY
  | CELL_EDEADLK
  deriving DecidableEq, Repr

/-- The two fields of `ppu_thread_params` (and of `ppu_thread`) that concern the
stack. -/
structure ppu_thread_params where
  stack_addr : Nat
  stack_size : Nat
  deriving DecidableEq, Repr

/-- Embedding of `_sys_ppu_thread_create` (sys_ppu_thread.cpp:378-457) as far as the
stack goes.  Inputs that come from outside the two source files are arguments:
`param_ok` is `param && param->entry`, `debug_or_root` is
`g_ps3_process_info.debug_or_root()`, `take_ok` is the result of `dct.take(stack_size)`,
`import_ok` says whether `idm::import` returned a thread id.  The result is the error code
and, on success, the stack fields given to the new thread. -/
def _sys_ppu_thread_create (g : VM) (param_ok : Bool) (prio : Int) (debug_or_root : Bool)
    (_stacksz flags : Nat) (take_ok import_ok : Bool) (fresh : Nat) :
    VRes (CellError × Option ppu_thread_params) :=
  if param_ok = false then ⟨g, .ok (.CELL_EFAULT, none)⟩
  else if prio < (if debug_or_root then -512 else 0) ∨ prio > 3071 then
    ⟨g, .ok (.CELL_EINVAL, none)⟩
  else if flags &&& 3 = 3 then ⟨g, .ok (.CELL_EPERM, none)⟩
  else
    let stack_size := align (max _stacksz 4096) 4096
    if take_ok = false then ⟨g, .ok (.CELL_ENOMEM, none)⟩
    else
      let r := vm_alloc g stack_size stack 4096 fresh
      match r.out with
      | .error e => ⟨r.vm, .error e⟩
      | .ok stack_base =>
        if stack_base = 0 then ⟨r.vm, .ok (.CELL_ENOMEM, none)⟩
        else if import_ok = false then
          let d := vm_dealloc r.vm stack_base any none
          match d.out with
          | .error e => ⟨d.vm, .error e⟩
          | .ok _ => ⟨d.vm, .ok (.CELL_EAGAIN, none)⟩
        else ⟨r.vm, .ok (.CELL_OK, some ⟨stack_base, stack_size⟩)⟩

/-- Embedding of `ppu_thread_exit` (sys_ppu_thread.cpp:39-57) as far as the stack goes:
`ensure(vm::dealloc(ppu.stack_addr, vm::stack) == ppu.stack_size)`. -/
def ppu_thread_exit (g : VM) (ppu : ppu_thread_params) : VRes Unit :=
  let r := vm_dealloc g ppu.stack_addr stack none
  match r.out with
  | .error e => ⟨r.vm, .error e⟩
  | .ok size => if size = ppu.stack_size then ⟨r.vm, .ok ()⟩ else ⟨r.vm, .error .ensure_failed⟩

/-! ## Reservation tokens (`vm::try_reservation_update`, `vm::reservation_lock_internal`,
`vm::reservation_shared_lock_internal`, `vm::reservation_op_internal`)
A token is the `u64` value of one `atomic_t<u64>`.  Each atomic operation of the code is
one step of the model; where other threads can change the token between two steps of a
function, the values the function meets are arguments of the model. -/

/-- Truncation to `u64`. -/
def u64 (x : Nat) : Nat := x % 0x10000000000000000

/-- Subtraction in `u64` arithmetic. -/
def u64_sub (a b : Nat) : Nat :=
  (a + 0x10000000000000000 - b % 0x10000000000000000) % 0x10000000000000000

/-- Modelled from the spec: `rsrv_unique_lock`, the "unique lock held" bit of a token
(vm_reservation.h, not under src/). -/
def rsrv_unique_lock : Nat := 64

/-- Modelled from the spec: `atomic_t<u64>::compare_and_swap_test(expected, desired)` on a
token whose current value is `cur`: the new value and whether the exchange happened
(util/atomic.hpp, not under src/). -/
def compare_and_swap_test (cur expected desired : Nat) : Nat × Bool :=
  if cur = expected then (desired, true) else (cur, false)

/-- Modelled from the spec: `reservation_try_lock(res, rtime)`, which sets the unique-lock
bit by `compare_and_swap_test(rtime, rtime | rsrv_unique_lock)` (vm_reservation.h, not
under src/). -/
def reservation_try_lock (cur rtime : Nat) : Nat × Bool :=
  compare_and_swap_test cur rtime (rtime ||| rsrv_unique_lock)

/-- Embedding of `vm::try_reservation_update(addr)` (vm.cpp:84-91) on the token of the
address.  `res_load` is the token at the load `rtime = res`, `res_now` the token when the
exchange is attempted (other threads may have changed it in between).  The result is the
token left behind and the pair `(ok, rtime)` returned. -/
def try_reservation_update (res_load res_now : Nat) : Nat × (Bool × Nat) :=
  let rtime := res_load
  if rtime &&& rsrv_unique_lock ≠ 0 then (res_now, (false, rtime))
  else
    let c := compare_and_swap_test res_now rtime (u64 (rtime + 128))
    (c.1, (c.2, rtime))

/-- What one iteration of `vm::reservation_lock_internal` reads from shared state: the
token at the load, the token when the exchange is attempted, whether
`cpu && cpu->state` holds, and the page entry `g_pages[addr / 4096]`. -/
structure LockObs where
  load : Nat
  now : Nat
  cpu_state : Bool
  page : Nat
  deriving DecidableEq, Repr

/-- Embedding of `vm::reservation_lock_internal(addr, res)` (vm.cpp:510-538) along a
finite run: the list gives what the iterations `i`, `i + 1`, ... observe.  The result is
the value returned and the token the last iteration left; `none` means that the loop is
still spinning when the observations end.  The waits (`check_state`, `busy_wait`,
`yield`) do not touch the token. -/
def reservation_lock_internal : List LockObs → Nat → Option (Nat × Nat)
  | [], _ => none
  | o :: rest, i =>
    let rtime := o.load
    if rtime &&& 127 = 0 ∧ (reservation_try_lock o.now rtime).2 = true then
      some (rtime, (reservation_try_lock o.now rtime).1)
    else if o.cpu_state = true then reservation_lock_internal rest (i + 1)
    else if i < 15 then reservation_lock_internal rest (i + 1)
    else if o.page &&& page_writable = 0 then some (0xFFFFFFFFFFFFFFFF, o.now)
    else reservation_lock_internal rest (i + 1)

/-- The values `rtime` with which `vm::reservation_lock_internal` calls
`reservation_try_lock` along a run: the same loop as `reservation_lock_internal`,
recording `rtime` at every call. -/
def reservation_lock_attempts : List LockObs → Nat → List Nat
  | [], _ => []
  | o :: rest, i =>
    let rtime := o.load
    if rtime &&& 127 = 0 then
      if (reservation_try_lock o.now rtime).2 = true then [rtime]
      else if o.cpu_state = true then rtime :: reservation_lock_attempts rest (i + 1)
      else if i < 15 then rtime :: reservation_lock_attempts rest (i + 1)
      else if o.page &&& page_writable = 0 then [rtime]
      else rtime :: reservation_lock_attempts rest (i + 1)
    else if o.cpu_state = true then reservation_lock_attempts rest (i + 1)
    else if i < 15 then reservation_lock_attempts rest (i + 1)
    else if o.page &&& page_writable = 0 then []
    else reservation_lock_attempts rest (i + 1)

/-- The atomic `fetch_op` of `vm::reservation_shared_lock_internal` (vm.cpp:544-553) on a
token of value `r`: the new value and the result of the lambda. -/
def shared_lock_attempt (r : Nat) : Nat × Bool :=
  if r &&& rsrv_unique_lock ≠ 0 then (r, false) else (u64 (r + 1), true)

/-- Embedding of `vm::reservation_shared_lock_internal(res)` (vm.cpp:540-573) along a
finite run: the list gives the token each `fetch_op` meets.  The result is the token the
successful attempt left; `none` means that the loop is still spinning when the
observations end. -/
def reservation_shared_lock_internal : List Nat → Option Nat
  | [] => none
  | r :: rest =>
    if (shared_lock_attempt r).2 = true then some (shared_lock_attempt r).1
    else reservation_shared_lock_internal rest

/-- Embedding of `vm::reservation_op_internal(addr, func)` (vm.cpp:575-593) on the token
`res`.  All other threads are suspended while the lambda runs; `func` works on state of
type `σ` other than the token.  The result is the token and the state left behind. -/
def reservation_op_internal {σ : Type} (res : Nat) (func : σ → Bool × σ) (s : σ) : Nat × σ :=
  if (func s).1 = true then (u64 (res + 127), (func s).2)
  else (u64_sub res 1, (func s).2)

/-- The page indices the scan loop of `vm::check_addr` (vm.cpp:926-948) reads from
`g_pages`, in the order it reads them: the same loop as `check_addr_loop`, recording `i`
at every `g_pages[i]`. -/
def check_addr_loop_reads (pt : PageTable) (flags max : Nat) : Nat → Nat → List Nat
  | 0, _ => []
  | fuel + 1, i =>
    if i ≤ max then
      let state := pt i
      if u8_not state &&& flags ≠ 0 then [i]
      else if state &&& page_1m_size ≠ 0 then
        i :: check_addr_loop_reads pt flags max fuel (align (i + 1) (0x100000 / 4096))
      else if state &&& page_64k_size ≠ 0 then
        i :: check_addr_loop_reads pt flags max fuel (align (i + 1) (0x10000 / 4096))
      else i :: check_addr_loop_reads pt flags max fuel (i + 1)
    else []

/-- The page indices `vm::check_addr(addr, flags, size)` (vm.cpp:910-951) reads from
`g_pages`: none on the two early returns, those of the scan loop otherwise. -/
def check_addr_reads (pt : PageTable) (addr flags size : Nat) : List Nat :=
  if size = 0 then []
  else if 0x100000000 - addr < size then []
  else
    let flags := flags ||| page_allocated
    let i := addr / 4096
    let max := u32_sub (u32 (addr + size)) 1 / 4096
    check_addr_loop_reads pt flags max (max + 2 - i) i

/-! ## Range-lock slots (`vm::alloc_range_lock`, `vm::range_lock_internal`,
`vm::free_range_lock`) -/

/-- The loop of `std::countr_one<u64>`: the number of consecutive one bits of `x` counted
from bit 0, looking at `n` bits. -/
def countr_one_aux : Nat → Nat → Nat
  | 0, _ => 0
  | n + 1, x => if x.testBit 0 then 1 + countr_one_aux n (x / 2) else 0

/-- Standard `std::countr_one` on a `u64`. -/
def countr_one (x : Nat) : Nat := countr_one_aux 64 x

/-- The pool of range-lock slots: the allocation bitmap `g_range_lock_bits` and the 64
slots `g_range_lock_set` (vm.cpp:76-79). -/
structure RangeLocks where
  bits : Nat
  set : Nat → Nat

/-- Embedding of `vm::alloc_range_lock()` (vm.cpp:135-154).  The `fetch_op` on
`g_range_lock_bits` is one atomic step; it hands back the old bitmap, from which the slot
is computed.  The result is the pool left behind and the index of the slot whose address
is returned. -/
def alloc_range_lock (s : RangeLocks) : Except Fault (RangeLocks × Nat) :=
  if u64_not s.bits ≠ 0 then
    .ok ({ s with bits := s.bits ||| u64 (s.bits + 1) }, countr_one s.bits)
  else .error .out_of_lock_bits

/-- Embedding of `vm::free_range_lock(range_lock)` (vm.cpp:232-244).  The pointer is given
as its element offset `range_lock - g_range_lock_set`. -/
def free_range_lock (s : RangeLocks) (range_lock : Int) : Except Fault RangeLocks :=
  if range_lock < 0 ∨ range_lock ≥ 64 then .error .invalid_range_lock
  else
    let diff := range_lock.toNat
    .ok ⟨s.bits &&& u64_not (1 <<< diff), fun j => if j = diff then 0 else s.set j⟩

/-- Modelled from the spec: `range_bits`, the number of flag bits at the top of a writer
descriptor (vm_locking.h, not under src/). -/
def range_bits : Nat := 3
/-- Modelled from the spec: `range_full_mask`, the mask of the flag bits of a writer
descriptor (vm_locking.h, not under src/). -/
def range_full_mask : Nat := 7 * 2 ^ 61
/-- Modelled from the spec: `range_locked`, the flag combination of a descriptor installed
by `writer_lock` for an exclusive access; it is also the marker of mirror entries
(vm_locking.h, not under src/). -/
def range_locked : Nat := 4 * 2 ^ 61

/-- How one pass of the loop of `vm::range_lock_internal` ends: `proceed` is the `break`
(the access goes ahead, the slot keeps the claim); `fault_retry test` releases the slot,
touches the unreadable page at address `test` and starts over; `wait_retry` clears the
slot, waits and starts over. -/
inductive RangeLockStep where
  | proceed
  | fault_retry (test : Nat)
  | wait_retry
  deriving DecidableEq, Repr

/-- What one pass of the loop of `vm::range_lock_internal` leaves: the value of the
thread's slot `*range_lock` and how the pass ended. -/
structure RangeLockPass where
  slot : Nat
  step : RangeLockStep
  deriving DecidableEq, Repr

/-- The search for an unreadable page in `vm::range_lock_internal` (vm.cpp:199-208), with
`n` pages left from page `i` on: the value of `test` after the loop. -/
def first_unreadable (pt : PageTable) : Nat → Nat → Nat
  | 0, _ => 0
  | n + 1, i =>
    if pt i &&& page_readable = 0 then u32 (i * 4096) else first_unreadable pt n (i + 1)

/-- Embedding of one pass of the loop of `vm::range_lock_internal(range_lock, begin, size)`
(vm.cpp:167-224).  What the pass reads from shared state are arguments: `lock_val` is the
first load of `g_range_lock`, `is_share` the mirror entry `g_shmem[begin >> 16]`,
`new_lock_val` the second load of `g_range_lock`.  `none` only if `check_addr` ran out of
its iteration bound. -/
def range_lock_pass (pt : PageTable) (begin size lock_val is_share new_lock_val : Nat) :
    Option RangeLockPass :=
  let claim := begin ||| (size <<< 32)
  let lock_addr := u32 lock_val
  let lock_size := u32 (u64 (lock_val <<< range_bits) >>> (range_bits + 32))
  let addr := begin
  let locked := lock_val &&& range_full_mask = range_locked
  let lock_size := if locked then 128 else lock_size
  let addr := if locked ∧ is_share ≠ 0 then (addr % 0x10000) ||| is_share else addr
  let lock_addr := if locked ∧ is_share ≠ 0 then lock_val else lock_addr
  if u64 (addr + size) ≤ lock_addr ∨ addr ≥ u64 (lock_addr + lock_size) then
    match check_addr pt begin page_readable size with
    | none => none
    | some ok =>
      if ok = true ∧ (new_lock_val = 0 ∨ new_lock_val = lock_val) then some ⟨claim, .proceed⟩
      else
        let i := begin / 4096
        let max := u32_sub (u32 (begin + size)) 1 / 4096
        let test := first_unreadable pt (max + 1 - i) i
        if test ≠ 0 then some ⟨0, .fault_retry test⟩ else some ⟨0, .wait_retry⟩
  else some ⟨0, .wait_retry⟩

/-! ## The mirror table `g_shmem` (`_page_map`, `_page_unmap`) -/

/-- The mirror table `g_shmem` (vm.cpp:61): one `u64` per 64 KiB of address space. -/
abbrev ShmemTable := Nat → Nat

/-- Modelled from the spec: what the mirror code uses of a `utils::shm` object (util/vm.hpp,
not under src/): its identity `id`, the value of `flags()`, the counter kept in the member
`info` (a `u64`), and the pointer `get()` returns, zero until `map_self()` has mapped the
object. -/
structure ShmObj where
  id : Nat
  flags : Nat
  info : Nat
  m_ptr : Nat
  deriving DecidableEq, Repr

/-- Modelled from the spec: `shm::map_self()` (util/vm.hpp, not under src/), which maps the
object on the first call, at the address `host` the host chooses, and returns the address
the object is mapped at. -/
def ShmObj.map_self (s : ShmObj) (host : Nat) : ShmObj × Nat :=
  if s.m_ptr ≠ 0 then (s, s.m_ptr) else ({ s with m_ptr := host }, host)

/-- The store loops of the mirror code of `_page_map` (vm.cpp:658-664, 680-683): `n`
entries from index `i` on receive `shm_self`, `shm_self + 0x10000`, ...; the result is the
table and the value of `shm_self` after the loop. -/
def shmem_store : Nat → ShmemTable → Nat → Nat → ShmemTable × Nat
  | 0, m, _, shm_self => (m, shm_self)
  | n + 1, m, i, shm_self =>
    shmem_store n (fun j => if j = i then shm_self else m j) (i + 1) (u64 (shm_self + 0x10000))

/-- The function `try_alloc` gives to `_page_map` as `search_shm` (vm.cpp:1061-1082): the
first region of an eligible block whose backing is the object `id`, as `(addr, size)`. -/
def search_shm (b : Block) (id : Nat) : Option (Nat × Nat) :=
  if page_size_mask &&& b.flags = 0 ∨ b.addr < 0x20000000 ∨ b.addr ≥ 0xC0000000 then none
  else (b.m_map.find? (fun e => decide (e.2.2.get_id = some id))).map (fun e => (e.1, e.2.1))

/-- The loop over `g_locations` in `_page_map` (vm.cpp:650-666), which writes the mirror
entries of the regions other blocks have mapped from the object; `shm_self` runs on from
one region to the next. -/
def mirror_locations (id : Nat) : Locations → ShmemTable → Nat → ShmemTable × Nat
  | [], m, shm_self => (m, shm_self)
  | none :: t, m, shm_self => mirror_locations id t m shm_self
  | some (_, b) :: t, m, shm_self =>
    match search_shm b id with
    | none => mirror_locations id t m shm_self
    | some (first, size2) =>
      let r := shmem_store (size2 / 65536) m (first / 65536) shm_self
      mirror_locations id t r.1 r.2

/-- Result of the mirror code: the mirror table and the backing object left behind, and
the outcome. -/
structure MirrorRes where
  shmem : ShmemTable
  shm : Option ShmObj
  out : Except Fault Unit

/-- The mirror code of `_page_map` (vm.cpp:635-684) for the range `[addr, addr + size)`
and the backing `shm` (`none` is a null pointer); `host` is the address the host gives to
`map_self()` should it have to map the object. -/
def page_map_mirror (locs : Locations) (m : ShmemTable) (shm : Option ShmObj)
    (addr size host : Nat) : MirrorRes :=
  match shm with
  | none => ⟨m, none, .ok ()⟩
  | some s =>
    if s.flags = 0 then ⟨m, some s, .ok ()⟩
    else
      let s1 := { s with info := u64 (s.info + 1) }
      if s.info = 0 then ⟨m, some s1, .ok ()⟩
      else
        let r : MirrorRes :=
          if s1.info = 2 then
            let ms := s1.map_self host
            let shm_self := ms.2 ^^^ range_locked
            if shm_self &&& 0xffff00000000ffff ≠ range_locked then
              ⟨m, some ms.1, .error .ensure_failed⟩
            else
              ⟨(mirror_locations s.id locs m shm_self).1, some { ms.1 with info := 0xffffffff },
                .ok ()⟩
          else ⟨m, some s1, .ok ()⟩
        match r.out, r.shm with
        | .ok _, some s2 =>
          let shm_self := s2.m_ptr ^^^ range_locked
          if shm_self &&& 0xffff00000000ffff ≠ range_locked then
            ⟨r.shmem, r.shm, .error .ensure_failed⟩
          else ⟨(shmem_store (size / 65536) r.shmem (addr / 65536) shm_self).1, r.shm, .ok ()⟩
        | _, _ => r

/-- Result of an operation on the page table and the mirror table. -/
structure MapRes (α : Type) where
  pages : PageTable
  shmem : ShmemTable
  shm : Option ShmObj
  out : Except Fault α

/-- Embedding of `_page_map(addr, flags, size, shm, bflags, search_shm)` (vm.cpp:612-730)
on the page table and the mirror table: the checks and the range lock of `_page_map`, then
the mirror code, then the store loop. -/
def _page_map_shm (locs : Locations) (pt : PageTable) (m : ShmemTable)
    (addr flags size : Nat) (shm : Option ShmObj) (host : Nat) : MapRes Unit :=
  if size = 0 ∨ (size ||| addr) % 4096 ≠ 0 ∨ flags &&& page_allocated ≠ 0 then
    ⟨pt, m, shm, .error .invalid_arguments⟩
  else if (List.range' (addr / 4096) (size / 4096)).any (fun i => pt i != 0) then
    ⟨pt, m, shm, .error .already_mapped⟩
  else
    match _lock_main_range_lock range_allocation addr size with
    | .error e => ⟨pt, m, shm, .error e⟩
    | .ok _ =>
      let r := page_map_mirror locs m shm addr size host
      match r.out with
      | .error e => ⟨pt, r.shmem, r.shm, .error e⟩
      | .ok _ =>
        let p := page_map_store (flags ||| page_allocated) (size / 4096) pt (addr / 4096)
        ⟨p.pages, r.shmem, r.shm, p.out⟩

/-- The loop `g_shmem[i].release(0)` of `_page_unmap` (vm.cpp:852-855): `n` entries from
index `i` on. -/
def shmem_clear : Nat → ShmemTable → Nat → ShmemTable
  | 0, m, _ => m
  | n + 1, m, i => shmem_clear n (fun j => if j = i then 0 else m j) (i + 1)

/-- Embedding of `_page_unmap(addr, max_size, bflags, shm)` (vm.cpp:809-908) on the page
table and the mirror table. -/
def _page_unmap_shm (pt : PageTable) (m : ShmemTable) (addr max_size : Nat)
    (shm : Option ShmObj) : MapRes Nat :=
  if max_size = 0 ∨ (max_size ||| addr) % 4096 ≠ 0 then ⟨pt, m, shm, .error .invalid_arguments⟩
  else
    match page_unmap_size pt (max_size / 4096) (addr / 4096) 0 false with
    | .error e => ⟨pt, m, shm, .error e⟩
    | .ok size =>
      match _lock_main_range_lock range_allocation addr size with
      | .error e => ⟨pt, m, shm, .error e⟩
      | .ok _ =>
        let ms : ShmemTable × Option ShmObj :=
          match shm with
          | none => (m, none)
          | some s =>
            if s.flags ≠ 0 ∧ m (addr / 65536) ≠ 0 then
              (shmem_clear (size / 65536) m (addr / 65536),
                some { s with info := u64_sub s.info 1 })
            else (m, some s)
        let r := page_unmap_clear (size / 4096) pt (addr / 4096)
        match r.out with
        | .error e => ⟨r.pages, ms.1, ms.2, .error e⟩
        | .ok _ => ⟨r.pages, ms.1, ms.2, .ok size⟩

/-! ## Join status of PPU threads (`_sys_ppu_thread_exit`, `sys_ppu_thread_join`,
`sys_ppu_thread_detach`) -/

/-- Modelled from the spec: `ppu_join_status::joinable` (Emu/Cell/PPUThread.h, not under
src/). -/
def ppu_join_status.joinable : Nat := 0
/-- Modelled from the spec: `ppu_join_status::detached` (Emu/Cell/PPUThread.h, not under
src/). -/
def ppu_join_status.detached : Nat := 1
/-- Modelled from the spec: `ppu_join_status::zombie` (Emu/Cell/PPUThread.h, not under
src/). -/
def ppu_join_status.zombie : Nat := 2
/-- Modelled from the spec: `ppu_join_status::exited` (Emu/Cell/PPUThread.h, not under
src/). -/
def ppu_join_status.exited : Nat := 3
/-- Modelled from the spec: `ppu_join_status::max`; a status from `max` on is the id of the
joining thread (Emu/Cell/PPUThread.h, not under src/). -/
def ppu_join_status.max : Nat := 4

/-- The `fetch_op` of `_sys_ppu_thread_exit` on the exiting thread's `joiner`
(sys_ppu_thread.cpp:82-93): the status it stores. -/
def _sys_ppu_thread_exit (status : Nat) : Nat :=
  if status = ppu_join_status.joinable then ppu_join_status.zombie
  else ppu_join_status.exited

/-- Embedding of `sys_ppu_thread_join(ppu, thread_id, vptr)` (sys_ppu_thread.cpp:132-215)
up to the point where it starts to wait for the target.  `ppu_id` is the caller's id and
`joiner` the status of the thread `idm::get` finds for `thread_id` (`none`: there is no
such thread); the caller is that thread, `&ppu == &thread`, when `ppu_id = thread_id`.
The result is the target's status after the `atomic_op` and the error code the call
returns at this point; `CELL_OK` and `CELL_EAGAIN` mean that the call goes on to wait
for the target. -/
def sys_ppu_thread_join (ppu_id thread_id : Nat) (joiner : Option Nat) :
    Option Nat × CellError :=
  match joiner with
  | none => (none, .CELL_ESRCH)
  | some value =>
    if ppu_id = thread_id then (some value, .CELL_EDEADLK)
    else if value = ppu_join_status.zombie then (some ppu_join_status.exited, .CELL_EAGAIN)
    else if value = ppu_join_status.exited then (some value, .CELL_ESRCH)
    else if value ≥ ppu_join_status.max then (some value, .CELL_EINVAL)
    else (some ppu_id, .CELL_OK)

/-- Embedding of `sys_ppu_thread_detach(ppu, thread_id)` (sys_ppu_thread.cpp:217-263).
`joiner` is the status of the thread `idm::withdraw` finds for `thread_id` (`none`: there
is no such thread).  The result is the target's status after the `atomic_op` and the error
code returned. -/
def sys_ppu_thread_detach (joiner : Option Nat) : Option Nat × CellError :=
  match joiner with
  | none => (none, .CELL_ESRCH)
  | some value =>
    if value = ppu_join_status.zombie then (some ppu_join_status.exited, .CELL_EAGAIN)
    else if value = ppu_join_status.exited then (some value, .CELL_ESRCH)
    else if value = ppu_join_status.detached then (some value, .CELL_EINVAL)
    else if value ≥ ppu_join_status.max then (some value, .CELL_EBUSY)
    else (some ppu_join_status.detached, .CELL_OK)

/-! ## Auxiliary notions used in the statements -/

/-- Size-class consistency of the page table: a page that carries the 1 MiB (64 KiB)
size-class flag has the same entry as every page of its 1 MiB-aligned (64 KiB-aligned)
group. -/
def SizeClassConsistent (pt : PageTable) : Prop :=
  ∀ i j, i < 0x100000 →
    (pt i &&& page_1m_size ≠ 0 → j / (0x100000 / 4096) = i / (0x100000 / 4096) → pt j = pt i) ∧
    (pt i &&& page_64k_size ≠ 0 → j / (0x10000 / 4096) = i / (0x10000 / 4096) → pt j = pt i)

/-- Spec-side reading of "page `p` has the allocated bit and every bit of `flags`": `p` is
one of the `2 ^ 20` pages of the 32-bit address space, its entry has `page_allocated`, and
every bit of `flags` is a bit of its entry. -/
def PageHas (pt : PageTable) (flags p : Nat) : Prop :=
  p < 0x100000 ∧ pt p &&& page_allocated ≠ 0 ∧ flags &&& pt p = flags

instance (pt : PageTable) (flags p : Nat) : Decidable (PageHas pt flags p) := by
  unfold PageHas; infer_instance

/-- Page table with the `n` entries from `lo` on replaced by `v`. -/
def range_set (pt : PageTable) (lo n v : Nat) : PageTable :=
  fun p => if lo ≤ p ∧ p < lo + n then v else pt p

/-- Flags `alloc`/`falloc` work with when no backing is supplied: the block's flags with
the caller's protection bits. -/
def eff_flags (b : Block) (flags : Nat) : Nat :=
  (b.flags &&& u64_not alloc_prot_mask) ||| (flags &&& alloc_prot_mask)

/-- Page table after `try_alloc` placed `R` usable bytes in the area starting at `addr`:
in a guarded block the first and last page of the area become guard pages. -/
def alloc_pages (pt : PageTable) (guarded : Bool) (addr R v : Nat) : PageTable :=
  if guarded then
    range_set ((pt.set (addr / 4096) page_allocated).set (addr / 4096 + R / 4096 + 1) page_allocated)
      (addr / 4096 + 1) (R / 4096) v
  else range_set pt (addr / 4096) (R / 4096) v

/-- The guard size `try_alloc` and `dealloc` use for a block. -/
def guard_size (b : Block) : Nat := if b.flags &&& stack_guarded ≠ 0 then 0x1000 else 0

/-- Outcome of `alloc` once the search loop takes the candidate `addr`. -/
def alloc_at (b : Block) (flags size : Nat) (shm : ShmPtr) (pt : PageTable) (addr : Nat) :
    BRes Nat :=
  let r := try_alloc b pt addr flags size shm
  match r.out with
  | .error e => ⟨r.pages, r.block, .error e⟩
  | .ok _ =>
    ⟨r.pages, r.block, .ok (u32 (addr + (if flags &&& stack_guarded ≠ 0 then 0x1000 else 0)))⟩

/-- Rounding up to the page granularity, in exact arithmetic. -/
def round_up (v g : Nat) : Nat := (v + (g - 1)) / g * g

/-- The minimal page size `alloc` derives from the flags (vm.cpp:1191). -/
def min_page (flags : Nat) : Nat := if flags &&& page_size_4k ≠ 0 then 0x1000 else 0x10000

/-- The backing `alloc` and `falloc` record when no backing is supplied. -/
def own_shm (b : Block) (fresh size : Nat) : ShmPtr :=
  if b.m_common.isSome then none else some ⟨fresh, size, 0⟩

/-- The `j`-th candidate address of the search loop of `alloc`. -/
def cand (b : Block) (al j : Nat) : Nat := round_up b.addr al + j * al

/-- The block of a state reached through the public operations in which the region map
still records a region whose pages are zero: `init_user64k` after one `alloc`. -/
def stale_block : Block := (alloc init_user64k init_pages 0x10000 none 0x10000 0 0).block

/-- The page table of that state: after the `alloc`, `page_protect` clears every flag of
the 16 pages of the region (`flags_clear` = allocated, 64 KiB class, writable, readable). -/
def stale_pages : PageTable :=
  (page_protect (alloc init_user64k init_pages 0x10000 none 0x10000 0 0).pages
    0x20000000 0x10000 0 0 0xA3).pages

/-- Candidate `j` of the first-fit search of `alloc` qualifies: the total span of `T`
bytes from the `j`-th aligned address on lies inside the block and covers only absent
pages (entries equal to zero). -/
def FreeCand (b : Block) (pt : PageTable) (al T j : Nat) : Prop :=
  cand b al j + T ≤ b.addr + b.size ∧
    ∀ x, cand b al j ≤ x → x < cand b al j + T → pt (x / 4096) = 0

/-- A page table reached from `vm::init` through the public operations in which the pages
of one 64 KiB group differ: `alloc` of 64 KiB in `init_user64k`, then `page_protect`
clearing `page_readable` on the second 4 KiB page of the region. -/
def mixed_pages : PageTable :=
  (page_protect (alloc init_user64k init_pages 0x10000 none 0x10000 0 0).pages
    0x20001000 0x1000 0 0 page_readable).pages

/-- The block that goes with `mixed_pages`. -/
def mixed_block : Block := (alloc init_user64k init_pages 0x10000 none 0x10000 0 0).block

/-- A size-class consistent page table with one mapped 64 KiB group: the 16 pages from
0x20000 on hold allocated, 64 KiB class, writable, readable (0xA3), all others zero. -/
def one_group_pages : PageTable := fun p => if p / 16 = 0x2000 then 0xA3 else 0

/-- The block `init_user64k` after `alloc(0x10000, &shm, 0x10000, page_size_64k)` with a
supplied backing `shm` of 0x20000 bytes: the region recorded is 0x10000 bytes long. -/
def oversize_block : Block :=
  (alloc init_user64k init_pages 0x10000 (some (some ⟨9, 0x20000, 0⟩)) 0x10000
    page_size_64k 0).block

/-- The page table that goes with `oversize_block`. -/
def oversize_pages : PageTable :=
  (alloc init_user64k init_pages 0x10000 (some (some ⟨9, 0x20000, 0⟩)) 0x10000
    page_size_64k 0).pages

/-- The region `[k, k+T)` is fully mapped in `pt`: page-aligned, not empty, shorter than
512 MiB, inside the 32-bit address space, every page has the allocated bit, and all pages
agree with the first one on the executable bit. -/
def RegionMapped (pt : PageTable) (k T : Nat) : Prop :=
  T ≠ 0 ∧ T % 4096 = 0 ∧ k % 4096 = 0 ∧ T < 0x20000000 ∧ k + T ≤ 0x100000000 ∧
    ∀ p, k / 4096 ≤ p → p < k / 4096 + T / 4096 →
      pt p &&& page_allocated ≠ 0 ∧
        (pt p &&& page_executable ≠ 0 ↔ pt (k / 4096) &&& page_executable ≠ 0)

/-- Every recorded region is fully mapped and no two recorded regions share an
address. -/
def RegionsMapped (m : RegionMap) (pt : PageTable) : Prop :=
  (∀ e ∈ m, RegionMapped pt e.1 e.2.1) ∧
    m.Pairwise (fun e1 e2 => e1.1 + e1.2.1 ≤ e2.1 ∨ e2.1 + e2.2.1 ≤ e1.1)

/-- The page table in which the pages of every recorded region are zero. -/
def clear_regions : RegionMap → PageTable → PageTable
  | [], pt => pt
  | (k, T, _) :: t, pt => clear_regions t (range_set pt (k / 4096) (T / 4096) 0)

/-- The stack block of `vm::init` after `alloc(0x1000, nullptr, 0x1000, alloc_executable)`:
one region whose guard pages hold `page_allocated` and whose usable page is executable. -/
def exec_stack_block : Block :=
  (alloc init_stack init_pages 0x1000 none 0x1000 alloc_executable 7).block

/-- The page table that goes with `exec_stack_block`. -/
def exec_stack_pages : PageTable :=
  (alloc init_stack init_pages 0x1000 none 0x1000 alloc_executable 7).pages

/-- The "user 64k pages" block of `vm::init` after `block_t::unmap`. -/
def torn_user64k : Block := (block_t.unmap init_user64k init_pages).block

/-- The blocks of the registry have non-empty ranges inside the 32-bit address space. -/
def Locations.Valid (locs : Locations) : Prop :=
  ∀ p b, some (p, b) ∈ locs → 0 < b.size ∧ b.addr + b.size ≤ 0x100000000

/-- The address ranges `[addr, addr+size)` of the blocks held in distinct slots of the
registry are pairwise disjoint. -/
def Locations.NoOverlap (locs : Locations) : Prop :=
  locs.Pairwise fun x y =>
    ∀ p b q c, x = some (p, b) → y = some (q, c) →
      b.addr + b.size ≤ c.addr ∨ c.addr + c.size ≤ b.addr

/-- The registry invariant: every block has a non-empty range inside the 32-bit address
space, and the ranges of the blocks held in distinct slots are pairwise disjoint. -/
def RegistryInv (locs : Locations) : Prop := Locations.Valid locs ∧ Locations.NoOverlap locs

/-- Decidable form of the relation of `Locations.NoOverlap`. -/
def slots_disjoint (x y : Option BlockPtr) : Bool :=
  match x, y with
  | some (_, b), some (_, c) => decide (b.addr + b.size ≤ c.addr ∨ c.addr + c.size ≤ b.addr)
  | _, _ => true

/-- The states reached from `vm::init` by `vm::map`, `vm::find_map`, `vm::reserve_map`,
`vm::unmap`, `vm::alloc` and `vm::dealloc` with `u32` arguments, and by any other change
of the page table. -/
inductive Reachable : VM → Prop
  | init : Reachable init_vm
  | map (g : VM) (addr size flags fresh : Nat) :
      Reachable g → addr < 0x100000000 → size < 0x100000000 →
      Reachable (map g addr size flags fresh).vm
  | find_map (g : VM) (orig_size al flags fresh : Nat) :
      Reachable g → Reachable (find_map g orig_size al flags fresh).vm
  | reserve_map (g : VM) (location addr area_size flags fresh : Nat) :
      Reachable g → addr < 0x100000000 → area_size < 0x100000000 →
      Reachable (reserve_map g location addr area_size flags fresh).vm
  | unmap (g : VM) (addr : Nat) (must_be_empty : Bool) (ptr : Option BlockPtr) :
      Reachable g → Reachable (unmap g addr must_be_empty ptr).vm
  | vm_alloc (g : VM) (size location al fresh : Nat) :
      Reachable g → Reachable (vm_alloc g size location al fresh).vm
  | vm_dealloc (g : VM) (addr location : Nat) (src : Option ShmPtr) :
      Reachable g → Reachable (vm_dealloc g addr location src).vm
  | pages (g : VM) (pt : PageTable) : Reachable g → Reachable { g with pages := pt }

/-- The registry after `vm::map(0x30000000, 0x100000, page_size_64k | bf0_0x1)` and an
allocation of 64 KiB in the new block (slot 7): a dynamically reserved block with one
outstanding region. -/
def flagged_vm : VM :=
  (vm_alloc (map init_vm 0x30000000 0x100000 (page_size_64k ||| bf0_0x1) 9).vm
    0x10000 7 0x10000 11).vm

/-- The same with creation flags `page_size_64k` only. -/
def plain_vm : VM :=
  (vm_alloc (map init_vm 0x30000000 0x100000 page_size_64k 9).vm 0x10000 7 0x10000 11).vm

/-- Spec-side reading of "every page entry is either zero or has the allocated bit
set". -/
def PageInv (pt : PageTable) : Prop := ∀ p, pt p = 0 ∨ pt p &&& page_allocated ≠ 0

/-- Every entry of `pt2` is the entry of `pt1`, or zero, or a value with the allocated
bit: what holds between the page table before and after an operation all of whose stores
are of these two kinds. -/
def WritesValid (pt1 pt2 : PageTable) : Prop :=
  ∀ p, pt2 p = pt1 p ∨ pt2 p = 0 ∨ pt2 p &&& page_allocated ≠ 0

/-- The 1 MiB block a call `vm::map(0x30000000, 0x100000, page_size_1m)` constructs. -/
def one_meg_block : Block := block_t 7 0x30000000 0x100000 page_size_1m 0

/-- The page table after `alloc(0x10000, nullptr, 0x10000, 0)` on `one_meg_block`, right
after `vm::init`: the 16 pages from 0x30000 on hold `0xC3`, with the 1 MiB size-class flag,
and the other 240 pages of the 1 MiB group are absent. -/
def one_meg_pages : PageTable := (alloc one_meg_block init_pages 0x10000 none 0x10000 0 9).pages

/-- The page table after `alloc(0x10000, nullptr, 0x10000, 0)` on the "user 64k" block,
right after `vm::init`: the 16 pages from 0x20000 on hold `0xA3`. -/
def user64k_pages : PageTable := (alloc init_user64k init_pages 0x10000 none 0x10000 0 9).pages

/-- Spec-side reading of "the naive scan that tests every page of `[addr, addr+size)` one
by one": with the two early results of `check_addr` (an empty range passes, a range
running past the 32-bit address space fails), every page from `addr / 4096` to
`(addr + size - 1) / 4096` is tested on its own for the allocated bit and the bits of
`flags`. -/
def check_addr_naive (pt : PageTable) (addr flags size : Nat) : Bool :=
  if size = 0 then true
  else if 0x100000000 - addr < size then false
  else
    (List.range' (addr / 4096) ((addr + size - 1) / 4096 + 1 - addr / 4096)).all
      (fun p => decide (u8_not (pt p) &&& (flags ||| page_allocated) = 0))

/-- Spec-side reading of "the range encoded in the global writer descriptor": the start
address is the low 32 bits and the length the bits 32 to 60 of the descriptor; for a
descriptor flagged `range_locked` the length is 128 bytes.  The result is
`(address, length)`. -/
def writer_range (lock_val : Nat) : Nat × Nat :=
  (lock_val % 2 ^ 32,
    if lock_val &&& range_full_mask = range_locked then 128 else lock_val / 2 ^ 32 % 2 ^ 29)

/-- The ranges `[a, a + s)` and `[b, b + t)` overlap. -/
def ranges_overlap (a s b t : Nat) : Prop := a < b + t ∧ b < a + s

instance (a s b t : Nat) : Decidable (ranges_overlap a s b t) := by
  unfold ranges_overlap; infer_instance

/-- A shareable backing object that has been mapped once and is not yet mapped into the
host's own address space: `flags() = 1`, `info = 1`, `get() = nullptr`. -/
def shared_obj : ShmObj := ⟨9, 1, 1, 0⟩

/-! ## Lemmas -/

theorem testBit_false_of_lt (x n i : Nat) (hx : x < 2 ^ n) (hi : n ≤ i) : x.testBit i = false :=
  Nat.testBit_lt_two_pow (lt_of_lt_of_le hx (Nat.pow_le_pow_right (by decide) hi))

theorem land_mask_eq (x k : Nat) (hk : k ≤ 32) (hx : x < 2 ^ 32) :
    x &&& (2 ^ 32 - 2 ^ k) = x / 2 ^ k * 2 ^ k := by
  apply Nat.eq_of_testBit_eq
  intro i
  have h1 : (2:Nat) ^ 32 - 2 ^ k = 2 ^ k * (2 ^ (32 - k) - 1) := by
    rw [Nat.mul_sub, ← pow_add, mul_one]
    congr 2
    omega
  rw [Nat.testBit_land, h1, Nat.mul_comm (x / 2 ^ k), Nat.testBit_mul_pow_two, Nat.testBit_mul_pow_two,
    Nat.testBit_two_pow_sub_one, ← Nat.shiftRight_eq_div_pow, Nat.testBit_shiftRight]
  by_cases hik : i ≥ k
  · simp only [hik, decide_True, Bool.true_and]
    have : k + (i - k) = i := by omega
    rw [this]
    by_cases h32 : i < 32
    · have : i - k < 32 - k := by omega
      simp [this]
    · have : ¬ (i - k < 32 - k) := by omega
      simp only [this, decide_False, Bool.and_false]
      exact (testBit_false_of_lt x 32 i hx (by omega)).symm
  · simp [hik]

theorem u8_missing_iff (s f : Nat) (hf : f < 256) :
    u8_not s &&& f = 0 ↔ f &&& s = f := by
  unfold u8_not
  have h255 : ∀ i, Nat.testBit 0xFF i = decide (i < 8) := Nat.testBit_two_pow_sub_one 8
  constructor
  · intro h
    apply Nat.eq_of_testBit_eq
    intro i
    have h2 := congrArg (fun n => Nat.testBit n i) h
    simp only [Nat.testBit_land, Nat.testBit_xor, Nat.zero_testBit, h255] at h2
    rw [Nat.testBit_land]
    by_cases hi : i < 8
    · simp only [hi, decide_True] at h2
      cases hs : s.testBit i <;> cases hfi : f.testBit i <;> simp_all
    · have : f.testBit i = false := testBit_false_of_lt f 8 i hf (by omega)
      simp [this]
  · intro h
    apply Nat.eq_of_testBit_eq
    intro i
    have h2 := congrArg (fun n => Nat.testBit n i) h
    simp only [Nat.testBit_land] at h2
    simp only [Nat.testBit_land, Nat.testBit_xor, Nat.zero_testBit, h255]
    by_cases hi : i < 8
    · cases hs : s.testBit i <;> cases hfi : f.testBit i <;> simp_all
    · have : f.testBit i = false := testBit_false_of_lt f 8 i hf (by omega)
      simp [this]

theorem land_lor_eq_iff (s f a : Nat) :
    (f ||| a) &&& s = f ||| a ↔ (a &&& s = a ∧ f &&& s = f) := by
  constructor
  · intro h
    constructor <;>
    · apply Nat.eq_of_testBit_eq
      intro i
      have h2 := congrArg (fun n => Nat.testBit n i) h
      simp only [Nat.testBit_land, Nat.testBit_lor] at h2
      rw [Nat.testBit_land]
      cases hs : s.testBit i <;> cases hfi : f.testBit i <;> cases ha : a.testBit i <;> simp_all
  · rintro ⟨h1, h2⟩
    apply Nat.eq_of_testBit_eq
    intro i
    have h1 := congrArg (fun n => Nat.testBit n i) h1
    have h2 := congrArg (fun n => Nat.testBit n i) h2
    simp only [Nat.testBit_land] at h1 h2
    simp only [Nat.testBit_land, Nat.testBit_lor]
    cases hs : s.testBit i <;> cases hfi : f.testBit i <;> cases ha : a.testBit i <;> simp_all

theorem land_single_bit (s k : Nat) : 2 ^ k &&& s = 2 ^ k ↔ s &&& 2 ^ k ≠ 0 := by
  rw [Nat.land_comm, Nat.and_two_pow]
  cases s.testBit k <;> simp [(Nat.two_pow_pos k).ne]

/-- The page test of `check_addr` against the spec-side reading. -/
theorem page_test_iff (pt : PageTable) (flags p : Nat) (hf : flags < 256) :
    u8_not (pt p) &&& (flags ||| page_allocated) = 0 ↔
      (pt p &&& page_allocated ≠ 0 ∧ flags &&& pt p = flags) := by
  have hlt : flags ||| page_allocated < 256 := by
    have := @Nat.or_lt_two_pow flags page_allocated 8 (by simpa using hf) (by decide)
    simpa using this
  rw [u8_missing_iff _ _ hlt, land_lor_eq_iff]
  have := land_single_bit (pt p) 7
  simp only [page_allocated] at *
  norm_num at this
  rw [this]

/-- For a power of two `2 ^ k` and no wrap, `align` rounds up to a multiple of `2 ^ k`. -/
theorem align_eq (v k : Nat) (hk : k < 32) (hv : v + (2 ^ k - 1) < 2 ^ 32) :
    align v (2 ^ k) = (v + (2 ^ k - 1)) / 2 ^ k * 2 ^ k := by
  have hp : (2:Nat) ^ k < 2 ^ 32 := Nat.pow_lt_pow_right (by decide) hk
  have hpos : 0 < (2:Nat) ^ k := Nat.two_pow_pos k
  unfold align u32 u32_sub
  have e1 : (0 + 0x100000000 - 2 ^ k % 0x100000000) % 0x100000000 = 2 ^ 32 - 2 ^ k := by
    norm_num at hp ⊢
    rw [Nat.mod_eq_of_lt hp, Nat.mod_eq_of_lt (by omega)]
  have e2 : (v + (2 ^ k - 1)) % 0x100000000 = v + (2 ^ k - 1) := Nat.mod_eq_of_lt (by simpa using hv)
  rw [e1, e2]
  exact land_mask_eq _ k (by omega) hv

theorem align_256 (i : Nat) (hi : i < 0x100000) : align (i + 1) (0x100000 / 4096) = (i / 256 + 1) * 256 := by
  have := align_eq (i + 1) 8 (by decide) (by norm_num; omega)
  norm_num at this ⊢
  rw [this]; omega

theorem align_16 (i : Nat) (hi : i < 0x100000) : align (i + 1) (0x10000 / 4096) = (i / 16 + 1) * 16 := by
  have := align_eq (i + 1) 4 (by decide) (by norm_num; omega)
  norm_num at this ⊢
  rw [this]; omega

/-- The scan loop returns with the iteration bound `check_addr` gives it, for every
page table. -/
theorem check_addr_loop_total (pt : PageTable) (flags max : Nat) (hmax : max < 0x100000) :
    ∀ fuel i, 1 ≤ fuel → max + 2 ≤ fuel + i → ∃ b, check_addr_loop pt flags max fuel i = some b := by
  intro fuel
  induction fuel with
  | zero => intro i h; omega
  | succ n ih =>
    intro i _ h
    unfold check_addr_loop
    by_cases him : i ≤ max
    · simp only [him, if_true]
      have hi : i < 0x100000 := by omega
      split
      · exact ⟨false, rfl⟩
      · split
        · rw [align_256 i hi]; exact ih _ (by omega) (by omega)
        · split
          · rw [align_16 i hi]; exact ih _ (by omega) (by omega)
          · exact ih _ (by omega) (by omega)
    · simp only [him, if_false]; exact ⟨true, rfl⟩

/-- Under size-class consistency the skipping scan decides exactly whether every page
of `[i, max]` passes the flag test. -/
theorem check_addr_loop_spec (pt : PageTable) (flags max : Nat) (hmax : max < 0x100000)
    (hc : SizeClassConsistent pt) :
    ∀ fuel i, 1 ≤ fuel → max + 2 ≤ fuel + i →
      (check_addr_loop pt flags max fuel i = some true ↔
        ∀ p, i ≤ p → p ≤ max → u8_not (pt p) &&& flags = 0) := by
  intro fuel
  induction fuel with
  | zero => intro i h; omega
  | succ n ih =>
    intro i _ h
    unfold check_addr_loop
    by_cases him : i ≤ max
    · simp only [him, if_true]
      have hi : i < 0x100000 := by omega
      by_cases hst : u8_not (pt i) &&& flags = 0
      · rw [if_neg (not_not.mpr hst)]
        by_cases h1m : pt i &&& page_1m_size ≠ 0
        · rw [if_pos h1m, align_256 i hi, ih _ (by omega) (by omega)]
          constructor
          · intro hh p hp1 hp2
            by_cases hp : (i / 256 + 1) * 256 ≤ p
            · exact hh p hp hp2
            · have : pt p = pt i := ((hc i p hi).1 h1m (by norm_num; omega))
              rw [this]; exact hst
          · intro hh p hp1 hp2
            exact hh p (by omega) hp2
        · rw [if_neg h1m]
          by_cases h64 : pt i &&& page_64k_size ≠ 0
          · rw [if_pos h64, align_16 i hi, ih _ (by omega) (by omega)]
            constructor
            · intro hh p hp1 hp2
              by_cases hp : (i / 16 + 1) * 16 ≤ p
              · exact hh p hp hp2
              · have : pt p = pt i := ((hc i p hi).2 h64 (by norm_num; omega))
                rw [this]; exact hst
            · intro hh p hp1 hp2
              exact hh p (by omega) hp2
          · rw [if_neg h64, ih _ (by omega) (by omega)]
            constructor
            · intro hh p hp1 hp2
              by_cases hp : i + 1 ≤ p
              · exact hh p hp hp2
              · have : p = i := by omega
                rw [this]; exact hst
            · intro hh p hp1 hp2
              exact hh p (by omega) hp2
      · rw [if_pos hst]
        constructor
        · intro hh; cases hh
        · intro hh; exact absurd (hh i (le_refl _) him) hst
    · simp only [him, if_false, true_iff]
      intro p hp1 hp2; omega

/-- The scan of `check_addr` returns for every input. -/
theorem check_addr_total (pt : PageTable) (addr flags size : Nat) (ha : addr < 0x100000000) :
    ∃ r, check_addr pt addr flags size = some r := by
  unfold check_addr
  by_cases hs : size = 0
  · rw [if_pos hs]; exact ⟨true, rfl⟩
  · rw [if_neg hs]
    by_cases hov : 0x100000000 - addr < size
    · rw [if_pos hov]; exact ⟨false, rfl⟩
    · rw [if_neg hov]
      have hl : u32_sub (u32 (addr + size)) 1 / 4096 = (addr + size - 1) / 4096 := by
        unfold u32_sub u32; omega
      simp only [hl]
      exact check_addr_loop_total pt _ _ (by omega) _ _ (by omega) (by omega)

/-- Characterisation of `check_addr` on a size-class consistent page table. -/
theorem check_addr_iff (pt : PageTable) (addr flags size : Nat)
    (ha : addr < 0x100000000) (hf : flags < 256) (hc : SizeClassConsistent pt) :
    check_addr pt addr flags size = some true ↔
      ∀ x, addr ≤ x → x < addr + size → PageHas pt flags (x / 4096) := by
  unfold check_addr
  by_cases hs : size = 0
  · rw [if_pos hs]
    simp only [true_iff]
    intro x h1 h2; omega
  · rw [if_neg hs]
    by_cases hov : 0x100000000 - addr < size
    · rw [if_pos hov]
      constructor
      · intro h; cases h
      · intro h
        have := (h 0x100000000 (by omega) (by omega)).1
        omega
    · rw [if_neg hov]
      have hl : u32_sub (u32 (addr + size)) 1 / 4096 = (addr + size - 1) / 4096 := by
        unfold u32_sub u32; omega
      simp only [hl]
      rw [check_addr_loop_spec pt _ _ (by omega) hc _ _ (by omega) (by omega)]
      constructor
      · intro h x hx1 hx2
        have := (page_test_iff pt flags (x / 4096) hf).mp (h (x / 4096) (by omega) (by omega))
        exact ⟨by omega, this⟩
      · intro h p hp1 hp2
        apply (page_test_iff pt flags p hf).mpr
        by_cases hp0 : p = addr / 4096
        · subst hp0; exact (h addr (le_refl _) (by omega)).2
        · have := (h (p * 4096) (by omega) (by omega)).2
          rwa [Nat.mul_div_cancel _ (by decide : 0 < 4096)] at this

theorem page_map_store_eq (v : Nat) : ∀ n pt i, (∀ p, i ≤ p → p < i + n → pt p = 0) →
    page_map_store v n pt i = ⟨range_set pt i n v, .ok ()⟩ := by
  intro n
  induction n with
  | zero =>
    intro pt i _
    simp only [page_map_store]
    congr 1
    funext p
    simp only [range_set]
    rw [if_neg (by omega)]
  | succ n ih =>
    intro pt i h
    have h0 : pt i = 0 := h i (le_refl _) (by omega)
    simp only [page_map_store, h0, ne_eq, not_true_eq_false, if_false]
    rw [ih]
    · congr 1
      funext p
      simp only [range_set, PageTable.set]
      by_cases h1 : p = i
      · subst h1; simp
      · by_cases h2 : i + 1 ≤ p ∧ p < i + 1 + n
        · rw [if_pos h2, if_pos (by omega)]
        · rw [if_neg h2, if_neg h1, if_neg (by omega)]
    · intro p hp1 hp2
      simp only [PageTable.set]
      rw [if_neg (by omega)]
      exact h p (by omega) (by omega)

theorem store_range_eq (v : Nat) : ∀ n pt j, store_range v n pt j = range_set pt j n v := by
  intro n
  induction n with
  | zero => intro pt j; funext p; simp only [store_range, range_set]; rw [if_neg (by omega)]
  | succ n ih =>
    intro pt j
    simp only [store_range]
    rw [ih]
    funext p
    simp only [range_set, PageTable.set]
    by_cases h1 : p = j
    · subst h1; simp
    · by_cases h2 : j + 1 ≤ p ∧ p < j + 1 + n
      · rw [if_pos h2, if_pos (by omega)]
      · rw [if_neg h2, if_neg h1, if_neg (by omega)]

theorem page_unmap_clear_eq : ∀ n pt i, (∀ p, i ≤ p → p < i + n → pt p &&& page_allocated ≠ 0) →
    page_unmap_clear n pt i = ⟨range_set pt i n 0, .ok ()⟩ := by
  intro n
  induction n with
  | zero =>
    intro pt i _
    simp only [page_unmap_clear]
    congr 1
    funext p
    simp only [range_set]
    rw [if_neg (by omega)]
  | succ n ih =>
    intro pt i h
    have h0 : pt i &&& page_allocated ≠ 0 := h i (le_refl _) (by omega)
    simp only [page_unmap_clear]
    rw [if_neg h0, ih]
    · congr 1
      funext p
      simp only [range_set, PageTable.set]
      by_cases h1 : p = i
      · subst h1; simp
      · by_cases h2 : i + 1 ≤ p ∧ p < i + 1 + n
        · rw [if_pos h2, if_pos (by omega)]
        · rw [if_neg h2, if_neg h1, if_neg (by omega)]
    · intro p hp1 hp2
      simp only [PageTable.set]
      rw [if_neg (by omega)]
      exact h p (by omega) (by omega)

/-- On a run of `n` pages that all hold the same allocated entry `v`, the size loop of
`_page_unmap` counts all of them. -/
theorem page_unmap_size_eq (pt : PageTable) (v : Nat) (hv : v &&& page_allocated ≠ 0) :
    ∀ n i size e, (∀ p, i ≤ p → p < i + n → pt p = v) → size + n * 4096 < 0x100000000 →
      (size ≠ 0 → e = decide (v &&& page_executable ≠ 0)) →
      page_unmap_size pt n i size e = .ok (size + n * 4096) := by
  intro n
  induction n with
  | zero => intro i size e _ _ _; simp [page_unmap_size]
  | succ n ih =>
    intro i size e h hs he
    have h0 : pt i = v := h i (le_refl _) (by omega)
    simp only [page_unmap_size, h0]
    rw [if_neg hv]
    have hu : u32 (size + 4096) = size + 4096 := by unfold u32; omega
    by_cases hz : size = 0
    · rw [if_pos hz, hu, ih]
      · exact congrArg Except.ok (by omega)
      · intro p hp1 hp2; exact h p (by omega) (by omega)
      · omega
      · intro _; rfl
    · rw [if_neg hz, if_neg (by rw [he hz]; simp), hu, ih]
      · exact congrArg Except.ok (by omega)
      · intro p hp1 hp2; exact h p (by omega) (by omega)
      · omega
      · intro _; exact he hz

theorem and_pow_ne_zero_iff (x k : Nat) : x &&& 2 ^ k ≠ 0 ↔ x.testBit k = true := by
  rw [Nat.and_two_pow]
  cases x.testBit k <;> simp [(Nat.two_pow_pos k).ne']

theorem testBit_u64_not (x k : Nat) (hk : k < 64) : (u64_not x).testBit k = !x.testBit k := by
  unfold u64_not
  have h : Nat.testBit 0xFFFFFFFFFFFFFFFF k = decide (k < 64) := Nat.testBit_two_pow_sub_one 64 k
  rw [Nat.testBit_xor, h]
  simp [hk]

theorem eff_flags_guard (b : Block) (flags : Nat) :
    eff_flags b flags &&& stack_guarded ≠ 0 ↔ b.flags &&& stack_guarded ≠ 0 := by
  have e : stack_guarded = 2 ^ 4 := by decide
  rw [e, and_pow_ne_zero_iff, and_pow_ne_zero_iff]
  unfold eff_flags
  rw [Nat.testBit_lor, Nat.testBit_land, Nat.testBit_land, testBit_u64_not _ _ (by decide)]
  have h1 : alloc_prot_mask.testBit 4 = false := by decide
  simp [h1]

theorem eff_flags_4k (b : Block) (flags : Nat) :
    eff_flags b flags &&& page_size_4k ≠ 0 ↔ b.flags &&& page_size_4k ≠ 0 := by
  have e : page_size_4k = 2 ^ 8 := by decide
  rw [e, and_pow_ne_zero_iff, and_pow_ne_zero_iff]
  unfold eff_flags
  rw [Nat.testBit_lor, Nat.testBit_land, Nat.testBit_land, testBit_u64_not _ _ (by decide)]
  have h1 : alloc_prot_mask.testBit 8 = false := by decide
  simp [h1]

theorem try_alloc_flags_lt (bflags : Nat) : try_alloc_flags bflags < 128 := by
  unfold try_alloc_flags
  split_ifs <;> decide

theorem try_alloc_flags_noalloc (bflags : Nat) : try_alloc_flags bflags &&& page_allocated = 0 := by
  unfold try_alloc_flags
  split_ifs <;> decide

theorem area_mapped_false_iff (pt : PageTable) (addr size : Nat) (hs : 0 < size)
    (h : addr + size ≤ 0x100000000) :
    area_mapped pt addr size = false ↔ ∀ x, addr ≤ x → x < addr + size → pt (x / 4096) = 0 := by
  unfold area_mapped
  have hl : u32_sub (u32 (addr + size)) 1 / 4096 = (addr + size - 1) / 4096 := by
    unfold u32_sub u32; omega
  simp only [hl, List.any_eq_false, List.mem_range'_1, bne_iff_ne, ne_eq, not_not]
  constructor
  · intro hh x hx1 hx2
    exact hh (x / 4096) (by omega)
  · intro hh p hp
    by_cases hp0 : p = addr / 4096
    · subst hp0; exact hh addr (le_refl _) (by omega)
    · have := hh (p * 4096) (by omega) (by omega)
      rwa [Nat.mul_div_cancel _ (by decide : 0 < 4096)] at this

theorem try_alloc_busy (b : Block) (pt : PageTable) (addr bflags size : Nat) (shm : ShmPtr)
    (h : area_mapped pt addr size = true) :
    try_alloc b pt addr bflags size shm = ⟨pt, b, .ok false⟩ := by
  unfold try_alloc; rw [if_pos h]

theorem try_alloc_out_false (b : Block) (pt : PageTable) (addr bflags size : Nat) (shm : ShmPtr)
    (h : (try_alloc b pt addr bflags size shm).out = .ok false) :
    area_mapped pt addr size = true := by
  by_contra hc
  unfold try_alloc at h
  rw [if_neg hc] at h
  simp only at h
  generalize try_alloc_guards b pt addr size = rg at h
  obtain ⟨pg, og⟩ := rg
  cases og with
  | error e => cases h
  | ok u =>
    simp only at h
    generalize _page_map pg _ _ _ = r at h
    obtain ⟨pr, o⟩ := r
    cases o <;> cases h

theorem try_alloc_out_true (b : Block) (pt : PageTable) (addr bflags size : Nat) (shm : ShmPtr)
    (h : (try_alloc b pt addr bflags size shm).out = .ok true) :
    area_mapped pt addr size = false ∧
    (try_alloc b pt addr bflags size shm).block = { b with m_map := b.m_map.assign addr (size, shm) } := by
  have hc : ¬ area_mapped pt addr size = true := by
    intro hc; rw [try_alloc_busy _ _ _ _ _ _ hc] at h; cases h
  refine ⟨by simpa using hc, ?_⟩
  unfold try_alloc at h ⊢
  rw [if_neg hc] at h ⊢
  simp only at h ⊢
  generalize try_alloc_guards b pt addr size = rg at h ⊢
  obtain ⟨pg, og⟩ := rg
  cases og with
  | error e => cases h
  | ok u =>
    simp only at h ⊢
    generalize _page_map pg _ _ _ = r at h ⊢
    obtain ⟨pr, o⟩ := r
    cases o with
    | error e => cases h
    | ok u => rfl

theorem mod_two_pow_eq_zero_iff (x n : Nat) :
    x % 2 ^ n = 0 ↔ ∀ i, i < n → x.testBit i = false := by
  constructor
  · intro h i hi
    have := Nat.testBit_mod_two_pow x n i
    rw [h, Nat.zero_testBit] at this
    simpa [hi] using this.symm
  · intro h
    apply Nat.eq_of_testBit_eq
    intro i
    rw [Nat.testBit_mod_two_pow, Nat.zero_testBit]
    by_cases hi : i < n
    · simp [h i hi]
    · simp [hi]

theorem lor_mod_eq_zero_iff (a b n : Nat) :
    (a ||| b) % 2 ^ n = 0 ↔ a % 2 ^ n = 0 ∧ b % 2 ^ n = 0 := by
  simp only [mod_two_pow_eq_zero_iff, Nat.testBit_lor, Bool.or_eq_false_iff]
  constructor
  · intro h; exact ⟨fun i hi => (h i hi).1, fun i hi => (h i hi).2⟩
  · intro h i hi; exact ⟨h.1 i hi, h.2 i hi⟩

theorem lor_mod_4096 (a b : Nat) : (a ||| b) % 4096 = 0 ↔ a % 4096 = 0 ∧ b % 4096 = 0 :=
  lor_mod_eq_zero_iff a b 12

theorem range_any_false (pt : PageTable) (lo n : Nat) (h : ∀ p, lo ≤ p → p < lo + n → pt p = 0) :
    (List.range' lo n).any (fun i => pt i != 0) = false := by
  simp only [List.any_eq_false, List.mem_range'_1, bne_iff_ne, ne_eq, not_not]
  intro p hp; exact h p hp.1 hp.2

/-- `_page_map` on an aligned, absent range of less than 512 MiB stores `flags | allocated`
in every page of the range. -/
theorem _page_map_eq (pt : PageTable) (addr flags size : Nat) (hs : size ≠ 0)
    (hsa : size % 4096 = 0) (haa : addr % 4096 = 0) (hf : flags &&& page_allocated = 0)
    (hz : ∀ p, addr / 4096 ≤ p → p < addr / 4096 + size / 4096 → pt p = 0)
    (hlim : size < 0x20000000) :
    _page_map pt addr flags size =
      ⟨range_set pt (addr / 4096) (size / 4096) (flags ||| page_allocated), .ok ()⟩ := by
  unfold _page_map
  have h1 : ¬ (size = 0 ∨ (size ||| addr) % 4096 ≠ 0 ∨ flags &&& page_allocated ≠ 0) := by
    rw [not_or, not_or]
    exact ⟨hs, not_not.mpr ((lor_mod_4096 _ _).mpr ⟨hsa, haa⟩), not_not.mpr hf⟩
  rw [if_neg h1, range_any_false pt _ _ hz]
  have h2 : _lock_main_range_lock range_allocation addr size = .ok () := by
    unfold _lock_main_range_lock
    rw [if_neg hs, if_neg (by omega)]
  simp only [h2, Bool.false_eq_true, if_false]
  exact page_map_store_eq _ _ _ _ hz

/-- `_page_map` on an aligned, absent range of 512 MiB or more throws from the range lock
and leaves the page table as it was. -/
theorem _page_map_lock_fault (pt : PageTable) (addr flags size : Nat)
    (hsa : size % 4096 = 0) (haa : addr % 4096 = 0) (hf : flags &&& page_allocated = 0)
    (hz : ∀ p, addr / 4096 ≤ p → p < addr / 4096 + size / 4096 → pt p = 0)
    (hlim : 0x20000000 ≤ size) :
    _page_map pt addr flags size = ⟨pt, .error .lock_range⟩ := by
  unfold _page_map
  have hs : size ≠ 0 := by omega
  have h1 : ¬ (size = 0 ∨ (size ||| addr) % 4096 ≠ 0 ∨ flags &&& page_allocated ≠ 0) := by
    rw [not_or, not_or]
    exact ⟨hs, not_not.mpr ((lor_mod_4096 _ _).mpr ⟨hsa, haa⟩), not_not.mpr hf⟩
  rw [if_neg h1, range_any_false pt _ _ hz]
  have h2 : _lock_main_range_lock range_allocation addr size = .error .lock_range := by
    unfold _lock_main_range_lock
    rw [if_neg hs, if_pos (by left; omega)]
  simp only [h2, Bool.false_eq_true, if_false]

theorem try_alloc_guards_eq (b : Block) (pt : PageTable) (addr R : Nat)
    (hg : b.flags &&& stack_guarded ≠ 0) (hno : addr + (R + 0x2000) ≤ 0x100000000)
    (h1 : pt (addr / 4096) = 0) (h2 : pt (addr / 4096 + R / 4096 + 1) = 0) :
    try_alloc_guards b pt addr (R + 0x2000) =
      ⟨(pt.set (addr / 4096) page_allocated).set (addr / 4096 + R / 4096 + 1) page_allocated,
        .ok ()⟩ := by
  have e2 : u32_sub (u32 (addr / 4096 + (R + 0x2000) / 4096)) 1 = addr / 4096 + R / 4096 + 1 := by
    unfold u32_sub u32; omega
  unfold try_alloc_guards
  rw [if_pos hg]
  simp only [e2]
  rw [if_neg (not_not.mpr h1)]
  have : (pt.set (addr / 4096) page_allocated) (addr / 4096 + R / 4096 + 1) = 0 := by
    simp only [PageTable.set]
    rw [if_neg (by omega)]
    exact h2
  rw [if_neg (not_not.mpr this)]

theorem try_alloc_guards_none (b : Block) (pt : PageTable) (addr size : Nat)
    (hg : ¬ b.flags &&& stack_guarded ≠ 0) :
    try_alloc_guards b pt addr size = ⟨pt, .ok ()⟩ := by
  unfold try_alloc_guards
  rw [if_neg hg]

theorem try_alloc_eq_guarded (b : Block) (pt : PageTable) (addr bflags R : Nat) (shm : ShmPtr)
    (hg : b.flags &&& stack_guarded ≠ 0)
    (haa : addr % 4096 = 0) (hR0 : 0 < R) (hR : R % 4096 = 0) (hlim : R < 0x20000000)
    (hno : addr + (R + 0x2000) ≤ 0x100000000)
    (hfree : area_mapped pt addr (R + 0x2000) = false) :
    try_alloc b pt addr bflags (R + 0x2000) shm =
      ⟨alloc_pages pt true addr R (try_alloc_flags bflags ||| page_allocated),
        { b with m_map := b.m_map.assign addr (R + 0x2000, shm) }, .ok true⟩ := by
  have hz := (area_mapped_false_iff pt addr _ (by omega) hno).mp hfree
  have hzp : ∀ p, addr / 4096 ≤ p → p < addr / 4096 + R / 4096 + 2 → pt p = 0 := by
    intro p hp1 hp2
    have := hz (p * 4096) (by omega) (by omega)
    rwa [Nat.mul_div_cancel _ (by decide : 0 < 4096)] at this
  have ea : u32 (addr + (if b.flags &&& stack_guarded ≠ 0 then 0x1000 else 0)) = addr + 0x1000 := by
    rw [if_pos hg]; unfold u32; omega
  have es : u32_sub (R + 0x2000) (if b.flags &&& stack_guarded ≠ 0 then 0x2000 else 0) = R := by
    rw [if_pos hg]; unfold u32_sub; omega
  have hpm := _page_map_eq
    ((pt.set (addr / 4096) page_allocated).set (addr / 4096 + R / 4096 + 1) page_allocated)
    (addr + 0x1000) (try_alloc_flags bflags) R (by omega) hR (by omega)
    (try_alloc_flags_noalloc _)
    (by
      intro p hp1 hp2
      simp only [PageTable.set]
      rw [if_neg (by omega), if_neg (by omega)]
      exact hzp _ (by omega) (by omega)) hlim
  have e3 : (addr + 0x1000) / 4096 = addr / 4096 + 1 := by omega
  rw [e3] at hpm
  unfold try_alloc
  rw [if_neg (by simp [hfree])]
  simp only
  rw [try_alloc_guards_eq b pt addr R hg hno (hzp _ (le_refl _) (by omega))
      (hzp _ (by omega) (by omega)), ea, es]
  simp only [hpm, alloc_pages, if_true]

theorem try_alloc_eq_plain (b : Block) (pt : PageTable) (addr bflags R : Nat) (shm : ShmPtr)
    (hg : ¬ b.flags &&& stack_guarded ≠ 0)
    (haa : addr % 4096 = 0) (hR0 : 0 < R) (hR : R % 4096 = 0) (hlim : R < 0x20000000)
    (hno : addr + R ≤ 0x100000000)
    (hfree : area_mapped pt addr R = false) :
    try_alloc b pt addr bflags R shm =
      ⟨alloc_pages pt false addr R (try_alloc_flags bflags ||| page_allocated),
        { b with m_map := b.m_map.assign addr (R, shm) }, .ok true⟩ := by
  have hz := (area_mapped_false_iff pt addr _ (by omega) hno).mp hfree
  have hzp : ∀ p, addr / 4096 ≤ p → p < addr / 4096 + R / 4096 → pt p = 0 := by
    intro p hp1 hp2
    have := hz (p * 4096) (by omega) (by omega)
    rwa [Nat.mul_div_cancel _ (by decide : 0 < 4096)] at this
  have ea : u32 (addr + (if b.flags &&& stack_guarded ≠ 0 then 0x1000 else 0)) = addr := by
    rw [if_neg hg]; unfold u32; omega
  have es : u32_sub R (if b.flags &&& stack_guarded ≠ 0 then 0x2000 else 0) = R := by
    rw [if_neg hg]; unfold u32_sub; omega
  have hpm := _page_map_eq pt addr (try_alloc_flags bflags) R (by omega) hR haa
    (try_alloc_flags_noalloc _) hzp hlim
  unfold try_alloc
  rw [if_neg (by simp [hfree])]
  simp only
  rw [try_alloc_guards_none b pt addr R hg, ea, es]
  simp only [hpm, alloc_pages, Bool.false_eq_true, if_false]

theorem try_alloc_lock_fault_plain (b : Block) (pt : PageTable) (addr bflags R : Nat)
    (shm : ShmPtr) (hg : ¬ b.flags &&& stack_guarded ≠ 0)
    (haa : addr % 4096 = 0) (hR : R % 4096 = 0) (hlim : 0x20000000 ≤ R)
    (hR32 : R < 0x100000000) (hno : addr + R ≤ 0x100000000)
    (hfree : area_mapped pt addr R = false) :
    try_alloc b pt addr bflags R shm = ⟨pt, b, .error .lock_range⟩ := by
  have hz := (area_mapped_false_iff pt addr _ (by omega) hno).mp hfree
  have hzp : ∀ p, addr / 4096 ≤ p → p < addr / 4096 + R / 4096 → pt p = 0 := by
    intro p hp1 hp2
    have := hz (p * 4096) (by omega) (by omega)
    rwa [Nat.mul_div_cancel _ (by decide : 0 < 4096)] at this
  have ea : u32 (addr + (if b.flags &&& stack_guarded ≠ 0 then 0x1000 else 0)) = addr := by
    rw [if_neg hg]; unfold u32; omega
  have es : u32_sub R (if b.flags &&& stack_guarded ≠ 0 then 0x2000 else 0) = R := by
    rw [if_neg hg]; unfold u32_sub; omega
  have hpm := _page_map_lock_fault pt addr (try_alloc_flags bflags) R hR haa
    (try_alloc_flags_noalloc _) hzp hlim
  unfold try_alloc
  rw [if_neg (by simp [hfree])]
  simp only
  rw [try_alloc_guards_none b pt addr R hg, ea, es]
  simp only [hpm]

theorem try_alloc_lock_fault_guarded (b : Block) (pt : PageTable) (addr bflags R : Nat)
    (shm : ShmPtr) (hg : b.flags &&& stack_guarded ≠ 0)
    (haa : addr % 4096 = 0) (hR : R % 4096 = 0) (hlim : 0x20000000 ≤ R)
    (hno : addr + (R + 0x2000) ≤ 0x100000000)
    (hfree : area_mapped pt addr (R + 0x2000) = false) :
    (try_alloc b pt addr bflags (R + 0x2000) shm).out = .error .lock_range := by
  have hz := (area_mapped_false_iff pt addr _ (by omega) hno).mp hfree
  have hzp : ∀ p, addr / 4096 ≤ p → p < addr / 4096 + R / 4096 + 2 → pt p = 0 := by
    intro p hp1 hp2
    have := hz (p * 4096) (by omega) (by omega)
    rwa [Nat.mul_div_cancel _ (by decide : 0 < 4096)] at this
  have ea : u32 (addr + (if b.flags &&& stack_guarded ≠ 0 then 0x1000 else 0)) = addr + 0x1000 := by
    rw [if_pos hg]; unfold u32; omega
  have es : u32_sub (R + 0x2000) (if b.flags &&& stack_guarded ≠ 0 then 0x2000 else 0) = R := by
    rw [if_pos hg]; unfold u32_sub; omega
  have hpm := _page_map_lock_fault
    ((pt.set (addr / 4096) page_allocated).set (addr / 4096 + R / 4096 + 1) page_allocated)
    (addr + 0x1000) (try_alloc_flags bflags) R hR (by omega)
    (try_alloc_flags_noalloc _)
    (by
      intro p hp1 hp2
      simp only [PageTable.set]
      rw [if_neg (by omega), if_neg (by omega)]
      exact hzp _ (by omega) (by omega)) hlim
  unfold try_alloc
  rw [if_neg (by simp [hfree])]
  simp only
  rw [try_alloc_guards_eq b pt addr R hg hno (hzp _ (le_refl _) (by omega))
      (hzp _ (by omega) (by omega)), ea, es]
  simp only [hpm]

theorem alloc_loop_busy (b : Block) (flags size al max : Nat) (shm : ShmPtr) (fuel : Nat)
    (pt : PageTable) (addr : Nat) (h : area_mapped pt addr size = true) :
    alloc_loop b flags size al max shm (fuel + 1) pt addr =
      if addr = max then ⟨pt, b, .ok 0⟩
      else alloc_loop b flags size al max shm fuel pt (u32 (addr + al)) := by
  rw [alloc_loop, try_alloc_busy _ _ _ _ _ _ h]

theorem alloc_loop_free (b : Block) (flags size al max : Nat) (shm : ShmPtr) (fuel : Nat)
    (pt : PageTable) (addr : Nat) (h : area_mapped pt addr size = false) :
    alloc_loop b flags size al max shm (fuel + 1) pt addr = alloc_at b flags size shm pt addr := by
  rw [alloc_loop, alloc_at]
  cases ho : (try_alloc b pt addr flags size shm).out with
  | error e => rfl
  | ok v =>
    cases v with
    | true => rfl
    | false =>
      have := try_alloc_out_false _ _ _ _ _ _ ho
      rw [h] at this; cases this

/-- The search loop takes the first candidate whose area is free. -/
theorem alloc_loop_first_fit (b : Block) (flags size al max : Nat) (shm : ShmPtr)
    (pt : PageTable) (hmax : max < 0x100000000) (hal : 0 < al) :
    ∀ n fuel addr, n < fuel → addr + n * al ≤ max →
      (∀ j, j < n → area_mapped pt (addr + j * al) size = true) →
      area_mapped pt (addr + n * al) size = false →
      alloc_loop b flags size al max shm fuel pt addr =
        alloc_at b flags size shm pt (addr + n * al) := by
  intro n
  induction n with
  | zero =>
    intro fuel addr hf _ _ hfree
    obtain ⟨f, rfl⟩ : ∃ f, fuel = f + 1 := ⟨fuel - 1, by omega⟩
    simp only [Nat.zero_mul, Nat.add_zero] at hfree ⊢
    exact alloc_loop_free _ _ _ _ _ _ _ _ _ hfree
  | succ n ih =>
    intro fuel addr hf hle hbusy hfree
    obtain ⟨f, rfl⟩ : ∃ f, fuel = f + 1 := ⟨fuel - 1, by omega⟩
    have h0 : area_mapped pt addr size = true := by
      have := hbusy 0 (by omega); simpa using this
    have hstep : addr + (n + 1) * al = addr + al + n * al := by
      rw [Nat.add_mul, Nat.one_mul]; omega
    have hne : addr ≠ max := by
      have : 0 < al + n * al := by omega
      omega
    have hu : u32 (addr + al) = addr + al := by
      unfold u32; apply Nat.mod_eq_of_lt
      have : 0 ≤ n * al := Nat.zero_le _
      omega
    rw [alloc_loop_busy _ _ _ _ _ _ _ _ _ h0, if_neg hne, hu, hstep]
    apply ih f (addr + al) (by omega) (by omega)
    · intro j hj
      have := hbusy (j + 1) (by omega)
      rw [show addr + (j + 1) * al = addr + al + j * al by rw [Nat.add_mul, Nat.one_mul]; omega] at this
      exact this
    · rw [← hstep]; exact hfree

/-- The search loop returns 0 when every candidate up to `max` is occupied. -/
theorem alloc_loop_exhaust (b : Block) (flags size al max : Nat) (shm : ShmPtr)
    (pt : PageTable) (hmax : max < 0x100000000) (hal : 0 < al) :
    ∀ n fuel addr, n < fuel → addr + n * al = max →
      (∀ j, j ≤ n → area_mapped pt (addr + j * al) size = true) →
      alloc_loop b flags size al max shm fuel pt addr = ⟨pt, b, .ok 0⟩ := by
  intro n
  induction n with
  | zero =>
    intro fuel addr hf he hbusy
    obtain ⟨f, rfl⟩ : ∃ f, fuel = f + 1 := ⟨fuel - 1, by omega⟩
    have h0 : area_mapped pt addr size = true := by
      have := hbusy 0 (by omega); simpa using this
    rw [alloc_loop_busy _ _ _ _ _ _ _ _ _ h0, if_pos (by omega)]
  | succ n ih =>
    intro fuel addr hf he hbusy
    obtain ⟨f, rfl⟩ : ∃ f, fuel = f + 1 := ⟨fuel - 1, by omega⟩
    have h0 : area_mapped pt addr size = true := by
      have := hbusy 0 (by omega); simpa using this
    have hstep : addr + (n + 1) * al = addr + al + n * al := by
      rw [Nat.add_mul, Nat.one_mul]; omega
    have hne : addr ≠ max := by
      have : 0 < al + n * al := by omega
      omega
    have hu : u32 (addr + al) = addr + al := by
      unfold u32; apply Nat.mod_eq_of_lt
      have : 0 ≤ n * al := Nat.zero_le _
      omega
    rw [alloc_loop_busy _ _ _ _ _ _ _ _ _ h0, if_neg hne, hu]
    apply ih f (addr + al) (by omega) (by omega)
    intro j hj
    have := hbusy (j + 1) (by omega)
    rw [show addr + (j + 1) * al = addr + al + j * al by rw [Nat.add_mul, Nat.one_mul]; omega] at this
    exact this

theorem countl_zero_aux_le (x : Nat) : ∀ n, countl_zero_aux n x ≤ n := by
  intro n
  induction n with
  | zero => simp [countl_zero_aux]
  | succ n ih =>
    simp only [countl_zero_aux]
    split <;> omega

theorem countl_zero_aux_pow2 (k : Nat) : ∀ n, k < n → countl_zero_aux n (2 ^ k) = n - 1 - k := by
  intro n
  induction n with
  | zero => intro h; omega
  | succ n ih =>
    intro h
    simp only [countl_zero_aux, Nat.testBit_two_pow]
    by_cases hk : k = n
    · subst hk; simp
    · rw [if_neg (by simpa using hk), ih (by omega)]; omega

/-- The power-of-two test of `alloc` accepts every power of two below `2 ^ 32`. -/
theorem align_check_of_pow2 (k : Nat) (hk : k < 32) :
    0x80000000 >>> countl_zero (2 ^ k) = 2 ^ k := by
  unfold countl_zero
  rw [countl_zero_aux_pow2 k 32 hk, Nat.shiftRight_eq_div_pow]
  have : (0x80000000 : Nat) = 2 ^ 31 := by norm_num
  rw [this, Nat.pow_div (by omega) (by decide)]
  congr 1; omega

/-- A non-zero value that passes the power-of-two test of `alloc` is a power of two. -/
theorem pow2_of_align_check (al : Nat) (h : al = 0x80000000 >>> countl_zero al) (h0 : al ≠ 0) :
    ∃ k, k < 32 ∧ al = 2 ^ k := by
  have hc := countl_zero_aux_le al 32
  rw [Nat.shiftRight_eq_div_pow] at h
  have e : (0x80000000 : Nat) = 2 ^ 31 := by norm_num
  rw [e] at h
  by_cases h32 : countl_zero al ≤ 31
  · rw [Nat.pow_div h32 (by decide)] at h
    exact ⟨31 - countl_zero al, by omega, h⟩
  · exfalso
    have h2 : countl_zero al = 32 := by unfold countl_zero at *; omega
    rw [h2] at h
    exact h0 (by rw [h]; decide)

theorem align_eq_gen (v k : Nat) (hk : k < 32) :
    align v (2 ^ k) = (v + (2 ^ k - 1)) % 0x100000000 / 2 ^ k * 2 ^ k := by
  have hp : (2:Nat) ^ k < 2 ^ 32 := Nat.pow_lt_pow_right (by decide) hk
  have hpos : 0 < (2:Nat) ^ k := Nat.two_pow_pos k
  unfold align u32 u32_sub
  have e1 : (0 + 0x100000000 - 2 ^ k % 0x100000000) % 0x100000000 = 2 ^ 32 - 2 ^ k := by
    norm_num at hp ⊢
    rw [Nat.mod_eq_of_lt hp, Nat.mod_eq_of_lt (by omega)]
  rw [e1]
  exact land_mask_eq _ k (by omega) (Nat.mod_lt _ (by decide))

theorem mask_eq_gen (x k : Nat) (hk : k < 32) (hx : x < 0x100000000) :
    x &&& u32_sub 0 (2 ^ k) = x / 2 ^ k * 2 ^ k := by
  have hp : (2:Nat) ^ k < 2 ^ 32 := Nat.pow_lt_pow_right (by decide) hk
  have hpos : 0 < (2:Nat) ^ k := Nat.two_pow_pos k
  unfold u32_sub
  have e1 : (0 + 0x100000000 - 2 ^ k % 0x100000000) % 0x100000000 = 2 ^ 32 - 2 ^ k := by
    norm_num at hp ⊢
    rw [Nat.mod_eq_of_lt hp, Nat.mod_eq_of_lt (by omega)]
  rw [e1]
  exact land_mask_eq _ k (by omega) hx

theorem roundup_ge (v al : Nat) (h : 0 < al) : v ≤ (v + (al - 1)) / al * al := by
  have := Nat.lt_div_mul_add (a := v + (al - 1)) h
  omega

theorem roundup_lt (v al : Nat) (h : 0 < al) : (v + (al - 1)) / al * al < v + al := by
  have := Nat.div_mul_le_self (v + (al - 1)) al
  omega

theorem mul_le_rounddown (m x al : Nat) (h : 0 < al) : m * al ≤ x / al * al ↔ m * al ≤ x := by
  constructor
  · intro hh; exact le_trans hh (Nat.div_mul_le_self x al)
  · intro hh
    exact Nat.mul_le_mul_right al ((Nat.le_div_iff_mul_le h).mpr hh)

theorem roundup_le_mul (v m al : Nat) (h : 0 < al) : (v + (al - 1)) / al * al ≤ m * al ↔ v ≤ m * al := by
  constructor
  · intro hh; exact le_trans (roundup_ge v al h) hh
  · intro hh
    apply Nat.mul_le_mul_right
    have : v + (al - 1) < (m + 1) * al := by rw [Nat.add_mul, Nat.one_mul]; omega
    have := (Nat.div_lt_iff_lt_mul h).mpr this
    omega

theorem min_page_cases (flags : Nat) : min_page flags = 2 ^ 12 ∨ min_page flags = 2 ^ 16 := by
  unfold min_page; split <;> simp

theorem align_min_page (v flags : Nat) :
    align v (min_page flags) = ((v + (min_page flags - 1)) % 0x100000000) / min_page flags * min_page flags := by
  rcases min_page_cases flags with h | h <;> rw [h] <;> exact align_eq_gen _ _ (by decide)

theorem guard_twice (b : Block) (flags : Nat) :
    (if eff_flags b flags &&& stack_guarded ≠ 0 then 0x2000 else 0) = 2 * guard_size b := by
  unfold guard_size
  by_cases h : b.flags &&& stack_guarded ≠ 0
  · rw [if_pos h, if_pos ((eff_flags_guard b flags).mpr h)]
  · rw [if_neg h, if_neg (fun hh => h ((eff_flags_guard b flags).mp hh))]

theorem guard_once (b : Block) (flags : Nat) :
    (if eff_flags b flags &&& stack_guarded ≠ 0 then 0x1000 else 0) = guard_size b := by
  unfold guard_size
  by_cases h : b.flags &&& stack_guarded ≠ 0
  · rw [if_pos h, if_pos ((eff_flags_guard b flags).mpr h)]
  · rw [if_neg h, if_neg (fun hh => h ((eff_flags_guard b flags).mp hh))]

theorem min_page_eff (b : Block) (flags : Nat) : min_page (eff_flags b flags) = min_page b.flags := by
  unfold min_page
  by_cases h : b.flags &&& page_size_4k ≠ 0
  · rw [if_pos h, if_pos ((eff_flags_4k b flags).mpr h)]
  · rw [if_neg h, if_neg (fun hh => h ((eff_flags_4k b flags).mp hh))]

theorem guard_size_cases (b : Block) : guard_size b = 0 ∨ guard_size b = 0x1000 := by
  unfold guard_size; split <;> simp

/-- The size `alloc` computes (vm.cpp:1194) is the exact total when that fits the block. -/
theorem alloc_size_exact (orig g G bsize : Nat) (hg : g = 2 ^ 12 ∨ g = 2 ^ 16)
    (ho : orig < 0x100000000) (hbs : bsize < 0x100000000)
    (hT : round_up orig g + G ≤ bsize) :
    u32 (align orig g + G) = round_up orig g + G := by
  have ha : align orig g = (orig + (g - 1)) % 0x100000000 / g * g := by
    rcases hg with h | h <;> rw [h] <;> exact align_eq_gen _ _ (by decide)
  rw [ha]
  unfold u32 round_up at *
  rcases hg with h | h <;> subst h <;> norm_num at * <;> omega

/-- When the exact total does not fit the block (or the request is empty), the size test
of `alloc` (vm.cpp:1203) rejects. -/
theorem alloc_size_reject (orig g G bsize : Nat) (hg : g = 2 ^ 12 ∨ g = 2 ^ 16)
    (hG : G = 0 ∨ G = 0x2000)
    (ho : orig < 0x100000000) (_hbs : bsize < 0x100000000)
    (hT : orig = 0 ∨ bsize < round_up orig g + G) :
    orig = 0 ∨ u32 (align orig g + G) = 0 ∨ orig > u32 (align orig g + G) ∨
      u32 (align orig g + G) > bsize := by
  have ha : align orig g = (orig + (g - 1)) % 0x100000000 / g * g := by
    rcases hg with h | h <;> rw [h] <;> exact align_eq_gen _ _ (by decide)
  rw [ha]
  unfold u32 round_up at *
  rcases hg with h | h <;> subst h <;> rcases hG with h2 | h2 <;> subst h2 <;> norm_num at * <;> omega

theorem alloc_none_unfold (b : Block) (pt : PageTable) (orig al flags fresh : Nat) :
    alloc b pt orig none al flags fresh =
      (let F := eff_flags b flags
       let size := u32 (align orig (min_page F) + (if F &&& stack_guarded ≠ 0 then 0x2000 else 0))
       if al < min_page F ∨ al ≠ 0x80000000 >>> countl_zero al then
         ⟨pt, b, .error .invalid_alignment⟩
       else if orig = 0 ∨ size = 0 ∨ orig > size ∨ size > b.size then ⟨pt, b, .ok 0⟩
       else
         let max := u32_sub (u32 (b.addr + b.size)) size &&& u32_sub 0 al
         let addr := align b.addr al
         if b.addr > min max addr then ⟨pt, b, .ok 0⟩
         else if b.m_id = 0 then ⟨pt, b, .ok 0⟩
         else alloc_loop b F size al max (own_shm b fresh size) ((max - addr) / al + 1) pt addr) := by
  unfold alloc own_shm eff_flags min_page
  simp only [Option.isNone_none, if_true, Option.isSome_none, Bool.false_eq_true, and_false,
    if_false]

/-- The path of `alloc` (no backing supplied) for a valid alignment and a request that
fits the block: either no candidate lies in the block, or the search loop runs from the
aligned base to the last candidate. -/
theorem alloc_none_path (b : Block) (pt : PageTable) (orig al flags fresh k : Nat)
    (hb : b.addr + b.size ≤ 0x100000000) (hbs : b.size < 0x100000000)
    (ho : orig < 0x100000000) (hk : k < 32) (hal : al = 2 ^ k)
    (hga : min_page b.flags ≤ al) (horig : orig ≠ 0)
    (hT : round_up orig (min_page b.flags) + 2 * guard_size b ≤ b.size) :
    alloc b pt orig none al flags fresh =
      (let T := round_up orig (min_page b.flags) + 2 * guard_size b
       let maxc := (b.addr + b.size - T) / al * al
       if round_up b.addr al ≤ maxc then
         if b.m_id = 0 then ⟨pt, b, .ok 0⟩
         else
           alloc_loop b (eff_flags b flags) T al maxc (own_shm b fresh T)
             ((maxc - round_up b.addr al) / al + 1) pt (round_up b.addr al)
       else ⟨pt, b, .ok 0⟩) := by
  have hpos : 0 < al := by rw [hal]; exact Nat.two_pow_pos k
  have hal32 : al < 0x100000000 := by
    rw [hal]; exact Nat.pow_lt_pow_right (by decide) hk
  have hsz := alloc_size_exact orig (min_page b.flags) (2 * guard_size b) b.size
    (min_page_cases _) ho hbs hT
  have hRpos : 0 < round_up orig (min_page b.flags) := by
    have := roundup_ge orig (min_page b.flags) (by rcases min_page_cases b.flags with h | h <;> rw [h] <;> decide)
    unfold round_up; omega
  have hRge : orig ≤ round_up orig (min_page b.flags) :=
    roundup_ge orig (min_page b.flags) (by rcases min_page_cases b.flags with h | h <;> rw [h] <;> decide)
  rw [alloc_none_unfold]
  simp only [min_page_eff, guard_twice, hsz]
  rw [if_neg (by
    rw [not_or]
    exact ⟨by omega, by rw [not_not, hal, align_check_of_pow2 k hk]⟩)]
  rw [if_neg (by omega)]
  generalize hTdef : round_up orig (min_page b.flags) + 2 * guard_size b = T at *
  have hmaxc : u32_sub (u32 (b.addr + b.size)) T &&& u32_sub 0 al = (b.addr + b.size - T) / al * al := by
    have e : u32_sub (u32 (b.addr + b.size)) T = b.addr + b.size - T := by
      unfold u32_sub u32; omega
    rw [e, hal]
    exact mask_eq_gen _ k hk (by omega)
  rw [hmaxc]
  have hmaxle : (b.addr + b.size - T) / al * al ≤ b.addr + b.size - T := Nat.div_mul_le_self _ _
  by_cases hw : b.addr + (al - 1) < 0x100000000
  · have haddr : align b.addr al = round_up b.addr al := by
      rw [hal, align_eq_gen _ k hk, Nat.mod_eq_of_lt (by rw [← hal]; exact hw)]
      rfl
    rw [haddr]
    have hge := roundup_ge b.addr al hpos
    by_cases hc : round_up b.addr al ≤ (b.addr + b.size - T) / al * al
    · rw [if_neg (by
        rw [Nat.min_def]; unfold round_up at *; split <;> omega)]
      simp only [hc, if_true]
    · have : b.addr > min ((b.addr + b.size - T) / al * al) (round_up b.addr al) := by
        have h1 : ¬ b.addr ≤ (b.addr + b.size - T) / al * al := by
          intro hh
          exact hc ((roundup_le_mul b.addr _ al hpos).mpr hh)
        rw [Nat.min_def]; split <;> omega
      rw [if_pos this]
      simp only [hc, if_false]
  · -- the aligned base wraps: no candidate
    have hlt : align b.addr al < b.addr := by
      rw [hal, align_eq_gen _ k hk, ← hal]
      have h1 : (b.addr + (al - 1)) % 0x100000000 = b.addr + (al - 1) - 0x100000000 := by omega
      rw [h1]
      have := Nat.div_mul_le_self (b.addr + (al - 1) - 0x100000000) al
      omega
    have hc : ¬ round_up b.addr al ≤ (b.addr + b.size - T) / al * al := by
      intro hh
      -- `2 ^ 32` is a multiple of `al`, so the rounded base is at least `2 ^ 32`
      have hM : 2 ^ (32 - k) * al = 0x100000000 := by
        rw [hal, ← pow_add]
        have : 32 - k + k = 32 := by omega
        rw [this]; norm_num
      have h2 : 2 ^ (32 - k) * al ≤ round_up b.addr al := by
        unfold round_up
        apply Nat.mul_le_mul_right
        apply (Nat.le_div_iff_mul_le hpos).mpr
        omega
      omega
    rw [if_pos (by rw [Nat.min_def]; split <;> omega)]
    simp only [hc, if_false]

theorem cand_eq_mul (b : Block) (al j : Nat) :
    cand b al j = ((b.addr + (al - 1)) / al + j) * al := by
  unfold cand round_up; rw [Nat.add_mul]

theorem cand_ge (b : Block) (al j : Nat) (h : 0 < al) : b.addr ≤ cand b al j := by
  have := roundup_ge b.addr al h
  unfold cand round_up; omega

theorem pow2_dvd_4096 (k : Nat) (hk : 2 ^ 12 ≤ 2 ^ k) : ∃ m, 2 ^ k = 4096 * m := by
  have : 12 ≤ k := (Nat.pow_le_pow_iff_right (by decide)).mp hk
  refine ⟨2 ^ (k - 12), ?_⟩
  have e : (4096 : Nat) = 2 ^ 12 := by norm_num
  rw [e, ← pow_add]
  congr 1; omega

theorem cand_mod (b : Block) (al j k : Nat) (hal : al = 2 ^ k) (hk : 2 ^ 12 ≤ al) :
    cand b al j % 4096 = 0 := by
  obtain ⟨m, hm⟩ := pow2_dvd_4096 k (by rw [← hal]; exact hk)
  rw [cand_eq_mul, hal, hm, Nat.mul_comm 4096 m, ← Nat.mul_assoc]
  exact Nat.mul_mod_left _ _

theorem min_page_ge (flags : Nat) : 2 ^ 12 ≤ min_page flags := by
  rcases min_page_cases flags with h | h <;> rw [h]
  exact Nat.pow_le_pow_right (by decide) (by decide)

theorem cand_le_maxc (b : Block) (al j X : Nat) (h : 0 < al) :
    cand b al j ≤ X / al * al ↔ cand b al j ≤ X := by
  rw [cand_eq_mul]; exact mul_le_rounddown _ _ _ h

/-- First fit: when candidate `j` is the first one whose area is free and it lies in the
block, `alloc` takes it. -/
theorem alloc_none_first_fit (b : Block) (pt : PageTable) (orig al flags fresh k j : Nat)
    (hb : b.addr + b.size ≤ 0x100000000) (hbs : b.size < 0x100000000)
    (ho : orig < 0x100000000) (hk : k < 32) (hal : al = 2 ^ k)
    (hga : min_page b.flags ≤ al) (horig : orig ≠ 0) (hid : b.m_id ≠ 0)
    (hin : cand b al j + (round_up orig (min_page b.flags) + 2 * guard_size b) ≤ b.addr + b.size)
    (hfree : area_mapped pt (cand b al j)
      (round_up orig (min_page b.flags) + 2 * guard_size b) = false)
    (hmin : ∀ i, i < j → area_mapped pt (cand b al i)
      (round_up orig (min_page b.flags) + 2 * guard_size b) = true) :
    alloc b pt orig none al flags fresh =
      alloc_at b (eff_flags b flags) (round_up orig (min_page b.flags) + 2 * guard_size b)
        (own_shm b fresh (round_up orig (min_page b.flags) + 2 * guard_size b)) pt
        (cand b al j) := by
  have hpos : 0 < al := by rw [hal]; exact Nat.two_pow_pos k
  have hcg := cand_ge b al j hpos
  have hTpos : 0 < round_up orig (min_page b.flags) + 2 * guard_size b := by
    have := roundup_ge orig (min_page b.flags) (by have := min_page_ge b.flags; omega)
    unfold round_up; omega
  rw [alloc_none_path b pt orig al flags fresh k hb hbs ho hk hal hga horig (by omega)]
  generalize round_up orig (min_page b.flags) + 2 * guard_size b = T at *
  simp only
  have hjm : cand b al j ≤ (b.addr + b.size - T) / al * al :=
    (cand_le_maxc b al j _ hpos).mpr (by omega)
  have h0 : round_up b.addr al ≤ (b.addr + b.size - T) / al * al := by
    have : round_up b.addr al ≤ cand b al j := by unfold cand; omega
    omega
  rw [if_pos h0, if_neg hid]
  have hml := Nat.div_mul_le_self (b.addr + b.size - T) al
  apply alloc_loop_first_fit b _ T al _ _ pt (by omega) hpos j
  · have : j ≤ ((b.addr + b.size - T) / al * al - round_up b.addr al) / al := by
      apply (Nat.le_div_iff_mul_le hpos).mpr
      unfold cand at hjm; omega
    omega
  · exact hjm
  · exact hmin
  · exact hfree

/-- When every candidate inside the block is occupied, `alloc` returns 0 and changes
nothing. -/
theorem alloc_none_exhaust (b : Block) (pt : PageTable) (orig al flags fresh k : Nat)
    (hb : b.addr + b.size ≤ 0x100000000) (hbs : b.size < 0x100000000)
    (ho : orig < 0x100000000) (hk : k < 32) (hal : al = 2 ^ k)
    (hga : min_page b.flags ≤ al) (horig : orig ≠ 0)
    (hT : round_up orig (min_page b.flags) + 2 * guard_size b ≤ b.size)
    (hall : ∀ j, cand b al j + (round_up orig (min_page b.flags) + 2 * guard_size b)
        ≤ b.addr + b.size →
      area_mapped pt (cand b al j)
        (round_up orig (min_page b.flags) + 2 * guard_size b) = true) :
    alloc b pt orig none al flags fresh = ⟨pt, b, .ok 0⟩ := by
  have hpos : 0 < al := by rw [hal]; exact Nat.two_pow_pos k
  have hTpos : 0 < round_up orig (min_page b.flags) + 2 * guard_size b := by
    have := roundup_ge orig (min_page b.flags) (by have := min_page_ge b.flags; omega)
    unfold round_up; omega
  rw [alloc_none_path b pt orig al flags fresh k hb hbs ho hk hal hga horig hT]
  generalize round_up orig (min_page b.flags) + 2 * guard_size b = T at *
  simp only
  split
  · rename_i h0
    split
    · rfl
    · have hml := Nat.div_mul_le_self (b.addr + b.size - T) al
      -- the last candidate index
      have hdiv : ((b.addr + b.size - T) / al * al - round_up b.addr al) / al * al =
          (b.addr + b.size - T) / al * al - round_up b.addr al := by
        unfold round_up at *
        rw [← Nat.sub_mul, Nat.mul_div_cancel _ hpos]
      apply alloc_loop_exhaust b _ T al _ _ pt (by omega) hpos
        (((b.addr + b.size - T) / al * al - round_up b.addr al) / al)
      · omega
      · rw [hdiv]; omega
      · intro j hj
        apply hall
        have h1 : j * al ≤ ((b.addr + b.size - T) / al * al - round_up b.addr al) / al * al :=
          Nat.mul_le_mul_right al hj
        unfold cand; omega
  · rfl

theorem round_up_mod (v g : Nat) (hg : g = 2 ^ 12 ∨ g = 2 ^ 16) : round_up v g % 4096 = 0 := by
  unfold round_up
  rcases hg with h | h <;> subst h <;> omega

/-- Result of `alloc` at a free candidate `c` for a usable size `R` below 512 MiB. -/
theorem alloc_at_eq (b : Block) (pt : PageTable) (flags c R T : Nat) (shm : ShmPtr)
    (hT : T = R + 2 * guard_size b)
    (hc : c % 4096 = 0) (hR0 : 0 < R) (hR : R % 4096 = 0) (hlim : R < 0x20000000)
    (hno : c + T ≤ 0x100000000) (hfree : area_mapped pt c T = false) :
    alloc_at b (eff_flags b flags) T shm pt c =
      ⟨alloc_pages pt (decide (b.flags &&& stack_guarded ≠ 0)) c R
          (try_alloc_flags (eff_flags b flags) ||| page_allocated),
        { b with m_map := b.m_map.assign c (T, shm) }, .ok (c + guard_size b)⟩ := by
  unfold alloc_at
  rw [guard_once]
  by_cases hg : b.flags &&& stack_guarded ≠ 0
  · have hgs : guard_size b = 0x1000 := by unfold guard_size; rw [if_pos hg]
    have hT2 : T = R + 0x2000 := by omega
    subst hT2
    rw [try_alloc_eq_guarded b pt c _ R shm hg hc hR0 hR hlim hno hfree]
    simp only [decide_eq_true hg]
    congr 2
    unfold u32; omega
  · have hgs : guard_size b = 0 := by unfold guard_size; rw [if_neg hg]
    have hT2 : T = R := by omega
    subst hT2
    rw [try_alloc_eq_plain b pt c _ T shm hg hc hR0 hR hlim hno hfree]
    simp only [decide_eq_false hg]
    congr 2
    unfold u32; omega

/-- At a free candidate, a usable size of 512 MiB or more makes `alloc` throw from the
range lock. -/
theorem alloc_at_lock_fault (b : Block) (pt : PageTable) (flags c R T : Nat) (shm : ShmPtr)
    (hT : T = R + 2 * guard_size b)
    (hc : c % 4096 = 0) (hR : R % 4096 = 0) (hlim : 0x20000000 ≤ R)
    (hT32 : T < 0x100000000)
    (hno : c + T ≤ 0x100000000) (hfree : area_mapped pt c T = false) :
    (alloc_at b (eff_flags b flags) T shm pt c).out = .error .lock_range := by
  unfold alloc_at
  by_cases hg : b.flags &&& stack_guarded ≠ 0
  · have hgs : guard_size b = 0x1000 := by unfold guard_size; rw [if_pos hg]
    have hT2 : T = R + 0x2000 := by omega
    subst hT2
    have := try_alloc_lock_fault_guarded b pt c (eff_flags b flags) R shm hg hc hR hlim hno hfree
    simp only [this]
  · have hgs : guard_size b = 0 := by unfold guard_size; rw [if_neg hg]
    have hT2 : T = R := by omega
    subst hT2
    rw [try_alloc_lock_fault_plain b pt c _ T shm hg hc hR hlim (by omega) hno hfree]

/-- An alignment below the page granularity, or one that is not a power of two, makes
`alloc` throw before it touches anything. -/
theorem alloc_none_invalid (b : Block) (pt : PageTable) (orig al flags fresh : Nat)
    (h : al < min_page b.flags ∨ ¬ ∃ k, al = 2 ^ k) :
    alloc b pt orig none al flags fresh = ⟨pt, b, .error .invalid_alignment⟩ := by
  rw [alloc_none_unfold]
  simp only [min_page_eff]
  rw [if_pos]
  rcases h with h | h
  · left; exact h
  · by_cases h0 : al = 0
    · left; have := min_page_ge b.flags; omega
    · right
      intro hh
      obtain ⟨k, _, hk⟩ := pow2_of_align_check al hh h0
      exact h ⟨k, hk⟩

/-- An empty request, or one whose total size exceeds the block, makes `alloc` return 0
and change nothing. -/
theorem alloc_none_reject (b : Block) (pt : PageTable) (orig al flags fresh k : Nat)
    (hbs : b.size < 0x100000000) (ho : orig < 0x100000000)
    (hk : k < 32) (hal : al = 2 ^ k) (hga : min_page b.flags ≤ al)
    (h : orig = 0 ∨ b.size < round_up orig (min_page b.flags) + 2 * guard_size b) :
    alloc b pt orig none al flags fresh = ⟨pt, b, .ok 0⟩ := by
  rw [alloc_none_unfold]
  simp only [min_page_eff, guard_twice]
  rw [if_neg (by
    rw [not_or]
    exact ⟨by omega, by rw [not_not, hal, align_check_of_pow2 k hk]⟩)]
  rw [if_pos (alloc_size_reject orig (min_page b.flags) (2 * guard_size b) b.size
    (min_page_cases _) (by rcases guard_size_cases b with h | h <;> rw [h] <;> simp) ho hbs h)]

/-- On a block that was already unmapped `alloc` does not fault and returns 0. -/
theorem alloc_none_expired (b : Block) (pt : PageTable) (orig al flags fresh k : Nat)
    (hb : b.addr + b.size ≤ 0x100000000) (hbs : b.size < 0x100000000)
    (ho : orig < 0x100000000) (hk : k < 32) (hal : al = 2 ^ k)
    (hga : min_page b.flags ≤ al) (hid : b.m_id = 0) :
    alloc b pt orig none al flags fresh = ⟨pt, b, .ok 0⟩ := by
  by_cases h : orig = 0 ∨ b.size < round_up orig (min_page b.flags) + 2 * guard_size b
  · exact alloc_none_reject b pt orig al flags fresh k hbs ho hk hal hga h
  · rw [not_or] at h
    rw [alloc_none_path b pt orig al flags fresh k hb hbs ho hk hal hga h.1 (by omega)]
    simp only [hid, if_true]
    split <;> rfl

theorem exists_least (P : Nat → Prop) (h : ∃ n, P n) : ∃ n, P n ∧ ∀ m, m < n → ¬ P m := by
  classical
  exact ⟨Nat.find h, Nat.find_spec h, fun m hm => Nat.find_min h hm⟩

theorem cand_mono (b : Block) (al i j : Nat) (h : i ≤ j) : cand b al i ≤ cand b al j := by
  unfold cand
  have := Nat.mul_le_mul_right al h
  omega

/-- What a successful `alloc` (no backing supplied, non-zero result) has done: the
alignment was valid, the usable size is below 512 MiB, and the first free candidate
inside the block was taken. -/
theorem alloc_none_success (b : Block) (pt : PageTable) (orig al flags fresh a : Nat)
    (hb : b.addr + b.size ≤ 0x100000000) (hbs : b.size < 0x100000000)
    (ho : orig < 0x100000000)
    (h : (alloc b pt orig none al flags fresh).out = .ok a) (ha : a ≠ 0) :
    ∃ k j, k < 32 ∧ al = 2 ^ k ∧ min_page b.flags ≤ al ∧ orig ≠ 0 ∧ b.m_id ≠ 0 ∧
      round_up orig (min_page b.flags) < 0x20000000 ∧
      cand b al j + (round_up orig (min_page b.flags) + 2 * guard_size b) ≤ b.addr + b.size ∧
      area_mapped pt (cand b al j) (round_up orig (min_page b.flags) + 2 * guard_size b) = false ∧
      (∀ i, i < j → area_mapped pt (cand b al i)
        (round_up orig (min_page b.flags) + 2 * guard_size b) = true) ∧
      alloc b pt orig none al flags fresh =
        ⟨alloc_pages pt (decide (b.flags &&& stack_guarded ≠ 0)) (cand b al j)
            (round_up orig (min_page b.flags))
            (try_alloc_flags (eff_flags b flags) ||| page_allocated),
          { b with m_map := (b.m_map.assign (cand b al j)
              (round_up orig (min_page b.flags) + 2 * guard_size b,
                own_shm b fresh (round_up orig (min_page b.flags) + 2 * guard_size b))) },
          .ok (cand b al j + guard_size b)⟩ := by
  by_cases hinv : al < min_page b.flags ∨ ¬ ∃ k, al = 2 ^ k
  · rw [alloc_none_invalid b pt orig al flags fresh hinv] at h; cases h
  rw [not_or, not_not] at hinv
  obtain ⟨hga0, k, hal⟩ := hinv
  have hga : min_page b.flags ≤ al := Nat.le_of_not_lt hga0
  have hchk : al = 0x80000000 >>> countl_zero al := by
    by_contra hc
    have : alloc b pt orig none al flags fresh = ⟨pt, b, .error .invalid_alignment⟩ := by
      rw [alloc_none_unfold]; simp only; rw [if_pos (Or.inr hc)]
    rw [this] at h; cases h
  have hal0 : al ≠ 0 := by rw [hal]; exact (Nat.two_pow_pos k).ne'
  obtain ⟨k, hk, hal⟩ := pow2_of_align_check al hchk hal0
  by_cases hrej : orig = 0 ∨ b.size < round_up orig (min_page b.flags) + 2 * guard_size b
  · rw [alloc_none_reject b pt orig al flags fresh k hbs ho hk hal hga hrej] at h
    cases h; exact absurd rfl ha
  rw [not_or] at hrej
  obtain ⟨horig, hT⟩ := hrej
  by_cases hid : b.m_id = 0
  · rw [alloc_none_expired b pt orig al flags fresh k hb hbs ho hk hal hga hid] at h
    cases h; exact absurd rfl ha
  have hpos : 0 < al := by rw [hal]; exact Nat.two_pow_pos k
  by_cases hex : ∃ j, cand b al j + (round_up orig (min_page b.flags) + 2 * guard_size b)
      ≤ b.addr + b.size ∧
      area_mapped pt (cand b al j) (round_up orig (min_page b.flags) + 2 * guard_size b) = false
  · obtain ⟨j, ⟨hin, hfree⟩, hmin⟩ := exists_least _ hex
    have hbusy : ∀ i, i < j → area_mapped pt (cand b al i)
        (round_up orig (min_page b.flags) + 2 * guard_size b) = true := by
      intro i hi
      have h1 := hmin i hi
      rw [not_and] at h1
      have := cand_mono b al i j (by omega)
      simpa using h1 (by omega)
    have hff := alloc_none_first_fit b pt orig al flags fresh k j hb hbs ho hk hal hga horig hid
      hin hfree hbusy
    have hcm := cand_mod b al j k hal (le_trans (min_page_ge b.flags) hga)
    have hR0 : 0 < round_up orig (min_page b.flags) := by
      have := roundup_ge orig (min_page b.flags) (by have := min_page_ge b.flags; omega)
      unfold round_up; omega
    have hRm := round_up_mod orig (min_page b.flags) (min_page_cases _)
    have hcg := cand_ge b al j hpos
    by_cases hlim : round_up orig (min_page b.flags) < 0x20000000
    · refine ⟨k, j, hk, hal, hga, horig, hid, hlim, hin, hfree, hbusy, ?_⟩
      rw [hff]
      exact alloc_at_eq b pt flags (cand b al j) _ _ _ rfl hcm hR0 hRm hlim (by omega) hfree
    · exfalso
      have := alloc_at_lock_fault b pt flags (cand b al j) (round_up orig (min_page b.flags)) _
        (own_shm b fresh (round_up orig (min_page b.flags) + 2 * guard_size b)) rfl hcm hRm
        (by omega) (by omega) (by omega) hfree
      rw [hff, this] at h; cases h
  · exfalso
    have hall : ∀ j, cand b al j + (round_up orig (min_page b.flags) + 2 * guard_size b)
        ≤ b.addr + b.size →
        area_mapped pt (cand b al j)
          (round_up orig (min_page b.flags) + 2 * guard_size b) = true := by
      intro j hj
      by_contra hc
      exact hex ⟨j, hj, by simpa using hc⟩
    rw [alloc_none_exhaust b pt orig al flags fresh k hb hbs ho hk hal hga horig (by omega) hall] at h
    cases h; exact absurd rfl ha

theorem RegionMap.find_assign (m : RegionMap) (k : Nat) (v : Nat × ShmPtr) :
    RegionMap.find (RegionMap.assign m k v) k = some v := by
  induction m with
  | nil => simp [RegionMap.assign, RegionMap.find]
  | cons hd tl ih =>
    obtain ⟨k1, v1⟩ := hd
    simp only [RegionMap.assign]
    by_cases h1 : k < k1
    · simp [h1, RegionMap.find]
    · by_cases h2 : k = k1
      · simp [h1, h2, RegionMap.find]
      · simp only [h1, h2, if_false, RegionMap.find]
        exact ih

theorem RegionMap.erase_assign (m : RegionMap) (k : Nat) (v : Nat × ShmPtr)
    (h : RegionMap.find m k = none) :
    RegionMap.erase (RegionMap.assign m k v) k = m := by
  induction m with
  | nil => simp [RegionMap.assign, RegionMap.erase]
  | cons hd tl ih =>
    obtain ⟨k1, v1⟩ := hd
    simp only [RegionMap.find] at h
    by_cases h2 : k = k1
    · simp [h2] at h
    · simp only [h2, if_false] at h
      simp only [RegionMap.assign]
      by_cases h1 : k < k1
      · simp [h1, RegionMap.erase]
      · simp only [h1, h2, if_false, RegionMap.erase]
        rw [ih h]

theorem lor_allocated_ne (x : Nat) : (x ||| page_allocated) &&& page_allocated ≠ 0 := by
  have e : page_allocated = 2 ^ 7 := by decide
  rw [e, and_pow_ne_zero_iff, Nat.testBit_lor, Nat.testBit_two_pow_self]
  simp

/-- `_page_unmap` on an aligned range of less than 512 MiB whose pages all hold the same
allocated entry clears exactly that range and returns its size. -/
theorem _page_unmap_eq (pt : PageTable) (addr size v : Nat) (hs : size ≠ 0)
    (hsa : size % 4096 = 0) (haa : addr % 4096 = 0) (hv : v &&& page_allocated ≠ 0)
    (hall : ∀ p, addr / 4096 ≤ p → p < addr / 4096 + size / 4096 → pt p = v)
    (hlim : size < 0x20000000) :
    _page_unmap pt addr size = ⟨range_set pt (addr / 4096) (size / 4096) 0, .ok size⟩ := by
  unfold _page_unmap
  have h1 : ¬ (size = 0 ∨ (size ||| addr) % 4096 ≠ 0) := by
    rw [not_or]
    exact ⟨hs, not_not.mpr ((lor_mod_4096 _ _).mpr ⟨hsa, haa⟩)⟩
  rw [if_neg h1]
  have h2 := page_unmap_size_eq pt v hv (size / 4096) (addr / 4096) 0 false hall (by omega)
    (fun h => absurd rfl h)
  have e : 0 + size / 4096 * 4096 = size := by omega
  rw [e] at h2
  rw [h2]
  have h3 : _lock_main_range_lock range_allocation addr size = .ok () := by
    unfold _lock_main_range_lock
    rw [if_neg hs, if_neg (by omega)]
  simp only [h3]
  rw [page_unmap_clear_eq (size / 4096) pt (addr / 4096)
    (fun p hp1 hp2 => by rw [hall p hp1 hp2]; exact hv)]

theorem alloc_pages_undo_guarded (pt : PageTable) (c R v : Nat)
    (hz : ∀ p, c / 4096 ≤ p → p < c / 4096 + R / 4096 + 2 → pt p = 0) :
    range_set (((alloc_pages pt true c R v).set (c / 4096) 0).set (c / 4096 + 1 + R / 4096) 0)
      (c / 4096 + 1) (R / 4096) 0 = pt := by
  funext p
  simp only [range_set, PageTable.set, alloc_pages, if_true]
  by_cases h1 : c / 4096 + 1 ≤ p ∧ p < c / 4096 + 1 + R / 4096
  · rw [if_pos h1]; exact (hz p (by omega) (by omega)).symm
  · rw [if_neg h1]
    by_cases h2 : p = c / 4096 + 1 + R / 4096
    · rw [if_pos h2]; exact (hz p (by omega) (by omega)).symm
    · rw [if_neg h2]
      by_cases h3 : p = c / 4096
      · rw [if_pos h3]; exact (hz p (by omega) (by omega)).symm
      · rw [if_neg h3, if_neg h1, if_neg (by omega), if_neg h3]

theorem alloc_pages_undo_plain (pt : PageTable) (c R v : Nat)
    (hz : ∀ p, c / 4096 ≤ p → p < c / 4096 + R / 4096 → pt p = 0) :
    range_set (alloc_pages pt false c R v) (c / 4096) (R / 4096) 0 = pt := by
  funext p
  simp only [range_set, alloc_pages, Bool.false_eq_true, if_false]
  by_cases h1 : c / 4096 ≤ p ∧ p < c / 4096 + R / 4096
  · rw [if_pos h1]; exact (hz p h1.1 h1.2).symm
  · rw [if_neg h1, if_neg h1]

theorem dealloc_guards_eq (b : Block) (pt : PageTable) (c R : Nat)
    (hg : b.flags &&& stack_guarded ≠ 0) (hc : c % 4096 = 0)
    (hno : c + (R + 0x2000) ≤ 0x100000000)
    (h1 : pt (c / 4096) = page_allocated) (h2 : pt (c / 4096 + 1 + R / 4096) = page_allocated) :
    dealloc_guards b pt (c + 0x1000) R =
      ⟨(pt.set (c / 4096) 0).set (c / 4096 + 1 + R / 4096) 0, .ok ()⟩ := by
  have e1 : u32_sub ((c + 0x1000) / 4096) 1 = c / 4096 := by unfold u32_sub; omega
  have e2 : u32 ((c + 0x1000) / 4096 + R / 4096) = c / 4096 + 1 + R / 4096 := by
    unfold u32; omega
  unfold dealloc_guards
  rw [if_pos hg]
  simp only [e1, e2]
  rw [if_neg (not_not.mpr h1)]
  have : (pt.set (c / 4096) 0) (c / 4096 + 1 + R / 4096) = page_allocated := by
    simp only [PageTable.set]
    rw [if_neg (by omega)]
    exact h2
  rw [if_neg (not_not.mpr this)]

theorem dealloc_guards_none (b : Block) (pt : PageTable) (addr size : Nat)
    (hg : ¬ b.flags &&& stack_guarded ≠ 0) :
    dealloc_guards b pt addr size = ⟨pt, .ok ()⟩ := by
  unfold dealloc_guards
  rw [if_neg hg]

/-- `dealloc` of the address a guarded `alloc` has just returned. -/
theorem dealloc_after_guarded (b : Block) (pt : PageTable) (c R v : Nat) (shm : ShmPtr)
    (hg : b.flags &&& stack_guarded ≠ 0)
    (hc : c % 4096 = 0) (hR0 : 0 < R) (hR : R % 4096 = 0) (hlim : R < 0x20000000)
    (hno : c + (R + 0x2000) ≤ 0x100000000)
    (hfree : area_mapped pt c (R + 0x2000) = false) (hv : v &&& page_allocated ≠ 0) :
    dealloc { b with m_map := b.m_map.assign c (R + 0x2000, shm) }
        (alloc_pages pt true c R v) (c + 0x1000) none =
      ⟨pt, { b with m_map := (b.m_map.assign c (R + 0x2000, shm)).erase c }, .ok R⟩ := by
  have hz := (area_mapped_false_iff pt c _ (by omega) hno).mp hfree
  have hzp : ∀ p, c / 4096 ≤ p → p < c / 4096 + R / 4096 + 2 → pt p = 0 := by
    intro p hp1 hp2
    have := hz (p * 4096) (by omega) (by omega)
    rwa [Nat.mul_div_cancel _ (by decide : 0 < 4096)] at this
  have ek : u32_sub (c + 0x1000) (if b.flags &&& stack_guarded ≠ 0 then 0x1000 else 0) = c := by
    rw [if_pos hg]; unfold u32_sub; omega
  have es : u32_sub (R + 0x2000) (if b.flags &&& stack_guarded ≠ 0 then 0x2000 else 0) = R := by
    rw [if_pos hg]; unfold u32_sub; omega
  have hg1 : alloc_pages pt true c R v (c / 4096) = page_allocated := by
    simp only [alloc_pages, range_set, PageTable.set, if_true]
    rw [if_neg (by omega), if_neg (by omega)]
  have hg2 : alloc_pages pt true c R v (c / 4096 + 1 + R / 4096) = page_allocated := by
    simp only [alloc_pages, range_set, PageTable.set, if_true]
    rw [if_neg (by omega), if_pos (by omega)]
  have hgd := dealloc_guards_eq { b with m_map := b.m_map.assign c (R + 0x2000, shm) }
    (alloc_pages pt true c R v) c R hg hc hno hg1 hg2
  have hun := _page_unmap_eq
    (((alloc_pages pt true c R v).set (c / 4096) 0).set (c / 4096 + 1 + R / 4096) 0)
    (c + 0x1000) R v (by omega) hR (by omega) hv
    (by
      intro p hp1 hp2
      simp only [PageTable.set, alloc_pages, range_set, if_true]
      rw [if_neg (by omega), if_neg (by omega), if_pos (by omega)]) hlim
  have e3 : (c + 0x1000) / 4096 = c / 4096 + 1 := by omega
  rw [e3, alloc_pages_undo_guarded pt c R v hzp] at hun
  unfold dealloc
  simp only [ek, es, RegionMap.find_assign, Option.isSome_none, Bool.false_eq_true, false_and,
    if_false, hgd, hun, ne_eq, not_true_eq_false]

/-- `dealloc` of the address an unguarded `alloc` has just returned. -/
theorem dealloc_after_plain (b : Block) (pt : PageTable) (c R v : Nat) (shm : ShmPtr)
    (hg : ¬ b.flags &&& stack_guarded ≠ 0)
    (hc : c % 4096 = 0) (hR0 : 0 < R) (hR : R % 4096 = 0) (hlim : R < 0x20000000)
    (hno : c + R ≤ 0x100000000)
    (hfree : area_mapped pt c R = false) (hv : v &&& page_allocated ≠ 0) :
    dealloc { b with m_map := b.m_map.assign c (R, shm) }
        (alloc_pages pt false c R v) c none =
      ⟨pt, { b with m_map := (b.m_map.assign c (R, shm)).erase c }, .ok R⟩ := by
  have hz := (area_mapped_false_iff pt c _ (by omega) hno).mp hfree
  have hzp : ∀ p, c / 4096 ≤ p → p < c / 4096 + R / 4096 → pt p = 0 := by
    intro p hp1 hp2
    have := hz (p * 4096) (by omega) (by omega)
    rwa [Nat.mul_div_cancel _ (by decide : 0 < 4096)] at this
  have ek : u32_sub c (if b.flags &&& stack_guarded ≠ 0 then 0x1000 else 0) = c := by
    rw [if_neg hg]; unfold u32_sub; omega
  have es : u32_sub R (if b.flags &&& stack_guarded ≠ 0 then 0x2000 else 0) = R := by
    rw [if_neg hg]; unfold u32_sub; omega
  have hgd := dealloc_guards_none { b with m_map := b.m_map.assign c (R, shm) }
    (alloc_pages pt false c R v) c R hg
  have hun := _page_unmap_eq (alloc_pages pt false c R v) c R v (by omega) hR hc hv
    (by
      intro p hp1 hp2
      simp only [alloc_pages, range_set, Bool.false_eq_true, if_false]
      rw [if_pos ⟨hp1, hp2⟩]) hlim
  rw [alloc_pages_undo_plain pt c R v hzp] at hun
  unfold dealloc
  simp only [ek, es, RegionMap.find_assign, Option.isSome_none, Bool.false_eq_true, false_and,
    if_false, hgd, hun, ne_eq, not_true_eq_false]

theorem check_addr_lor_allocated (pt : PageTable) (addr flags size : Nat) :
    check_addr pt addr (flags ||| page_allocated) size = check_addr pt addr flags size := by
  unfold check_addr
  rw [Nat.lor_assoc, Nat.or_self]

theorem page_protect_loop_out (fs fc e : Nat) :
    ∀ n pt start sv i, (page_protect_loop fs fc e n pt start sv i).out ≠ .ok false := by
  intro n
  induction n with
  | zero => intro pt start sv i; simp [page_protect_loop]
  | succ n ih =>
    intro pt start sv i
    unfold page_protect_loop
    simp only
    split_ifs <;>
      first
      | exact ih _ _ _ _
      | (split <;> first | (intro h; cases h) | exact ih _ _ _ _)

/-- `page_protect` on valid arguments returns false exactly when `check_addr` fails, and
then returns the page table it was given. -/
theorem page_protect_false_iff (pt : PageTable) (addr size test set clear : Nat)
    (ha : addr < 0x100000000) (haa : addr % 4096 = 0) (hs0 : size ≠ 0)
    (hsa : size % 4096 = 0) :
    ((page_protect pt addr size test set clear).out = .ok false ↔
      check_addr pt addr test size = some false) ∧
    ((page_protect pt addr size test set clear).out = .ok false →
      (page_protect pt addr size test set clear).pages = pt) := by
  have h1 : ¬ (size = 0 ∨ (size ||| addr) % 4096 ≠ 0) := by
    rw [not_or]
    exact ⟨hs0, not_not.mpr ((lor_mod_4096 _ _).mpr ⟨hsa, haa⟩)⟩
  unfold page_protect
  rw [if_neg h1]
  simp only [check_addr_lor_allocated]
  obtain ⟨r, hr⟩ := check_addr_total pt addr test size ha
  rw [hr]
  cases r with
  | false => simp
  | true =>
    simp only
    split
    · simp
    · refine ⟨⟨fun h => absurd h (page_protect_loop_out _ _ _ _ _ _ _ _), fun h => by cases h⟩,
        fun h => absurd h (page_protect_loop_out _ _ _ _ _ _ _ _)⟩

theorem alloc_at_success (b : Block) (flags size : Nat) (shm : ShmPtr) (pt : PageTable)
    (addr a : Nat) (hfree : area_mapped pt addr size = false)
    (h : (alloc_at b flags size shm pt addr).out = .ok a) :
    (alloc_at b flags size shm pt addr).block =
      { b with m_map := b.m_map.assign addr (size, shm) } := by
  unfold alloc_at at h ⊢
  simp only at h ⊢
  cases ho : (try_alloc b pt addr flags size shm).out with
  | error e => rw [ho] at h; cases h
  | ok v =>
    cases v with
    | false =>
      have hb := try_alloc_out_false _ _ _ _ _ _ ho
      rw [hfree] at hb; cases hb
    | true => exact (try_alloc_out_true _ _ _ _ _ _ ho).2

/-- A non-zero result of the search loop comes from a candidate whose area was free, and
the block then holds exactly one more region, at that candidate. -/
theorem alloc_loop_success (b : Block) (flags size al max : Nat) (shm : ShmPtr)
    (pt : PageTable) (a : Nat) (hmax : max < 0x100000000) (ha : a ≠ 0) :
    ∀ fuel addr q, addr + q * al = max →
      (alloc_loop b flags size al max shm fuel pt addr).out = .ok a →
      ∃ c, c ≤ max ∧ area_mapped pt c size = false ∧
        (alloc_loop b flags size al max shm fuel pt addr).block =
          { b with m_map := b.m_map.assign c (size, shm) } := by
  intro fuel
  induction fuel with
  | zero => intro addr q _ h; simp [alloc_loop] at h
  | succ f ih =>
    intro addr q hq h
    by_cases hb : area_mapped pt addr size = true
    · rw [alloc_loop_busy _ _ _ _ _ _ _ _ _ hb] at h ⊢
      by_cases hm : addr = max
      · rw [if_pos hm] at h; cases h; exact absurd rfl ha
      · rw [if_neg hm] at h ⊢
        have hq1 : 1 ≤ q := by
          rcases Nat.eq_zero_or_pos q with h0 | h0
          · subst h0; simp at hq; exact absurd hq hm
          · exact h0
        have hstep : addr + al + (q - 1) * al = max := by
          have : q * al = al + (q - 1) * al := by
            conv_lhs => rw [show q = 1 + (q - 1) by omega]
            rw [Nat.add_mul, Nat.one_mul]
          omega
        have hu : u32 (addr + al) = addr + al := by
          unfold u32; apply Nat.mod_eq_of_lt
          have : 0 ≤ (q - 1) * al := Nat.zero_le _
          omega
        rw [hu] at h ⊢
        exact ih (addr + al) (q - 1) hstep h
    · have hfree : area_mapped pt addr size = false := by simpa using hb
      rw [alloc_loop_free _ _ _ _ _ _ _ _ _ hfree] at h ⊢
      refine ⟨addr, ?_, hfree, alloc_at_success _ _ _ _ _ _ _ hfree h⟩
      have : 0 ≤ q * al := Nat.zero_le _
      omega

/-- Any successful `alloc` (non-zero result), with or without a supplied backing, has
added exactly one region to the block, at an area inside the block whose pages were all
zero. -/
theorem alloc_success_region (b : Block) (pt : PageTable) (orig : Nat) (src : Option ShmPtr)
    (al flags fresh a : Nat)
    (hb : b.addr + b.size ≤ 0x100000000)
    (h : (alloc b pt orig src al flags fresh).out = .ok a) (ha : a ≠ 0) :
    ∃ c T shm, 0 < T ∧ c + T ≤ b.addr + b.size ∧ area_mapped pt c T = false ∧
      (alloc b pt orig src al flags fresh).block =
        { b with m_map := b.m_map.assign c (T, shm) } := by
  unfold alloc at h ⊢
  simp only at h ⊢
  generalize (if src.isNone = true then
      b.flags &&& u64_not alloc_prot_mask ||| flags &&& alloc_prot_mask else flags) = F at h ⊢
  generalize u32 (align orig (if F &&& page_size_4k ≠ 0 then 0x1000 else 0x10000) +
      if F &&& stack_guarded ≠ 0 then 0x2000 else 0) = size at h ⊢
  by_cases c1 : al < (if F &&& page_size_4k ≠ 0 then 0x1000 else 0x10000) ∨
      al ≠ 0x80000000 >>> countl_zero al
  · rw [if_pos c1] at h; cases h
  rw [if_neg c1] at h ⊢
  by_cases c2 : orig = 0 ∨ size = 0 ∨ orig > size ∨ size > b.size
  · rw [if_pos c2] at h; cases h; exact absurd rfl ha
  rw [if_neg c2] at h ⊢
  by_cases c3 : b.m_common.isSome = true ∧ src.isSome = true
  · rw [if_pos c3] at h; cases h
  rw [if_neg c3] at h ⊢
  by_cases c4 : b.addr > min (u32_sub (u32 (b.addr + b.size)) size &&& u32_sub 0 al)
      (align b.addr al)
  · rw [if_pos c4] at h; cases h; exact absurd rfl ha
  rw [if_neg c4] at h ⊢
  by_cases c5 : b.m_id = 0
  · rw [if_pos c5] at h; cases h; exact absurd rfl ha
  rw [if_neg c5] at h ⊢
  -- arithmetic of the search bounds
  rw [not_or, not_not] at c1
  have hal0 : al ≠ 0 := by
    intro h0
    have := c1.1
    split at this <;> omega
  obtain ⟨k, hk, hal⟩ := pow2_of_align_check al c1.2 hal0
  have hpos : 0 < al := Nat.pos_of_ne_zero hal0
  simp only [not_or, not_lt, gt_iff_lt] at c2
  obtain ⟨_, hs0, _, hsb⟩ := c2
  have hspos : 0 < size := Nat.pos_of_ne_zero hs0
  have hmaxc : u32_sub (u32 (b.addr + b.size)) size &&& u32_sub 0 al =
      (b.addr + b.size - size) / al * al := by
    have e : u32_sub (u32 (b.addr + b.size)) size = b.addr + b.size - size := by
      unfold u32_sub u32; omega
    rw [e, hal]
    exact mask_eq_gen _ k hk (by omega)
  have haddr : align b.addr al = (b.addr + (al - 1)) % 0x100000000 / al * al := by
    rw [hal]; exact align_eq_gen _ k hk
  rw [hmaxc, haddr] at c4 h ⊢
  have hmaxle : (b.addr + b.size - size) / al * al ≤ b.addr + b.size - size :=
    Nat.div_mul_le_self _ _
  have hmin : b.addr ≤ (b.addr + b.size - size) / al * al ∧
      b.addr ≤ (b.addr + (al - 1)) % 0x100000000 / al * al := by
    rw [gt_iff_lt, not_lt, Nat.le_min] at c4; exact c4
  -- the aligned base cannot have wrapped
  have hw : b.addr + (al - 1) < 0x100000000 := by
    by_contra hw
    have h1 : (b.addr + (al - 1)) % 0x100000000 = b.addr + (al - 1) - 0x100000000 := by
      have : al < 0x100000000 := by rw [hal]; exact Nat.pow_lt_pow_right (by decide) hk
      omega
    have := Nat.div_mul_le_self (b.addr + (al - 1) - 0x100000000) al
    have h2 := hmin.2
    rw [h1] at h2
    have : al < 0x100000000 := by rw [hal]; exact Nat.pow_lt_pow_right (by decide) hk
    omega
  rw [Nat.mod_eq_of_lt hw] at h ⊢
  have hle : (b.addr + (al - 1)) / al * al ≤ (b.addr + b.size - size) / al * al :=
    (roundup_le_mul b.addr _ al hpos).mpr hmin.1
  have hq : (b.addr + (al - 1)) / al * al +
      ((b.addr + b.size - size) / al - (b.addr + (al - 1)) / al) * al =
      (b.addr + b.size - size) / al * al := by
    rw [Nat.sub_mul]; omega
  obtain ⟨c, hc1, hc2, hc3⟩ := alloc_loop_success b F size al _ _ pt a (by omega) ha _ _ _ hq h
  exact ⟨c, size, _, hspos, by omega, hc2, hc3⟩

/-- Any successful `falloc` (non-zero result) has added exactly one region to the block,
at an area inside the block whose pages were all zero. -/
theorem falloc_success_region (b : Block) (pt : PageTable) (addr orig : Nat)
    (src : Option ShmPtr) (flags fresh a : Nat)
    (_hb : b.addr + b.size ≤ 0x100000000)
    (h : (falloc b pt addr orig src flags fresh).out = .ok a) (ha : a ≠ 0) :
    ∃ c T shm, 0 < T ∧ c + T ≤ b.addr + b.size ∧ area_mapped pt c T = false ∧
      (falloc b pt addr orig src flags fresh).block =
        { b with m_map := b.m_map.assign c (T, shm) } := by
  unfold falloc at h ⊢
  simp only at h ⊢
  generalize (if src.isNone = true then
      b.flags &&& u64_not alloc_prot_mask ||| flags &&& alloc_prot_mask else flags) = F at h ⊢
  generalize (if F &&& page_size_4k ≠ 0 then 0x1000 else 0x10000) = g at h ⊢
  generalize align (u32 (orig + addr % g)) g = size at h ⊢
  generalize (if b.m_common.isSome = true then none
      else match src with
        | some p => p
        | none => some ⟨fresh, size, 0⟩) = shm at h ⊢
  by_cases c1 : size = 0 ∨ addr < b.addr ∨ orig > u32 (orig + addr % g) ∨ orig > size ∨
      addr - addr % g + size > b.addr + b.size ∨
      (src.isSome = true ∧ (orig ||| addr) % g ≠ 0) ∨ F &&& stack_guarded ≠ 0
  · rw [if_pos c1] at h; cases h; exact absurd rfl ha
  rw [if_neg c1] at h ⊢
  by_cases c2 : b.m_common.isSome = true ∧ src.isSome = true
  · rw [if_pos c2] at h; cases h
  rw [if_neg c2] at h ⊢
  by_cases c3 : b.m_id = 0
  · rw [if_pos c3] at h; cases h; exact absurd rfl ha
  rw [if_neg c3] at h ⊢
  simp only [not_or, not_lt, gt_iff_lt] at c1
  obtain ⟨hs0, _, _, _, hin, _, _⟩ := c1
  cases ho : (try_alloc b pt (addr - addr % g) F size shm).out with
  | error e => rw [ho] at h; cases h
  | ok v =>
    cases v with
    | false => rw [ho] at h; cases h; exact absurd rfl ha
    | true =>
      obtain ⟨h1, h2⟩ := try_alloc_out_true _ _ _ _ _ _ ho
      refine ⟨addr - addr % g, size, shm, Nat.pos_of_ne_zero hs0, by omega, h1, ?_⟩
      exact h2

/-- `dealloc` of the address `alloc` has just returned for the candidate `c`. -/
theorem dealloc_after (b : Block) (pt : PageTable) (c R T v : Nat) (shm : ShmPtr)
    (hT : T = R + 2 * guard_size b)
    (hc : c % 4096 = 0) (hR0 : 0 < R) (hR : R % 4096 = 0) (hlim : R < 0x20000000)
    (hno : c + T ≤ 0x100000000)
    (hfree : area_mapped pt c T = false) (hv : v &&& page_allocated ≠ 0) :
    dealloc { b with m_map := b.m_map.assign c (T, shm) }
        (alloc_pages pt (decide (b.flags &&& stack_guarded ≠ 0)) c R v)
        (c + guard_size b) none =
      ⟨pt, { b with m_map := (b.m_map.assign c (T, shm)).erase c }, .ok R⟩ := by
  by_cases hg : b.flags &&& stack_guarded ≠ 0
  · have hgs : guard_size b = 0x1000 := by unfold guard_size; rw [if_pos hg]
    have hT2 : T = R + 0x2000 := by omega
    subst hT2
    rw [hgs, decide_eq_true hg]
    exact dealloc_after_guarded b pt c R v shm hg hc hR0 hR hlim hno hfree hv
  · have hgs : guard_size b = 0 := by unfold guard_size; rw [if_neg hg]
    have hT2 : T = R := by omega
    subst hT2
    rw [hgs, decide_eq_false hg]
    exact dealloc_after_plain b pt c T v shm hg hc hR0 hR hlim hno hfree hv

/-- After a successful `alloc` (no backing supplied), `dealloc` of the returned address
returns the usable size, restores the page table, and removes the region that was added. -/
theorem alloc_then_dealloc (b : Block) (pt : PageTable) (orig al flags fresh a : Nat)
    (hb : b.addr + b.size ≤ 0x100000000) (hbs : b.size < 0x100000000)
    (ho : orig < 0x100000000)
    (h : (alloc b pt orig none al flags fresh).out = .ok a) (ha : a ≠ 0) :
    ∃ c T shm, a = c + guard_size b ∧
      (alloc b pt orig none al flags fresh).block = { b with m_map := b.m_map.assign c (T, shm) } ∧
      dealloc (alloc b pt orig none al flags fresh).block
          (alloc b pt orig none al flags fresh).pages a none =
        ⟨pt, { b with m_map := (b.m_map.assign c (T, shm)).erase c },
          .ok (round_up orig (min_page b.flags))⟩ := by
  obtain ⟨k, j, hk, hal, hga, horig, hid, hlim, hin, hfree, hbusy, heq⟩ :=
    alloc_none_success b pt orig al flags fresh a hb hbs ho h ha
  have hpos : 0 < al := by rw [hal]; exact Nat.two_pow_pos k
  have hcm := cand_mod b al j k hal (le_trans (min_page_ge b.flags) hga)
  have hR0 : 0 < round_up orig (min_page b.flags) := by
    have := roundup_ge orig (min_page b.flags) (by have := min_page_ge b.flags; omega)
    unfold round_up; omega
  have hRm := round_up_mod orig (min_page b.flags) (min_page_cases _)
  have hae : a = cand b al j + guard_size b := by
    rw [heq] at h; cases h; rfl
  refine ⟨cand b al j, round_up orig (min_page b.flags) + 2 * guard_size b,
    own_shm b fresh (round_up orig (min_page b.flags) + 2 * guard_size b),
    hae, ?_, ?_⟩
  · rw [heq]
  · rw [heq, hae]
    exact dealloc_after b pt (cand b al j) _ _ _ _ rfl hcm hR0 hRm hlim (by omega) hfree
      (lor_allocated_ne _)

theorem and_pow_eq_zero_iff (x k : Nat) : x &&& 2 ^ k = 0 ↔ x.testBit k = false := by
  have := and_pow_ne_zero_iff x k
  constructor
  · intro h; by_contra hc; exact (this.mpr (by simpa using hc)) h
  · intro h; by_contra hc; rw [this.mp hc] at h; cases h

theorem try_alloc_flags_readable (F : Nat) :
    (try_alloc_flags F ||| page_allocated) &&& page_readable ≠ 0 ↔
      u64_not F &&& alloc_hidden ≠ 0 := by
  unfold try_alloc_flags
  split_ifs <;> simp_all <;> decide

theorem try_alloc_flags_writable (F : Nat) :
    (try_alloc_flags F ||| page_allocated) &&& page_writable ≠ 0 ↔
      (u64_not F &&& alloc_hidden ≠ 0 ∧ u64_not F &&& alloc_unwritable ≠ 0) := by
  unfold try_alloc_flags
  split_ifs <;> simp_all <;> decide

theorem try_alloc_flags_executable (F : Nat) :
    (try_alloc_flags F ||| page_allocated) &&& page_executable ≠ 0 ↔
      F &&& alloc_executable ≠ 0 := by
  unfold try_alloc_flags
  split_ifs <;> simp_all <;> decide

theorem eff_flags_prot_bit (b : Block) (flags k : Nat) (hk : k < 64)
    (hm : alloc_prot_mask.testBit k = true) :
    (eff_flags b flags).testBit k = flags.testBit k := by
  unfold eff_flags
  rw [Nat.testBit_lor, Nat.testBit_land, Nat.testBit_land, testBit_u64_not _ _ hk, hm]
  simp

theorem eff_flags_hidden (b : Block) (flags : Nat) :
    u64_not (eff_flags b flags) &&& alloc_hidden ≠ 0 ↔ flags &&& alloc_hidden = 0 := by
  have e : alloc_hidden = 2 ^ 12 := by decide
  rw [e, and_pow_ne_zero_iff, and_pow_eq_zero_iff, testBit_u64_not _ _ (by decide),
    eff_flags_prot_bit b flags 12 (by decide) (by decide)]
  simp

theorem eff_flags_unwritable (b : Block) (flags : Nat) :
    u64_not (eff_flags b flags) &&& alloc_unwritable ≠ 0 ↔ flags &&& alloc_unwritable = 0 := by
  have e : alloc_unwritable = 2 ^ 13 := by decide
  rw [e, and_pow_ne_zero_iff, and_pow_eq_zero_iff, testBit_u64_not _ _ (by decide),
    eff_flags_prot_bit b flags 13 (by decide) (by decide)]
  simp

theorem eff_flags_executable (b : Block) (flags : Nat) :
    eff_flags b flags &&& alloc_executable ≠ 0 ↔ flags &&& alloc_executable ≠ 0 := by
  have e : alloc_executable = 2 ^ 14 := by decide
  rw [e, and_pow_ne_zero_iff, and_pow_ne_zero_iff,
    eff_flags_prot_bit b flags 14 (by decide) (by decide)]

/-- The constructor keeps `stack_guarded` only on blocks of 4 KiB granularity. -/
theorem process_block_flags_guard (f : Nat)
    (h : process_block_flags f &&& stack_guarded ≠ 0) :
    process_block_flags f &&& page_size_4k ≠ 0 := by
  unfold process_block_flags at h ⊢
  simp only at h ⊢
  generalize (if f &&& page_size_mask = 0 then f ||| page_size_1m else f) = g at h ⊢
  by_cases h4 : g &&& page_size_4k ≠ 0
  · rw [if_pos h4]
    have e : page_size_4k = 2 ^ 8 := by decide
    rw [e, and_pow_ne_zero_iff] at h4 ⊢
    rw [Nat.testBit_lor, h4]; rfl
  · exfalso
    rw [if_neg h4] at h
    have e : stack_guarded = 2 ^ 4 := by decide
    have h2 : ((g &&& u64_not stack_guarded) &&& 2 ^ 4) ≠ 0 := by rw [← e]; exact h
    rw [and_pow_ne_zero_iff, Nat.testBit_land, testBit_u64_not _ _ (by decide)] at h2
    have : stack_guarded.testBit 4 = true := by decide
    rw [this] at h2
    simp at h2

/-- `check_addr` on a single page whose entry fails the flag test. -/
theorem check_addr_page_fail (pt : PageTable) (addr flags : Nat)
    (ha : addr + 0x1000 ≤ 0x100000000) (haa : addr % 4096 = 0)
    (hp : u8_not (pt (addr / 4096)) &&& (flags ||| page_allocated) ≠ 0) :
    check_addr pt addr flags 0x1000 = some false := by
  unfold check_addr
  rw [if_neg (by decide), if_neg (by omega)]
  have hl : u32_sub (u32 (addr + 0x1000)) 1 / 4096 = addr / 4096 := by
    unfold u32_sub u32; omega
  simp only [hl]
  have : addr / 4096 + 2 - addr / 4096 = 1 + 1 := by omega
  rw [this, check_addr_loop, if_pos (le_refl _)]
  simp only
  rw [if_pos hp]

theorem check_addr_loop_reads_le (pt : PageTable) (flags max : Nat) :
    ∀ fuel i, ∀ p ∈ check_addr_loop_reads pt flags max fuel i, p ≤ max := by
  intro fuel
  induction fuel with
  | zero => intro i p hp; simp [check_addr_loop_reads] at hp
  | succ n ih =>
    intro i p hp
    unfold check_addr_loop_reads at hp
    by_cases him : i ≤ max
    · rw [if_pos him] at hp
      simp only at hp
      split at hp
      · simp only [List.mem_singleton] at hp; omega
      · split at hp
        · rcases List.mem_cons.mp hp with h | h
          · omega
          · exact ih _ p h
        · split at hp
          · rcases List.mem_cons.mp hp with h | h
            · omega
            · exact ih _ p h
          · rcases List.mem_cons.mp hp with h | h
            · omega
            · exact ih _ p h
    · rw [if_neg him] at hp; simp at hp

/-- When every page from `i` to `max` passes the flag test, the scan returns true; no
assumption on the size-class flags is needed for this direction. -/
theorem check_addr_loop_all_pass (pt : PageTable) (flags max : Nat) (hmax : max < 0x100000) :
    ∀ fuel i, 1 ≤ fuel → max + 2 ≤ fuel + i →
      (∀ p, i ≤ p → p ≤ max → u8_not (pt p) &&& flags = 0) →
      check_addr_loop pt flags max fuel i = some true := by
  intro fuel
  induction fuel with
  | zero => intro i h; omega
  | succ n ih =>
    intro i _ h hp
    unfold check_addr_loop
    by_cases him : i ≤ max
    · simp only [him, if_true]
      have hi : i < 0x100000 := by omega
      rw [if_neg (not_not.mpr (hp i (le_refl _) him))]
      split
      · rw [align_256 i hi]
        exact ih _ (by omega) (by omega) (fun p h1 h2 => hp p (by omega) h2)
      · split
        · rw [align_16 i hi]
          exact ih _ (by omega) (by omega) (fun p h1 h2 => hp p (by omega) h2)
        · exact ih _ (by omega) (by omega) (fun p h1 h2 => hp p (by omega) h2)
    · simp only [him, if_false]

theorem RegionMap.floor_from_spec : ∀ (m : RegionMap) (last : Option (Nat × Nat × ShmPtr))
    (addr : Nat) (r : Nat × Nat × ShmPtr),
    RegionMap.floor_from last m addr = some r → last = some r ∨ (r ∈ m ∧ r.1 ≤ addr) := by
  intro m
  induction m with
  | nil => intro last addr r h; left; exact h
  | cons e t ih =>
    intro last addr r h
    obtain ⟨k, v⟩ := e
    simp only [RegionMap.floor_from] at h
    by_cases hk : addr < k
    · rw [if_pos hk] at h; left; exact h
    · rw [if_neg hk] at h
      rcases ih _ _ _ h with h1 | ⟨h1, h2⟩
      · right
        cases h1
        exact ⟨List.mem_cons_self _ _, by simpa using hk⟩
      · right; exact ⟨List.mem_cons_of_mem _ h1, h2⟩

theorem page_unmap_size_mapped (pt : PageTable) (e0 : Bool) :
    ∀ n i size e,
      (∀ p, i ≤ p → p < i + n →
        pt p &&& page_allocated ≠ 0 ∧ decide (pt p &&& page_executable ≠ 0) = e0) →
      size + n * 4096 < 0x100000000 → (size ≠ 0 → e = e0) →
      page_unmap_size pt n i size e = .ok (size + n * 4096) := by
  intro n
  induction n with
  | zero => intro i size e _ _ _; simp [page_unmap_size]
  | succ n ih =>
    intro i size e h hs he
    obtain ⟨h0, h1⟩ := h i (le_refl _) (by omega)
    simp only [page_unmap_size]
    rw [if_neg h0]
    have hu : u32 (size + 4096) = size + 4096 := by unfold u32; omega
    by_cases hz : size = 0
    · rw [if_pos hz, hu, ih]
      · exact congrArg Except.ok (by omega)
      · intro p hp1 hp2; exact h p (by omega) (by omega)
      · omega
      · intro _; exact h1
    · rw [if_neg hz, if_neg (by rw [he hz, h1]; simp), hu, ih]
      · exact congrArg Except.ok (by omega)
      · intro p hp1 hp2; exact h p (by omega) (by omega)
      · omega
      · intro _; exact he hz

/-- `_page_unmap` on a fully mapped region clears exactly its pages and returns its
size. -/
theorem _page_unmap_region (pt : PageTable) (k T : Nat) (h : RegionMapped pt k T) :
    _page_unmap pt k T = ⟨range_set pt (k / 4096) (T / 4096) 0, .ok T⟩ := by
  obtain ⟨hs, hsa, haa, hlim, hno, hall⟩ := h
  unfold _page_unmap
  have h1 : ¬ (T = 0 ∨ (T ||| k) % 4096 ≠ 0) := by
    rw [not_or]
    exact ⟨hs, not_not.mpr ((lor_mod_4096 _ _).mpr ⟨hsa, haa⟩)⟩
  rw [if_neg h1]
  have h2 := page_unmap_size_mapped pt (decide (pt (k / 4096) &&& page_executable ≠ 0))
    (T / 4096) (k / 4096) 0 false
    (fun p hp1 hp2 => ⟨(hall p hp1 hp2).1, by
      have := (hall p hp1 hp2).2
      by_cases hx : pt (k / 4096) &&& page_executable ≠ 0
      · rw [decide_eq_true hx, decide_eq_true (this.mpr hx)]
      · rw [decide_eq_false hx, decide_eq_false (fun hh => hx (this.mp hh))]⟩)
    (by omega) (fun h => absurd rfl h)
  have e : 0 + T / 4096 * 4096 = T := by omega
  rw [e] at h2
  rw [h2]
  have h3 : _lock_main_range_lock range_allocation k T = .ok () := by
    unfold _lock_main_range_lock
    rw [if_neg hs, if_neg (by omega)]
  simp only [h3]
  rw [page_unmap_clear_eq (T / 4096) pt (k / 4096) (fun p hp1 hp2 => (hall p hp1 hp2).1)]

theorem clear_regions_apply : ∀ (m : RegionMap) (pt : PageTable) (p : Nat),
    clear_regions m pt p =
      if ∃ e ∈ m, e.1 / 4096 ≤ p ∧ p < e.1 / 4096 + e.2.1 / 4096 then 0 else pt p := by
  intro m
  induction m with
  | nil => intro pt p; simp [clear_regions]
  | cons e t ih =>
    intro pt p
    obtain ⟨k, T, s⟩ := e
    simp only [clear_regions]
    rw [ih]
    by_cases h1 : ∃ e ∈ t, e.1 / 4096 ≤ p ∧ p < e.1 / 4096 + e.2.1 / 4096
    · rw [if_pos h1, if_pos]
      obtain ⟨e, he, hp⟩ := h1
      exact ⟨e, List.mem_cons_of_mem _ he, hp⟩
    · rw [if_neg h1]
      simp only [range_set]
      by_cases h2 : k / 4096 ≤ p ∧ p < k / 4096 + T / 4096
      · rw [if_pos h2, if_pos]
        exact ⟨(k, T, s), List.mem_cons_self _ _, h2⟩
      · rw [if_neg h2, if_neg]
        rintro ⟨e, he, hp⟩
        rcases List.mem_cons.mp he with h | h
        · subst h; exact h2 hp
        · exact h1 ⟨e, h, hp⟩

theorem unmap_regions_eq : ∀ (m : RegionMap) (pt : PageTable), RegionsMapped m pt →
    unmap_regions m pt = ⟨clear_regions m pt, .ok ()⟩ := by
  intro m
  induction m with
  | nil => intro pt _; rfl
  | cons e t ih =>
    intro pt h
    obtain ⟨k, T, s⟩ := e
    obtain ⟨hall, hpw⟩ := h
    have hhead : RegionMapped pt k T := hall (k, T, s) (List.mem_cons_self _ _)
    rw [List.pairwise_cons] at hpw
    obtain ⟨hdis, hpt⟩ := hpw
    simp only [unmap_regions, clear_regions]
    rw [_page_unmap_region pt k T hhead]
    simp only
    apply ih
    refine ⟨?_, hpt⟩
    intro e he
    have hm := hall e (List.mem_cons_of_mem _ he)
    have hd := hdis e he
    obtain ⟨_, hTa, hka, _, _, _⟩ := hhead
    obtain ⟨g1, g2, g3, g4, g5, g6⟩ := hm
    have hsame : ∀ p, e.1 / 4096 ≤ p → p < e.1 / 4096 + e.2.1 / 4096 →
        range_set pt (k / 4096) (T / 4096) 0 p = pt p := by
      intro p hp1 hp2
      simp only [range_set]
      rw [if_neg]
      simp only at hd
      omega
    refine ⟨g1, g2, g3, g4, g5, ?_⟩
    intro p hp1 hp2
    rw [hsame p hp1 hp2, hsame (e.1 / 4096) (le_refl _) (by omega)]
    exact g6 p hp1 hp2

theorem alloc_torn (b : Block) (pt : PageTable) (orig : Nat) (src : Option ShmPtr)
    (al flags fresh : Nat) (hid : b.m_id = 0) :
    (alloc b pt orig src al flags fresh).pages = pt ∧
    (alloc b pt orig src al flags fresh).block = b ∧
    ((alloc b pt orig src al flags fresh).out = .ok 0 ∨
      (alloc b pt orig src al flags fresh).out = .error .invalid_alignment ∨
      (alloc b pt orig src al flags fresh).out = .error .ensure_failed) := by
  unfold alloc
  simp only
  split_ifs
  all_goals first
    | exact ⟨rfl, rfl, Or.inl rfl⟩
    | exact ⟨rfl, rfl, Or.inr (Or.inl rfl)⟩
    | exact ⟨rfl, rfl, Or.inr (Or.inr rfl)⟩

theorem falloc_torn (b : Block) (pt : PageTable) (addr orig : Nat) (src : Option ShmPtr)
    (flags fresh : Nat) (hid : b.m_id = 0) :
    (falloc b pt addr orig src flags fresh).pages = pt ∧
    (falloc b pt addr orig src flags fresh).block = b ∧
    ((falloc b pt addr orig src flags fresh).out = .ok 0 ∨
      (falloc b pt addr orig src flags fresh).out = .error .ensure_failed) ∧
    (src = none → (falloc b pt addr orig src flags fresh).out = .ok 0) := by
  unfold falloc
  simp only
  split_ifs
  all_goals first
    | exact ⟨rfl, rfl, Or.inl rfl, fun _ => rfl⟩
    | (refine ⟨rfl, rfl, Or.inr rfl, ?_⟩
       intro hs; subst hs; simp_all)

theorem alloc_none_torn (b : Block) (pt : PageTable) (orig al flags fresh k : Nat)
    (hk : k < 32) (hal : al = 2 ^ k) (hga : min_page b.flags ≤ al) (hid : b.m_id = 0) :
    alloc b pt orig none al flags fresh = ⟨pt, b, .ok 0⟩ := by
  rw [alloc_none_unfold]
  simp only [min_page_eff]
  rw [if_neg (by
    rw [not_or]
    exact ⟨by omega, by rw [not_not, hal, align_check_of_pow2 k hk]⟩)]
  split_ifs <;> rfl

theorem mixed_pages_mapped : ∀ i, i < 16 →
    mixed_pages (0x20000 + i) &&& page_allocated ≠ 0 ∧
      (mixed_pages (0x20000 + i) &&& page_executable ≠ 0 ↔
        mixed_pages 0x20000 &&& page_executable ≠ 0) := by
  decide

theorem mixed_regions_mapped : RegionsMapped mixed_block.m_map mixed_pages := by
  have hmap : mixed_block.m_map = [(0x20000000, 0x10000, some ⟨0, 0x10000, 0⟩)] := by
    decide
  rw [hmap]
  refine ⟨?_, List.pairwise_singleton _ _⟩
  intro e he
  simp only [List.mem_singleton] at he
  subst he
  refine ⟨by decide, by decide, by decide, by decide, by decide, ?_⟩
  intro p hp1 hp2
  have := mixed_pages_mapped (p - 0x20000) (by simp only at hp1 hp2; omega)
  rwa [show 0x20000 + (p - 0x20000) = p by simp only at hp1 hp2; omega] at this

theorem address_range.valid_iff (a s : Nat) (ha : a < 0x100000000) (hs : s < 0x100000000)
    (hs0 : s ≠ 0) :
    (address_range.start_length a s).valid = true ↔ a + s ≤ 0x100000000 := by
  unfold address_range.valid address_range.start_length u32 u32_sub
  rw [decide_eq_true_iff]
  simp only
  constructor <;> intro h <;> omega

theorem address_range.overlaps_iff (a s b t : Nat) (hs0 : s ≠ 0) (ht0 : t ≠ 0)
    (ha : a + s ≤ 0x100000000) (hb : b + t ≤ 0x100000000) :
    (address_range.start_length a s).overlaps (address_range.start_length b t) = true ↔
      (a < b + t ∧ b < a + s) := by
  unfold address_range.overlaps address_range.start_length u32 u32_sub
  rw [decide_eq_true_iff]
  simp only
  constructor <;> intro h <;> omega

/-- What `_test_map` establishes for a non-empty range: it lies inside the address space
and is disjoint from every valid block of the registry. -/
theorem _test_map_true (locs : Locations) (addr size : Nat)
    (ha : addr < 0x100000000) (hs : size < 0x100000000) (hs0 : size ≠ 0)
    (hv : Locations.Valid locs) (h : _test_map locs addr size = true) :
    addr + size ≤ 0x100000000 ∧
      ∀ p b, some (p, b) ∈ locs → addr + size ≤ b.addr ∨ b.addr + b.size ≤ addr := by
  unfold _test_map at h
  by_cases hval : (address_range.start_length addr size).valid = true
  · have hin := (address_range.valid_iff addr size ha hs hs0).mp hval
    refine ⟨hin, ?_⟩
    intro p b hm
    simp only [hval, not_true_eq_false, if_false, List.all_eq_true] at h
    have := h _ hm
    simp only [Bool.not_eq_true'] at this
    obtain ⟨hb0, hb1⟩ := hv p b hm
    have hno : ¬ ((address_range.start_length addr size).overlaps
        (address_range.start_length b.addr b.size) = true) := by
      rw [this]; simp
    rw [address_range.overlaps_iff addr size b.addr b.size hs0 (by omega) hin hb1] at hno
    omega
  · simp [hval] at h

theorem _test_map_size_zero (locs : Locations) (addr : Nat)
    (ha : addr < 0x100000000) (ha0 : addr ≠ 0) : _test_map locs addr 0 = false := by
  have hv : (address_range.start_length addr 0).valid = false := by
    unfold address_range.valid address_range.start_length u32 u32_sub
    rw [decide_eq_false_iff_not]
    simp only
    omega
  unfold _test_map
  simp only [hv]
  rfl

theorem _find_map_loop_spec (locs : Locations) (size al max : Nat) (hal : 0 < al)
    (hmax : max < 0x100000000) :
    ∀ fuel addr, addr ≤ max → al ∣ max - addr → (max - addr) / al + 1 ≤ fuel →
      (_find_map_loop locs size al max fuel addr = .ok none ∨
        ∃ a, _find_map_loop locs size al max fuel addr = .ok (some a) ∧
          addr ≤ a ∧ a ≤ max ∧ _test_map locs a size = true) := by
  intro fuel
  induction fuel with
  | zero => intro addr _ _ h; exact absurd h (Nat.not_succ_le_zero _)
  | succ n ih =>
    intro addr hle hdvd hf
    unfold _find_map_loop
    by_cases ht : _test_map locs addr size = true
    · rw [if_pos ht]; right; exact ⟨addr, rfl, le_refl _, hle, ht⟩
    · rw [if_neg ht]
      by_cases hm : addr = max
      · rw [if_pos hm]; left; rfl
      · rw [if_neg hm]
        obtain ⟨c, hc⟩ := hdvd
        have hc0 : c ≠ 0 := by
          intro h0; rw [h0] at hc; omega
        have hge : al ≤ max - addr := by
          rw [hc]; exact Nat.le_mul_of_pos_right al (Nat.pos_of_ne_zero hc0)
        have hu : u32 (addr + al) = addr + al := by unfold u32; omega
        rw [hu]
        have hdiv : (max - addr) / al = (max - (addr + al)) / al + 1 := by
          have : max - addr = (max - (addr + al)) + al := by omega
          rw [this, Nat.add_div_right _ hal]
        have hdvd2 : al ∣ max - (addr + al) := by
          have : max - (addr + al) = al * (c - 1) := by
            rw [Nat.mul_sub, Nat.mul_one, ← hc]; omega
          exact ⟨c - 1, this⟩
        rcases ih (addr + al) (by omega) hdvd2 (by omega) with h | ⟨a, h1, h2, h3, h4⟩
        · left; exact h
        · right; exact ⟨a, h1, by omega, h3, h4⟩

/-- Outcome of `_find_map` for a power-of-two alignment: the search loop ends within its
iteration bound, and a block is made only at an address from 0x20000000 on at which
`_test_map` holds. -/
theorem _find_map_spec (g : VM) (size al flags fresh k : Nat) (hk : k < 32) (hal : al = 2 ^ k)
    (hs : size < 0x100000000) :
    _find_map g size al flags fresh = ⟨g, .ok none⟩ ∨
    ∃ a, 0x20000000 ≤ a ∧ a + size ≤ 0xC0000000 ∧ _test_map g.locations a size = true ∧
      _find_map g size al flags fresh =
        ⟨{ g with s_id := g.s_id + 1 }, .ok (some (fresh, block_t g.s_id a size flags fresh))⟩ := by
  have hpos : 0 < (2:Nat) ^ k := Nat.two_pow_pos k
  have hp : (2:Nat) ^ k < 2 ^ 32 := Nat.pow_lt_pow_right (by decide) hk
  unfold _find_map
  simp only
  by_cases hc : size > 0xC0000000 - 0x20000000 ∨
      u32_sub 0xC0000000 size &&& u32_sub 0 al < 0x20000000
  · rw [if_pos hc]; left; rfl
  · rw [if_neg hc]
    rw [not_or] at hc
    obtain ⟨hc1, hc2⟩ := hc
    have hx : u32_sub 0xC0000000 size = 0xC0000000 - size := by unfold u32_sub; omega
    rw [hx, hal, mask_eq_gen _ k hk (by omega)] at hc2 ⊢
    rw [align_eq_gen _ k hk]
    have hp31 : (2:Nat) ^ k ≤ 2 ^ 31 := Nat.pow_le_pow_right (by decide) (by omega)
    have hmod : (0x20000000 + (2 ^ k - 1)) % 0x100000000 = 0x20000000 + (2 ^ k - 1) :=
      Nat.mod_eq_of_lt (by norm_num at hp31 ⊢; omega)
    rw [hmod]
    generalize hM : (0xC0000000 - size) / 2 ^ k * 2 ^ k = M at hc2 ⊢
    generalize hS : (0x20000000 + (2 ^ k - 1)) / 2 ^ k * 2 ^ k = S
    have hMle : M ≤ 0xC0000000 - size := by rw [← hM]; exact Nat.div_mul_le_self _ _
    have hSge : 0x20000000 ≤ S := by rw [← hS]; exact roundup_ge _ _ hpos
    have hSM : S ≤ M := by
      rw [← hS, ← hM]
      rw [mul_le_rounddown _ _ _ hpos]
      have h1 : (0x20000000 + (2 ^ k - 1)) / 2 ^ k * 2 ^ k ≤ (0xC0000000 - size) / 2 ^ k * 2 ^ k := by
        rw [roundup_le_mul _ _ _ hpos, hM]; omega
      exact le_trans h1 (Nat.div_mul_le_self _ _)
    have hdvd : 2 ^ k ∣ M - S := by
      rw [← hM, ← hS, ← Nat.sub_mul]
      exact Dvd.intro_left _ rfl
    rcases _find_map_loop_spec g.locations size (2 ^ k) M hpos (by omega)
      ((M - S) / 2 ^ k + 1) S hSM hdvd (le_refl _) with h | ⟨a, h1, h2, h3, h4⟩
    · rw [h]; left; rfl
    · rw [h1]; right
      exact ⟨a, by omega, by omega, h4, rfl⟩

theorem pairwise_set_of_forall {α : Type} (R : α → α → Prop) :
    ∀ (l : List α) (i : Nat) (x : α), l.Pairwise R → (∀ y ∈ l, R y x ∧ R x y) →
      (l.set i x).Pairwise R := by
  intro l
  induction l with
  | nil => intro i x _ _; simp
  | cons e t ih =>
    intro i x hp hx
    rw [List.pairwise_cons] at hp
    cases i with
    | zero =>
      simp only [List.set_cons_zero]
      rw [List.pairwise_cons]
      exact ⟨fun y hy => (hx y (List.mem_cons_of_mem _ hy)).2, hp.2⟩
    | succ n =>
      simp only [List.set_cons_succ]
      rw [List.pairwise_cons]
      refine ⟨?_, ih n x hp.2 (fun y hy => hx y (List.mem_cons_of_mem _ hy))⟩
      intro y hy
      rcases List.mem_or_eq_of_mem_set hy with h | h
      · exact hp.1 y h
      · rw [h]; exact (hx e (List.mem_cons_self _ _)).1

theorem block_t_addr (id addr size flags common : Nat) :
    (block_t id addr size flags common).addr = addr := rfl

theorem block_t_size (id addr size flags common : Nat) :
    (block_t id addr size flags common).size = size := rfl

/-- A new block whose range is not empty, lies in the address space and is disjoint from
every block of the registry is compatible with every slot. -/
theorem new_block_compatible (locs : Locations) (p : Nat) (b : Block)
    (hdis : ∀ q c, some (q, c) ∈ locs → b.addr + b.size ≤ c.addr ∨ c.addr + c.size ≤ b.addr) :
    ∀ y ∈ locs,
      (∀ q c p2 b2, y = some (q, c) → some (p, b) = some (p2, b2) →
        c.addr + c.size ≤ b2.addr ∨ b2.addr + b2.size ≤ c.addr) ∧
      (∀ p2 b2 q c, some (p, b) = some (p2, b2) → y = some (q, c) →
        b2.addr + b2.size ≤ c.addr ∨ c.addr + c.size ≤ b2.addr) := by
  intro y hy
  constructor
  · intro q c p2 b2 h1 h2
    cases h2
    subst h1
    have := hdis q c hy
    omega
  · intro p2 b2 q c h2 h1
    cases h2
    subst h1
    exact hdis q c hy

theorem RegistryInv.append (locs : Locations) (p : Nat) (b : Block) (h : RegistryInv locs)
    (hb : 0 < b.size ∧ b.addr + b.size ≤ 0x100000000)
    (hdis : ∀ q c, some (q, c) ∈ locs → b.addr + b.size ≤ c.addr ∨ c.addr + c.size ≤ b.addr) :
    RegistryInv (locs ++ [some (p, b)]) := by
  obtain ⟨hv, hn⟩ := h
  constructor
  · intro q c hm
    rcases List.mem_append.mp hm with h1 | h1
    · exact hv q c h1
    · simp only [List.mem_singleton, Option.some.injEq, Prod.mk.injEq] at h1
      obtain ⟨_, rfl⟩ := h1
      exact hb
  · unfold Locations.NoOverlap
    rw [List.pairwise_append]
    refine ⟨hn, List.pairwise_singleton _ _, ?_⟩
    intro x hx y hy
    simp only [List.mem_singleton] at hy
    subst hy
    exact (new_block_compatible locs p b hdis x hx).1

theorem RegistryInv.set (locs : Locations) (i p : Nat) (b : Block) (h : RegistryInv locs)
    (hb : 0 < b.size ∧ b.addr + b.size ≤ 0x100000000)
    (hdis : ∀ q c, some (q, c) ∈ locs → b.addr + b.size ≤ c.addr ∨ c.addr + c.size ≤ b.addr) :
    RegistryInv (locs.set i (some (p, b))) := by
  obtain ⟨hv, hn⟩ := h
  constructor
  · intro q c hm
    rcases List.mem_or_eq_of_mem_set hm with h1 | h1
    · exact hv q c h1
    · simp only [Option.some.injEq, Prod.mk.injEq] at h1
      obtain ⟨_, rfl⟩ := h1
      exact hb
  · exact pairwise_set_of_forall _ locs i _ hn (new_block_compatible locs p b hdis)

theorem RegistryInv.set_none (locs : Locations) (i : Nat) (h : RegistryInv locs) :
    RegistryInv (locs.set i none) := by
  obtain ⟨hv, hn⟩ := h
  constructor
  · intro q c hm
    rcases List.mem_or_eq_of_mem_set hm with h1 | h1
    · exact hv q c h1
    · cases h1
  · apply pairwise_set_of_forall _ locs i _ hn
    intro y _
    constructor
    · intro p b q c _ h2; cases h2
    · intro p b q c h1 _; cases h1

theorem RegistryInv.sublist (l1 l2 : Locations) (hs : l1.Sublist l2) (h : RegistryInv l2) :
    RegistryInv l1 :=
  ⟨fun p b hm => h.1 p b (hs.subset hm), List.Pairwise.sublist hs h.2⟩

theorem slots_disjoint_iff (x y : Option BlockPtr) :
    slots_disjoint x y = true ↔
      ∀ p b q c, x = some (p, b) → y = some (q, c) →
        b.addr + b.size ≤ c.addr ∨ c.addr + c.size ≤ b.addr := by
  cases x with
  | none => simp [slots_disjoint]
  | some bp =>
    cases y with
    | none => simp [slots_disjoint]
    | some cq =>
      obtain ⟨p, b⟩ := bp
      obtain ⟨q, c⟩ := cq
      simp only [slots_disjoint, decide_eq_true_iff, Option.some.injEq, Prod.mk.injEq, and_imp]
      constructor
      · intro h p2 b2 q2 c2 _ hb _ hc; subst hb; subst hc; exact h
      · intro h; exact h p b q c rfl rfl rfl rfl

theorem noOverlap_iff (locs : Locations) :
    Locations.NoOverlap locs ↔ locs.Pairwise (fun x y => slots_disjoint x y = true) := by
  unfold Locations.NoOverlap
  constructor
  · intro h; exact h.imp (fun hxy => (slots_disjoint_iff _ _).mpr hxy)
  · intro h; exact h.imp (fun hxy => (slots_disjoint_iff _ _).mp hxy)

/-- The five blocks `vm::init` installs satisfy the registry invariant. -/
theorem init_registry_inv : RegistryInv init_vm.locations := by
  constructor
  · intro p b hm
    simp only [init_vm, List.mem_cons, Option.some.injEq, Prod.mk.injEq, List.mem_singleton,
      List.not_mem_nil, or_false] at hm
    rcases hm with ⟨_, rfl⟩ | ⟨_, rfl⟩ | h | h | ⟨_, rfl⟩ | ⟨_, rfl⟩ | ⟨_, rfl⟩
    · decide
    · decide
    · cases h
    · cases h
    · decide
    · decide
    · decide
  · rw [noOverlap_iff]
    decide

theorem align_lt (v al : Nat) : align v al < 0x100000000 := by
  unfold align
  have h1 : u32 (v + (al - 1)) &&& u32_sub 0 al ≤ u32 (v + (al - 1)) := Nat.and_le_left
  have h2 : u32 (v + (al - 1)) < 0x100000000 := by unfold u32; omega
  omega

theorem _map_inv (g : VM) (addr size flags fresh : Nat)
    (ha : addr < 0x100000000) (hs : size < 0x100000000) (h : RegistryInv g.locations) :
    RegistryInv (_map g addr size flags fresh).vm.locations := by
  unfold _map
  by_cases h1 : size = 0 ∨ (size ||| addr) % 4096 ≠ 0
  · rw [if_pos h1]; exact h
  · rw [if_neg h1]
    by_cases h2 : ¬ _test_map g.locations addr size = true
    · rw [if_pos h2]; exact h
    · rw [if_neg h2]
      by_cases h3 : (List.range' (addr / 4096) (size / 4096)).any (fun i => g.pages i != 0) = true
      · rw [if_pos h3]; exact h
      · rw [if_neg h3]
        rw [not_or] at h1
        rw [not_not] at h2
        obtain ⟨hin, hdis⟩ := _test_map_true g.locations addr size ha hs h1.1 h.1 h2
        exact RegistryInv.append g.locations fresh (block_t g.s_id addr size flags fresh) h
          ⟨Nat.pos_of_ne_zero h1.1, hin⟩ (fun q c hm => hdis q c hm)

theorem _find_map_inv (g : VM) (size al flags fresh k : Nat) (hk : k < 32) (hal : al = 2 ^ k)
    (hs : size < 0x100000000) (h : RegistryInv g.locations) :
    (_find_map g size al flags fresh).vm.locations = g.locations ∧
    ∀ bp, (_find_map g size al flags fresh).out = .ok (some bp) →
      (0 < bp.2.size ∧ bp.2.addr + bp.2.size ≤ 0x100000000) ∧
      ∀ q c, some (q, c) ∈ g.locations →
        bp.2.addr + bp.2.size ≤ c.addr ∨ c.addr + c.size ≤ bp.2.addr := by
  rcases _find_map_spec g size al flags fresh k hk hal hs with h1 | ⟨a, ha1, ha2, ht, h1⟩
  · rw [h1]
    refine ⟨rfl, ?_⟩
    intro bp hbp; cases hbp
  · rw [h1]
    refine ⟨rfl, ?_⟩
    intro bp hbp
    have hbp2 : bp = (fresh, block_t g.s_id a size flags fresh) := by
      simp only [Except.ok.injEq, Option.some.injEq] at hbp
      exact hbp.symm
    subst hbp2
    have hs0 : size ≠ 0 := by
      intro h0
      rw [h0, _test_map_size_zero g.locations a (by omega) (by omega)] at ht
      cases ht
    obtain ⟨hin, hdis⟩ := _test_map_true g.locations a size (by omega) hs hs0 h.1 ht
    exact ⟨⟨Nat.pos_of_ne_zero hs0, hin⟩, fun q c hm => hdis q c hm⟩

theorem find_map_inv (g : VM) (orig_size al flags fresh : Nat) (h : RegistryInv g.locations) :
    RegistryInv (find_map g orig_size al flags fresh).vm.locations := by
  unfold find_map
  simp only
  split_ifs with h1 h2
  · exact h
  · exact h
  · rw [not_or, not_not] at h1
    obtain ⟨k, hk, hal⟩ := pow2_of_align_check al h1.2 (by omega)
    obtain ⟨hl, hb⟩ := _find_map_inv g (align orig_size 0x10000) al flags fresh k hk hal
      (align_lt _ _) h
    cases ho : (_find_map g (align orig_size 0x10000) al flags fresh).out with
    | error e => simp only; rw [hl]; exact h
    | ok r =>
      cases r with
      | none => simp only; rw [hl]; exact h
      | some bp =>
        simp only
        rw [hl]
        obtain ⟨hv, hd⟩ := hb bp ho
        obtain ⟨p, b⟩ := bp
        exact RegistryInv.append g.locations p b h hv hd

theorem reserve_map_inv (g : VM) (location addr area_size flags fresh : Nat)
    (ha : addr < 0x100000000) (hs : area_size < 0x100000000) (h : RegistryInv g.locations) :
    RegistryInv (reserve_map g location addr area_size flags fresh).vm.locations := by
  unfold reserve_map
  cases hg : _get_map g.locations location addr with
  | some area => exact h
  | none =>
    simp only
    split_ifs with h1
    · cases hl : g.locations.getD location none with
      | some loc => exact h
      | none =>
        simp only
        obtain ⟨hloc, hb⟩ := _find_map_inv g area_size 0x10000000 flags fresh 28 (by decide)
          (by decide) hs h
        cases ho : (_find_map g area_size 0x10000000 flags fresh).out with
        | error e => simp only; rw [hloc]; exact h
        | ok r =>
          simp only
          rw [hloc]
          cases r with
          | none => exact RegistryInv.set_none g.locations location h
          | some bp =>
            obtain ⟨hv, hd⟩ := hb bp ho
            obtain ⟨p, b⟩ := bp
            exact RegistryInv.set g.locations location p b h hv hd
    · exact _map_inv g addr area_size flags fresh ha hs h

theorem unmap_from_sublist (g : VM) (addr : Nat) (mbe : Bool) (ptr : Option BlockPtr) :
    ∀ (rest pre : Locations), pre ++ rest = g.locations →
      (unmap_from g addr mbe ptr pre rest).vm.locations.Sublist g.locations := by
  intro rest
  induction rest with
  | nil => intro pre _; exact List.Sublist.refl _
  | cons e t ih =>
    intro pre hpre
    cases e with
    | none =>
      simp only [unmap_from]
      exact ih _ (by rw [← hpre]; simp)
    | some bp =>
      obtain ⟨p, b⟩ := bp
      simp only [unmap_from]
      have hnext := ih (pre ++ [some (p, b)]) (by rw [← hpre]; simp)
      split_ifs
      · exact hnext
      · exact hnext
      · exact List.Sublist.refl _
      · exact List.Sublist.refl _
      · have hsub : (pre ++ t).Sublist g.locations := by
          rw [← hpre]
          exact List.Sublist.append (List.Sublist.refl _) (List.sublist_cons_self _ _)
        cases (block_t.unmap b g.pages).out with
        | error e => exact hsub
        | ok r => cases r <;> exact hsub
      · exact hnext

theorem unmap_inv (g : VM) (addr : Nat) (mbe : Bool) (ptr : Option BlockPtr)
    (h : RegistryInv g.locations) :
    RegistryInv (unmap g addr mbe ptr).vm.locations := by
  unfold unmap
  exact RegistryInv.sublist _ _
    (unmap_from_sublist g _ mbe ptr _ _ (List.take_append_drop _ _)) h

theorem try_alloc_block_range (b : Block) (pt : PageTable) (addr bflags size : Nat)
    (shm : ShmPtr) :
    (try_alloc b pt addr bflags size shm).block.addr = b.addr ∧
    (try_alloc b pt addr bflags size shm).block.size = b.size := by
  unfold try_alloc
  by_cases hc : area_mapped pt addr size = true
  · rw [if_pos hc]; exact ⟨rfl, rfl⟩
  · rw [if_neg hc]
    simp only
    generalize try_alloc_guards b pt addr size = rg
    obtain ⟨pg, og⟩ := rg
    cases og with
    | error e => exact ⟨rfl, rfl⟩
    | ok u =>
      simp only
      generalize _page_map pg _ _ _ = r
      obtain ⟨pr, o⟩ := r
      cases o <;> exact ⟨rfl, rfl⟩

theorem alloc_loop_block_range (b : Block) (flags size al max : Nat) (shm : ShmPtr) :
    ∀ fuel pt addr,
      (alloc_loop b flags size al max shm fuel pt addr).block.addr = b.addr ∧
      (alloc_loop b flags size al max shm fuel pt addr).block.size = b.size := by
  intro fuel
  induction fuel with
  | zero => intro pt addr; exact ⟨rfl, rfl⟩
  | succ n ih =>
    intro pt addr
    have ht := try_alloc_block_range b pt addr flags size shm
    unfold alloc_loop
    simp only
    generalize try_alloc b pt addr flags size shm = r at ht ⊢
    obtain ⟨pr, br, o⟩ := r
    cases o with
    | error e => exact ht
    | ok v =>
      cases v with
      | true => exact ht
      | false =>
        simp only
        by_cases hm : addr = max
        · rw [if_pos hm]; exact ht
        · rw [if_neg hm]; exact ih _ _

theorem alloc_block_range (b : Block) (pt : PageTable) (orig : Nat) (src : Option ShmPtr)
    (al flags fresh : Nat) :
    (alloc b pt orig src al flags fresh).block.addr = b.addr ∧
    (alloc b pt orig src al flags fresh).block.size = b.size := by
  unfold alloc
  simp only
  generalize (if src.isNone = true then
      b.flags &&& u64_not alloc_prot_mask ||| flags &&& alloc_prot_mask else flags) = F
  generalize u32 (align orig (if F &&& page_size_4k ≠ 0 then 0x1000 else 0x10000) +
      if F &&& stack_guarded ≠ 0 then 0x2000 else 0) = size
  by_cases c1 : al < (if F &&& page_size_4k ≠ 0 then 0x1000 else 0x10000) ∨
      al ≠ 0x80000000 >>> countl_zero al
  · rw [if_pos c1]; exact ⟨rfl, rfl⟩
  rw [if_neg c1]
  by_cases c2 : orig = 0 ∨ size = 0 ∨ orig > size ∨ size > b.size
  · rw [if_pos c2]; exact ⟨rfl, rfl⟩
  rw [if_neg c2]
  by_cases c3 : b.m_common.isSome = true ∧ src.isSome = true
  · rw [if_pos c3]; exact ⟨rfl, rfl⟩
  rw [if_neg c3]
  by_cases c4 : b.addr > min (u32_sub (u32 (b.addr + b.size)) size &&& u32_sub 0 al)
      (align b.addr al)
  · rw [if_pos c4]; exact ⟨rfl, rfl⟩
  rw [if_neg c4]
  by_cases c5 : b.m_id = 0
  · rw [if_pos c5]; exact ⟨rfl, rfl⟩
  rw [if_neg c5]
  exact alloc_loop_block_range b _ _ _ _ _ _ _ _

theorem dealloc_block_range (b : Block) (pt : PageTable) (addr : Nat) (src : Option ShmPtr) :
    (dealloc b pt addr src).block.addr = b.addr ∧
    (dealloc b pt addr src).block.size = b.size := by
  unfold dealloc
  simp only
  generalize RegionMap.find b.m_map _ = f
  cases f with
  | none => exact ⟨rfl, rfl⟩
  | some v =>
    obtain ⟨rsize, rshm⟩ := v
    simp only
    by_cases c1 : src.isSome = true ∧ ShmPtr.get_id rshm ≠ ShmPtr.get_id (src.getD none)
    · rw [if_pos c1]; exact ⟨rfl, rfl⟩
    · rw [if_neg c1]
      generalize dealloc_guards b pt addr _ = rg
      obtain ⟨pg, og⟩ := rg
      cases og with
      | error e => exact ⟨rfl, rfl⟩
      | ok u =>
        simp only
        generalize _page_unmap pg addr _ = r
        obtain ⟨pr, o⟩ := r
        cases o with
        | error e => exact ⟨rfl, rfl⟩
        | ok sz =>
          simp only
          split_ifs <;> exact ⟨rfl, rfl⟩

theorem pairwise_set_same {α : Type} (R : α → α → Prop) :
    ∀ (l : List α) (i : Nat) (old x : α), l.Pairwise R → l.getD i x = old →
      (∀ y, R old y → R x y) → (∀ y, R y old → R y x) → (l.set i x).Pairwise R := by
  intro l
  induction l with
  | nil => intro i old x _ _ _ _; simp
  | cons e t ih =>
    intro i old x hp hget h1 h2
    rw [List.pairwise_cons] at hp
    cases i with
    | zero =>
      simp only [List.getD_cons_zero] at hget
      subst hget
      simp only [List.set_cons_zero]
      rw [List.pairwise_cons]
      exact ⟨fun y hy => h1 y (hp.1 y hy), hp.2⟩
    | succ n =>
      simp only [List.getD_cons_succ] at hget
      simp only [List.set_cons_succ]
      rw [List.pairwise_cons]
      refine ⟨?_, ih n old x hp.2 hget h1 h2⟩
      intro y hy
      rcases List.mem_or_eq_of_mem_set hy with h | h
      · exact hp.1 y h
      · rw [h]
        by_cases hn : n < t.length
        · have : old ∈ t := by
            rw [← hget, List.getD_eq_getElem _ _ hn]
            exact List.getElem_mem _
          exact h2 e (hp.1 old this)
        · have hset : t.set n x = t := List.set_eq_of_length_le (by omega)
          rw [hset] at hy
          rcases List.mem_iff_getElem.mp hy with ⟨j, hj, hjx⟩
          rw [h] at hy
          exact hp.1 x hy

/-- Replacing the object state in a slot by one with the same address range keeps the
registry invariant. -/
theorem RegistryInv.update (locs : Locations) (i p : Nat) (b b2 : Block)
    (h : RegistryInv locs) (hget : locs.getD i none = some (p, b))
    (ha : b2.addr = b.addr) (hs : b2.size = b.size) :
    RegistryInv (locs.set i (some (p, b2))) := by
  obtain ⟨hv, hn⟩ := h
  have hi : i < locs.length := by
    by_contra hc
    rw [List.getD_eq_default _ _ (by omega)] at hget
    cases hget
  have hmem : some (p, b) ∈ locs := by
    rw [← hget, List.getD_eq_getElem _ _ hi]
    exact List.getElem_mem _
  constructor
  · intro q c hm
    rcases List.mem_or_eq_of_mem_set hm with h1 | h1
    · exact hv q c h1
    · simp only [Option.some.injEq, Prod.mk.injEq] at h1
      obtain ⟨_, rfl⟩ := h1
      rw [ha, hs]; exact hv p b hmem
  · apply pairwise_set_same _ locs i (some (p, b)) (some (p, b2)) hn
    · rw [List.getD_eq_getElem _ _ hi] at hget ⊢
      exact hget
    · intro y hy p1 b1 q c e1 e2
      cases e1
      rw [ha, hs]
      exact hy p b q c rfl e2
    · intro y hy p1 b1 q c e1 e2
      cases e2
      rw [ha, hs]
      exact hy p1 b1 p b e1 rfl

theorem vm_alloc_inv (g : VM) (size location al fresh : Nat) (h : RegistryInv g.locations) :
    RegistryInv (vm_alloc g size location al fresh).vm.locations := by
  unfold vm_alloc
  cases hsl : _get_map_slot g.locations location 0 with
  | none => simp only; split_ifs <;> exact h
  | some i =>
    simp only
    cases hget : g.locations.getD i none with
    | none => exact h
    | some bp =>
      obtain ⟨p, b⟩ := bp
      simp only
      have hr := alloc_block_range b g.pages size none al 0 fresh
      exact RegistryInv.update g.locations i p b _ h hget hr.1 hr.2

theorem vm_dealloc_inv (g : VM) (addr location : Nat) (src : Option ShmPtr)
    (h : RegistryInv g.locations) :
    RegistryInv (vm_dealloc g addr location src).vm.locations := by
  unfold vm_dealloc
  cases hsl : _get_map_slot g.locations location addr with
  | none => simp only; split_ifs <;> exact h
  | some i =>
    simp only
    cases hget : g.locations.getD i none with
    | none => exact h
    | some bp =>
      obtain ⟨p, b⟩ := bp
      simp only
      have hr := dealloc_block_range b g.pages addr src
      exact RegistryInv.update g.locations i p b _ h hget hr.1 hr.2

theorem reachable_inv (g : VM) (h : Reachable g) : RegistryInv g.locations := by
  induction h with
  | init => exact init_registry_inv
  | map g addr size flags fresh _ ha hs ih => exact _map_inv g addr size flags fresh ha hs ih
  | find_map g o al f fr _ ih => exact find_map_inv g o al f fr ih
  | reserve_map g l a s f fr _ ha hs ih => exact reserve_map_inv g l a s f fr ha hs ih
  | unmap g a m p _ ih => exact unmap_inv g a m p ih
  | vm_alloc g s l al fr _ ih => exact vm_alloc_inv g s l al fr ih
  | vm_dealloc g a l s _ ih => exact vm_dealloc_inv g a l s ih
  | pages g pt _ ih => exact ih

theorem unmap_from_skip (g : VM) (addr : Nat) (mbe : Bool) (ptr : Option BlockPtr)
    (rest : Locations) :
    ∀ (l pre0 : Locations), (∀ q c, some (q, c) ∈ l → c.addr ≠ addr) →
      unmap_from g addr mbe ptr pre0 (l ++ rest) = unmap_from g addr mbe ptr (pre0 ++ l) rest := by
  intro l
  induction l with
  | nil => intro pre0 _; simp
  | cons e t ih =>
    intro pre0 h
    cases e with
    | none =>
      rw [List.cons_append, unmap_from]
      rw [ih _ (fun q c hm => h q c (List.mem_cons_of_mem _ hm))]
      simp
    | some bp =>
      obtain ⟨p, b⟩ := bp
      have hne : ¬ b.addr = addr := h p b (List.mem_cons_self _ _)
      rw [List.cons_append, unmap_from]
      rw [if_neg hne, ih _ (fun q c hm => h q c (List.mem_cons_of_mem _ hm))]
      simp

/-- A removal reported by the loop of `vm::unmap` with `must_be_empty` concerns a block
of the scanned slots that has no bf0 flag and no outstanding region. -/
theorem unmap_from_removed (g : VM) (addr : Nat) (ptr : Option BlockPtr) :
    ∀ (rest pre : Locations) (blk : BlockPtr),
      (unmap_from g addr true ptr pre rest).out = .ok (some blk, true) →
      ∃ p b, some (p, b) ∈ rest ∧ b.addr = addr ∧ b.flags &&& bf0_mask = 0 ∧
        imp_used b = 0 ∧ blk = (p, (block_t.unmap b g.pages).block) := by
  intro rest
  induction rest with
  | nil => intro pre blk h; simp [unmap_from] at h
  | cons e t ih =>
    intro pre blk h
    cases e with
    | none =>
      rw [unmap_from] at h
      obtain ⟨p, b, hm, hr⟩ := ih _ blk h
      exact ⟨p, b, List.mem_cons_of_mem _ hm, hr⟩
    | some bp =>
      obtain ⟨p, b⟩ := bp
      rw [unmap_from] at h
      have hnext : ∀ pre2, (unmap_from g addr true ptr pre2 t).out = .ok (some blk, true) →
          ∃ p2 b2, some (p2, b2) ∈ some (p, b) :: t ∧ b2.addr = addr ∧
            b2.flags &&& bf0_mask = 0 ∧ imp_used b2 = 0 ∧
            blk = (p2, (block_t.unmap b2 g.pages).block) := by
        intro pre2 h2
        obtain ⟨p2, b2, hm, hr⟩ := ih pre2 blk h2
        exact ⟨p2, b2, List.mem_cons_of_mem _ hm, hr⟩
      by_cases c0 : b.addr = addr
      · rw [if_pos c0] at h
        by_cases c1 : true = true ∧ b.flags &&& bf0_mask ≠ 0
        · rw [if_pos c1] at h; exact hnext _ h
        · rw [if_neg c1] at h
          rw [if_neg (by simp)] at h
          by_cases c3 : ptr.isSome = true ∧ ptr.map Prod.fst ≠ some p
          · rw [if_pos c3] at h; cases h
          · rw [if_neg c3] at h
            by_cases c4 : true = true ∧ imp_used b ≠ 0
            · rw [if_pos c4] at h; cases h
            · rw [if_neg c4] at h
              simp only at h
              generalize hr : block_t.unmap b g.pages = r at h
              obtain ⟨pr, br, o⟩ := r
              cases o with
              | error e => cases h
              | ok v =>
                cases v with
                | false => cases h
                | true =>
                  simp only [Except.ok.injEq, Prod.mk.injEq, Option.some.injEq, and_true] at h
                  refine ⟨p, b, List.mem_cons_self _ _, c0, ?_, ?_, ?_⟩
                  · simpa using c1
                  · simpa using c4
                  · rw [← h, hr]
      · rw [if_neg c0] at h; exact hnext _ h

/-- `dealloc` of a region of a guard-stacked block that is recorded in the region map and
whose pages are as `alloc` made them: both guard pages hold `page_allocated`, the usable
pages hold one allocated entry. -/
theorem dealloc_guarded_region (b : Block) (pt : PageTable) (c R v : Nat) (shm : ShmPtr)
    (hg : b.flags &&& stack_guarded ≠ 0)
    (hc : c % 4096 = 0) (hR0 : 0 < R) (hR : R % 4096 = 0) (hlim : R < 0x20000000)
    (hno : c + (R + 0x2000) ≤ 0x100000000) (hv : v &&& page_allocated ≠ 0)
    (hfind : RegionMap.find b.m_map c = some (R + 0x2000, shm))
    (h1 : pt (c / 4096) = page_allocated)
    (h2 : pt (c / 4096 + 1 + R / 4096) = page_allocated)
    (hin : ∀ p, c / 4096 + 1 ≤ p → p < c / 4096 + 1 + R / 4096 → pt p = v) :
    (dealloc b pt (c + 0x1000) none).out = .ok R ∧
    (dealloc b pt (c + 0x1000) none).block = { b with m_map := b.m_map.erase c } := by
  have ek : u32_sub (c + 0x1000) (if b.flags &&& stack_guarded ≠ 0 then 0x1000 else 0) = c := by
    rw [if_pos hg]; unfold u32_sub; omega
  have es : u32_sub (R + 0x2000) (if b.flags &&& stack_guarded ≠ 0 then 0x2000 else 0) = R := by
    rw [if_pos hg]; unfold u32_sub; omega
  have hgd := dealloc_guards_eq b pt c R hg hc hno h1 h2
  have hun := _page_unmap_eq
    ((pt.set (c / 4096) 0).set (c / 4096 + 1 + R / 4096) 0)
    (c + 0x1000) R v (by omega) hR (by omega) hv
    (by
      intro p hp1 hp2
      simp only [PageTable.set]
      rw [if_neg (by omega), if_neg (by omega)]
      exact hin p (by omega) (by omega)) hlim
  unfold dealloc
  simp only [ek, es, hfind, Option.isSome_none, Bool.false_eq_true, false_and,
    if_false, hgd, hun, ne_eq, not_true_eq_false]
  exact ⟨trivial, trivial⟩

theorem get_map_slot_fixed (locs : Locations) (location addr : Nat) (bp : BlockPtr)
    (hl : location ≠ any) (hget : locs.getD location none = some bp) :
    _get_map_slot locs location addr = some location := by
  have hi : location < locs.length := by
    by_contra hc
    rw [List.getD_eq_default _ _ (by omega)] at hget
    cases hget
  unfold _get_map_slot
  rw [if_pos hl, if_pos hi, hget]

theorem vm_alloc_fixed (g : VM) (size location al fresh p : Nat) (b : Block)
    (hl : location ≠ any) (hget : g.locations.getD location none = some (p, b)) :
    vm_alloc g size location al fresh =
      ⟨{ g with
          locations := (g.locations.set location
            (some (p, (alloc b g.pages size none al 0 fresh).block))),
          pages := (alloc b g.pages size none al 0 fresh).pages },
        (alloc b g.pages size none al 0 fresh).out⟩ := by
  unfold vm_alloc
  rw [get_map_slot_fixed g.locations location 0 (p, b) hl hget]
  simp only [hget]

theorem vm_dealloc_fixed (g : VM) (addr location p : Nat) (src : Option ShmPtr) (b : Block)
    (hl : location ≠ any) (hget : g.locations.getD location none = some (p, b)) :
    vm_dealloc g addr location src =
      ⟨{ g with
          locations := (g.locations.set location
            (some (p, (dealloc b g.pages addr src).block))),
          pages := (dealloc b g.pages addr src).pages },
        (dealloc b g.pages addr src).out⟩ := by
  unfold vm_dealloc
  rw [get_map_slot_fixed g.locations location addr (p, b) hl hget]
  simp only [hget]

/-- The stack size `_sys_ppu_thread_create` computes is a multiple of 4096 below
`2 ^ 32`. -/
theorem stack_size_aligned (sz : Nat) :
    align (max sz 4096) 4096 % 4096 = 0 ∧ align (max sz 4096) 4096 < 0x100000000 := by
  refine ⟨?_, align_lt _ _⟩
  have := align_eq_gen (max sz 4096) 12 (by decide)
  norm_num at this ⊢
  rw [this]
  exact Nat.mul_mod_left _ _

/-- What a successful `_sys_ppu_thread_create` has done. -/
theorem create_success (g : VM) (param_ok : Bool) (prio : Int) (dbg : Bool)
    (sz flags : Nat) (take_ok import_ok : Bool) (fresh p : Nat) (b : Block)
    (t : ppu_thread_params)
    (hget : g.locations.getD stack none = some (p, b))
    (h : (_sys_ppu_thread_create g param_ok prio dbg sz flags take_ok import_ok fresh).out
      = .ok (.CELL_OK, some t)) :
    ∃ a, t = ⟨a, align (max sz 4096) 4096⟩ ∧ a ≠ 0 ∧
    (alloc b g.pages (align (max sz 4096) 4096) none 4096 0 fresh).out = .ok a ∧
    (_sys_ppu_thread_create g param_ok prio dbg sz flags take_ok import_ok fresh).vm =
      { g with
          locations := (g.locations.set stack
            (some (p, (alloc b g.pages (align (max sz 4096) 4096) none 4096 0 fresh).block))),
          pages := (alloc b g.pages (align (max sz 4096) 4096) none 4096 0 fresh).pages } := by
  unfold _sys_ppu_thread_create at h ⊢
  by_cases c1 : param_ok = false
  · rw [if_pos c1] at h; cases h
  rw [if_neg c1] at h ⊢
  by_cases c2 : prio < (if dbg = true then -512 else 0) ∨ prio > 3071
  · rw [if_pos c2] at h; cases h
  rw [if_neg c2] at h ⊢
  by_cases c3 : flags &&& 3 = 3
  · rw [if_pos c3] at h; cases h
  rw [if_neg c3] at h ⊢
  simp only at h ⊢
  by_cases c4 : take_ok = false
  · rw [if_pos c4] at h; cases h
  rw [if_neg c4] at h ⊢
  rw [vm_alloc_fixed g _ stack 4096 fresh p b (by decide) hget] at h ⊢
  simp only at h ⊢
  generalize alloc b g.pages (align (max sz 4096) 4096) none 4096 0 fresh = r at h ⊢
  obtain ⟨pr, br, o⟩ := r
  cases o with
  | error e => cases h
  | ok a =>
    simp only at h ⊢
    by_cases c5 : a = 0
    · rw [if_pos c5] at h; cases h
    rw [if_neg c5] at h ⊢
    by_cases c6 : import_ok = false
    · rw [if_pos c6] at h
      generalize vm_dealloc _ a any none = d at h
      obtain ⟨dv, dout⟩ := d
      cases dout <;> cases h
    rw [if_neg c6] at h ⊢
    have ht : t = ⟨a, align (max sz 4096) 4096⟩ := by
      simp only [Except.ok.injEq, Prod.mk.injEq, Option.some.injEq, true_and] at h
      exact h.symm
    exact ⟨a, ht, c5, rfl, rfl⟩

theorem getD_set_self {α : Type} (l : List α) (i : Nat) (x d : α) (hi : i < l.length) :
    (l.set i x).getD i d = x := by
  rw [List.getD_eq_getElem _ _ (by rw [List.length_set]; exact hi)]
  exact List.getElem_set_self _

theorem getD_some_lt (locs : Locations) (i : Nat) (bp : BlockPtr)
    (h : locs.getD i none = some bp) : i < locs.length := by
  by_contra hc
  rw [List.getD_eq_default _ _ (by omega)] at h
  cases h

theorem reservation_lock_attempts_low (obs : List LockObs) :
    ∀ i, ∀ a ∈ reservation_lock_attempts obs i, a &&& 127 = 0 := by
  induction obs with
  | nil => intro i a h; simp [reservation_lock_attempts] at h
  | cons o rest ih =>
    intro i a h
    unfold reservation_lock_attempts at h
    simp only at h
    by_cases c0 : o.load &&& 127 = 0
    · rw [if_pos c0] at h
      split_ifs at h
      all_goals first
        | (simp only [List.mem_singleton] at h; rw [h]; exact c0)
        | (rcases List.mem_cons.mp h with h1 | h1
           · rw [h1]; exact c0
           · exact ih _ a h1)
    · rw [if_neg c0] at h
      split_ifs at h
      all_goals first
        | exact ih _ a h
        | (simp at h)

theorem reservation_lock_internal_spec (obs : List LockObs) :
    ∀ i rt tok, reservation_lock_internal obs i = some (rt, tok) →
      (∃ o ∈ obs, o.load &&& 127 = 0 ∧ o.now = o.load ∧ rt = o.load ∧
        tok = o.load ||| rsrv_unique_lock) ∨
      (rt = 0xFFFFFFFFFFFFFFFF ∧ ∃ o ∈ obs, tok = o.now ∧ o.page &&& page_writable = 0) := by
  induction obs with
  | nil => intro i rt tok h; simp [reservation_lock_internal] at h
  | cons o rest ih =>
    intro i rt tok h
    have hnext : ∀ j, reservation_lock_internal rest j = some (rt, tok) →
        (∃ o2 ∈ o :: rest, o2.load &&& 127 = 0 ∧ o2.now = o2.load ∧ rt = o2.load ∧
          tok = o2.load ||| rsrv_unique_lock) ∨
        (rt = 0xFFFFFFFFFFFFFFFF ∧
          ∃ o2 ∈ o :: rest, tok = o2.now ∧ o2.page &&& page_writable = 0) := by
      intro j hj
      rcases ih j rt tok hj with ⟨o2, hm, hr⟩ | ⟨hr, o2, hm, hr2⟩
      · left; exact ⟨o2, List.mem_cons_of_mem _ hm, hr⟩
      · right; exact ⟨hr, o2, List.mem_cons_of_mem _ hm, hr2⟩
    unfold reservation_lock_internal at h
    simp only at h
    by_cases c0 : o.load &&& 127 = 0 ∧ (reservation_try_lock o.now o.load).2 = true
    · rw [if_pos c0] at h
      left
      obtain ⟨c1, c2⟩ := c0
      unfold reservation_try_lock compare_and_swap_test at c2 h
      by_cases hc : o.now = o.load
      · rw [if_pos hc] at h
        simp only [Option.some.injEq, Prod.mk.injEq] at h
        exact ⟨o, List.mem_cons_self _ _, c1, hc, h.1.symm, h.2.symm⟩
      · rw [if_neg hc] at c2; cases c2
    · rw [if_neg c0] at h
      by_cases c1 : o.cpu_state = true
      · rw [if_pos c1] at h; exact hnext _ h
      · rw [if_neg c1] at h
        by_cases c2 : i < 15
        · rw [if_pos c2] at h; exact hnext _ h
        · rw [if_neg c2] at h
          by_cases c3 : o.page &&& page_writable = 0
          · rw [if_pos c3] at h
            simp only [Option.some.injEq, Prod.mk.injEq] at h
            right
            exact ⟨h.1.symm, o, List.mem_cons_self _ _, h.2.symm, c3⟩
          · rw [if_neg c3] at h; exact hnext _ h

theorem shared_lock_loop_spec (obs : List Nat) :
    ∀ tok, reservation_shared_lock_internal obs = some tok →
      ∃ pre r post, obs = pre ++ r :: post ∧ (∀ x ∈ pre, x &&& rsrv_unique_lock ≠ 0) ∧
        r &&& rsrv_unique_lock = 0 ∧ tok = u64 (r + 1) := by
  induction obs with
  | nil => intro tok h; simp [reservation_shared_lock_internal] at h
  | cons r rest ih =>
    intro tok h
    unfold reservation_shared_lock_internal shared_lock_attempt at h
    by_cases c : r &&& rsrv_unique_lock ≠ 0
    · rw [if_pos c] at h
      simp only [Bool.false_eq_true, if_false] at h
      obtain ⟨pre, r2, post, h1, h2, h3, h4⟩ := ih tok h
      refine ⟨r :: pre, r2, post, by rw [h1]; rfl, ?_, h3, h4⟩
      intro x hx
      rcases List.mem_cons.mp hx with hx1 | hx1
      · rw [hx1]; exact c
      · exact h2 x hx1
    · rw [if_neg c] at h
      simp only [if_true, Option.some.injEq] at h
      exact ⟨[], r, rest, rfl, fun x hx => absurd hx (List.not_mem_nil _),
        not_not.mp c, h.symm⟩

theorem writesValid_refl (pt : PageTable) : WritesValid pt pt := fun _ => Or.inl rfl

theorem writesValid_trans {a b c : PageTable} (h1 : WritesValid a b) (h2 : WritesValid b c) :
    WritesValid a c := by
  intro p
  rcases h2 p with h | h | h
  · rw [h]; exact h1 p
  · exact Or.inr (Or.inl h)
  · exact Or.inr (Or.inr h)

theorem writesValid_set (pt : PageTable) (i v : Nat) (hv : v = 0 ∨ v &&& page_allocated ≠ 0) :
    WritesValid pt (pt.set i v) := by
  intro p
  unfold PageTable.set
  by_cases h : p = i
  · rw [if_pos h]; exact Or.inr hv
  · rw [if_neg h]; exact Or.inl rfl

theorem writesValid_range_set (pt : PageTable) (lo n v : Nat)
    (hv : v = 0 ∨ v &&& page_allocated ≠ 0) : WritesValid pt (range_set pt lo n v) := by
  intro p
  unfold range_set
  by_cases h : lo ≤ p ∧ p < lo + n
  · rw [if_pos h]; exact Or.inr hv
  · rw [if_neg h]; exact Or.inl rfl

theorem pageInv_of_writes {a b : PageTable} (h : PageInv a) (hw : WritesValid a b) :
    PageInv b := by
  intro p
  rcases hw p with h1 | h1 | h1
  · rw [h1]; exact h p
  · exact Or.inl h1
  · exact Or.inr h1

theorem allocated_self : page_allocated &&& page_allocated ≠ 0 := by decide

theorem page_map_store_writes (v : Nat) (hv : v &&& page_allocated ≠ 0) :
    ∀ n pt i, WritesValid pt (page_map_store v n pt i).pages := by
  intro n
  induction n with
  | zero => intro pt i; exact writesValid_refl pt
  | succ n ih =>
    intro pt i
    unfold page_map_store
    by_cases h : pt i ≠ 0
    · rw [if_pos h]; exact writesValid_set pt i v (Or.inr hv)
    · rw [if_neg h]
      exact writesValid_trans (writesValid_set pt i v (Or.inr hv)) (ih _ _)

theorem _page_map_writes (pt : PageTable) (addr flags size : Nat) :
    WritesValid pt (_page_map pt addr flags size).pages := by
  unfold _page_map
  split
  · exact writesValid_refl pt
  · split
    · exact writesValid_refl pt
    · split
      · exact writesValid_refl pt
      · exact page_map_store_writes _ (lor_allocated_ne flags) _ _ _

theorem try_alloc_guards_writes (b : Block) (pt : PageTable) (addr size : Nat) :
    WritesValid pt (try_alloc_guards b pt addr size).pages := by
  unfold try_alloc_guards
  split
  · simp only
    split
    · exact writesValid_set pt _ _ (Or.inr allocated_self)
    · split
      · exact writesValid_trans (writesValid_set pt _ _ (Or.inr allocated_self))
          (writesValid_set _ _ _ (Or.inr allocated_self))
      · exact writesValid_trans (writesValid_set pt _ _ (Or.inr allocated_self))
          (writesValid_set _ _ _ (Or.inr allocated_self))
  · exact writesValid_refl pt

theorem try_alloc_writes (b : Block) (pt : PageTable) (addr bflags size : Nat) (shm : ShmPtr) :
    WritesValid pt (try_alloc b pt addr bflags size shm).pages := by
  unfold try_alloc
  split
  · exact writesValid_refl pt
  · simp only
    have hg := try_alloc_guards_writes b pt addr size
    generalize try_alloc_guards b pt addr size = rg at hg ⊢
    obtain ⟨gp, go⟩ := rg
    cases go with
    | error e => exact hg
    | ok u =>
      simp only
      have hm := _page_map_writes gp
        (u32 (addr + (if b.flags &&& stack_guarded ≠ 0 then 0x1000 else 0)))
        (try_alloc_flags bflags)
        (u32_sub size (if b.flags &&& stack_guarded ≠ 0 then 0x2000 else 0))
      generalize _page_map gp _ _ _ = r at hm ⊢
      obtain ⟨rp, ro⟩ := r
      cases ro with
      | error e => exact writesValid_trans hg hm
      | ok u => exact writesValid_trans hg hm

theorem alloc_loop_writes (b : Block) (flags size al max : Nat) (shm : ShmPtr) :
    ∀ fuel pt addr, WritesValid pt (alloc_loop b flags size al max shm fuel pt addr).pages := by
  intro fuel
  induction fuel with
  | zero => intro pt addr; exact writesValid_refl pt
  | succ n ih =>
    intro pt addr
    unfold alloc_loop
    simp only
    have ht := try_alloc_writes b pt addr flags size shm
    generalize try_alloc b pt addr flags size shm = r at ht ⊢
    obtain ⟨rp, rb, ro⟩ := r
    cases ro with
    | error e => exact ht
    | ok v =>
      cases v with
      | true => exact ht
      | false =>
        simp only
        split
        · exact ht
        · exact writesValid_trans ht (ih _ _)

theorem alloc_writes (b : Block) (pt : PageTable) (orig : Nat) (src : Option ShmPtr)
    (al flags fresh : Nat) : WritesValid pt (alloc b pt orig src al flags fresh).pages := by
  unfold alloc
  simp only
  generalize (if src.isNone = true then
      b.flags &&& u64_not alloc_prot_mask ||| flags &&& alloc_prot_mask else flags) = F
  generalize u32 (align orig (if F &&& page_size_4k ≠ 0 then 0x1000 else 0x10000) +
      if F &&& stack_guarded ≠ 0 then 0x2000 else 0) = size
  by_cases c1 : al < (if F &&& page_size_4k ≠ 0 then 0x1000 else 0x10000) ∨
      al ≠ 0x80000000 >>> countl_zero al
  · rw [if_pos c1]; exact writesValid_refl pt
  rw [if_neg c1]
  by_cases c2 : orig = 0 ∨ size = 0 ∨ orig > size ∨ size > b.size
  · rw [if_pos c2]; exact writesValid_refl pt
  rw [if_neg c2]
  by_cases c3 : b.m_common.isSome = true ∧ src.isSome = true
  · rw [if_pos c3]; exact writesValid_refl pt
  rw [if_neg c3]
  by_cases c4 : b.addr > min (u32_sub (u32 (b.addr + b.size)) size &&& u32_sub 0 al)
      (align b.addr al)
  · rw [if_pos c4]; exact writesValid_refl pt
  rw [if_neg c4]
  by_cases c5 : b.m_id = 0
  · rw [if_pos c5]; exact writesValid_refl pt
  rw [if_neg c5]
  exact alloc_loop_writes b _ _ _ _ _ _ _ _

theorem falloc_writes (b : Block) (pt : PageTable) (addr orig : Nat) (src : Option ShmPtr)
    (flags fresh : Nat) : WritesValid pt (falloc b pt addr orig src flags fresh).pages := by
  unfold falloc
  simp only
  generalize (if src.isNone = true then
      b.flags &&& u64_not alloc_prot_mask ||| flags &&& alloc_prot_mask else flags) = F
  generalize (if F &&& page_size_4k ≠ 0 then 0x1000 else 0x10000) = mp
  generalize align (u32 (orig + addr % mp)) mp = size
  by_cases c1 : size = 0 ∨ addr < b.addr ∨ orig > u32 (orig + addr % mp) ∨ orig > size ∨
      (addr - addr % mp) + size > b.addr + b.size ∨
      (src.isSome = true ∧ (orig ||| addr) % mp ≠ 0) ∨ F &&& stack_guarded ≠ 0
  · rw [if_pos c1]; exact writesValid_refl pt
  rw [if_neg c1]
  by_cases c3 : b.m_common.isSome = true ∧ src.isSome = true
  · rw [if_pos c3]; exact writesValid_refl pt
  rw [if_neg c3]
  by_cases c5 : b.m_id = 0
  · rw [if_pos c5]; exact writesValid_refl pt
  rw [if_neg c5]
  generalize (if b.m_common.isSome = true then (none : ShmPtr) else _) = shm
  have ht := try_alloc_writes b pt (addr - addr % mp) F size shm
  generalize try_alloc b pt (addr - addr % mp) F size shm = r at ht ⊢
  obtain ⟨rp, rb, ro⟩ := r
  cases ro with
  | error e => exact ht
  | ok v => cases v <;> exact ht

theorem dealloc_guards_writes (b : Block) (pt : PageTable) (addr size : Nat) :
    WritesValid pt (dealloc_guards b pt addr size).pages := by
  unfold dealloc_guards
  split
  · simp only
    split
    · exact writesValid_set pt _ _ (Or.inl rfl)
    · split
      · exact writesValid_trans (writesValid_set pt _ _ (Or.inl rfl))
          (writesValid_set _ _ _ (Or.inl rfl))
      · exact writesValid_trans (writesValid_set pt _ _ (Or.inl rfl))
          (writesValid_set _ _ _ (Or.inl rfl))
  · exact writesValid_refl pt

theorem page_unmap_clear_writes :
    ∀ n pt i, WritesValid pt (page_unmap_clear n pt i).pages := by
  intro n
  induction n with
  | zero => intro pt i; exact writesValid_refl pt
  | succ n ih =>
    intro pt i
    unfold page_unmap_clear
    split
    · exact writesValid_refl pt
    · exact writesValid_trans (writesValid_set pt i 0 (Or.inl rfl)) (ih _ _)

theorem _page_unmap_writes (pt : PageTable) (addr max_size : Nat) :
    WritesValid pt (_page_unmap pt addr max_size).pages := by
  unfold _page_unmap
  split
  · exact writesValid_refl pt
  · generalize page_unmap_size pt _ _ _ _ = sz
    cases sz with
    | error e => exact writesValid_refl pt
    | ok size =>
      simp only
      generalize _lock_main_range_lock _ _ _ = l
      cases l with
      | error e => exact writesValid_refl pt
      | ok u =>
        simp only
        have hc := page_unmap_clear_writes (size / 4096) pt (addr / 4096)
        generalize page_unmap_clear _ _ _ = r at hc ⊢
        obtain ⟨rp, ro⟩ := r
        cases ro with
        | error e => exact hc
        | ok u => exact hc

theorem dealloc_writes (b : Block) (pt : PageTable) (addr : Nat) (src : Option ShmPtr) :
    WritesValid pt (dealloc b pt addr src).pages := by
  unfold dealloc
  simp only
  generalize RegionMap.find b.m_map _ = f
  cases f with
  | none => exact writesValid_refl pt
  | some v =>
    obtain ⟨rsize, rshm⟩ := v
    simp only
    by_cases c1 : src.isSome = true ∧ ShmPtr.get_id rshm ≠ ShmPtr.get_id (src.getD none)
    · rw [if_pos c1]; exact writesValid_refl pt
    · rw [if_neg c1]
      have hg := dealloc_guards_writes b pt addr
        (u32_sub rsize (if b.flags &&& stack_guarded ≠ 0 then 0x2000 else 0))
      generalize dealloc_guards b pt addr _ = rg at hg ⊢
      obtain ⟨pg, og⟩ := rg
      cases og with
      | error e => exact hg
      | ok u =>
        simp only
        have hu := _page_unmap_writes pg addr
          (u32_sub rsize (if b.flags &&& stack_guarded ≠ 0 then 0x2000 else 0))
        generalize _page_unmap pg addr _ = r at hu ⊢
        obtain ⟨pr, o⟩ := r
        cases o with
        | error e => exact writesValid_trans hg hu
        | ok sz =>
          simp only
          split_ifs <;> exact writesValid_trans hg hu

theorem unmap_regions_writes :
    ∀ (m : RegionMap) (pt : PageTable), WritesValid pt (unmap_regions m pt).pages := by
  intro m
  induction m with
  | nil => intro pt; exact writesValid_refl pt
  | cons e t ih =>
    intro pt
    obtain ⟨k, size, sh⟩ := e
    unfold unmap_regions
    simp only
    have hu := _page_unmap_writes pt k size
    generalize _page_unmap pt k size = r at hu ⊢
    obtain ⟨pr, o⟩ := r
    cases o with
    | error e => exact hu
    | ok sz => exact writesValid_trans hu (ih _)

theorem block_unmap_writes (b : Block) (pt : PageTable) :
    WritesValid pt (block_t.unmap b pt).pages := by
  unfold block_t.unmap
  split
  · simp only
    have hu := unmap_regions_writes b.m_map pt
    generalize unmap_regions b.m_map pt = r at hu ⊢
    obtain ⟨pr, o⟩ := r
    cases o with
    | error e => exact hu
    | ok sz => exact hu
  · exact writesValid_refl pt

theorem new_val_allocated (x fs fc : Nat) (hx : x &&& page_allocated ≠ 0)
    (hfc : fc &&& page_allocated = 0) :
    ((x ||| fs) &&& u8_not fc) &&& page_allocated ≠ 0 := by
  have e : page_allocated = 2 ^ 7 := rfl
  rw [e] at hx hfc ⊢
  rw [and_pow_ne_zero_iff] at hx ⊢
  rw [and_pow_eq_zero_iff] at hfc
  unfold u8_not
  rw [Nat.testBit_and, Nat.testBit_or, Nat.testBit_xor, hx, hfc, Bool.true_or, Bool.true_and,
    Bool.false_xor]
  decide

theorem page_protect_loop_writes (fs fc e : Nat) (hfc : fc &&& page_allocated = 0) :
    ∀ n pt start sv i, start ≤ i →
      (∀ p, start ≤ p → p < e → pt p &&& page_allocated ≠ 0) →
      (sv &&& page_allocated ≠ 0 ∨ i = start ∨ (sv = page_executable ∧ e ≤ i)) →
      WritesValid pt (page_protect_loop fs fc e n pt start sv i).pages := by
  intro n
  induction n with
  | zero => intro pt start sv i _ _ _; exact writesValid_refl pt
  | succ n ih =>
    intro pt start sv i hsi hall hsv
    unfold page_protect_loop
    simp only
    generalize hnv : (if i < e then (pt i ||| fs) &&& u8_not fc else page_executable) = nv
    have hnext : nv &&& page_allocated ≠ 0 ∨ i + 1 = i ∨ (nv = page_executable ∧ e ≤ i + 1) := by
      by_cases hie : i < e
      · rw [if_pos hie] at hnv
        left
        rw [← hnv]
        exact new_val_allocated _ _ _ (hall i hsi hie) hfc
      · rw [if_neg hie] at hnv
        right; right
        exact ⟨hnv.symm, by omega⟩
    by_cases c1 : nv ≠ sv
    · rw [if_pos c1]
      by_cases c2 : u32 ((i - start) * 4096) ≠ 0 ∧ pt start ≠ sv
      · rw [if_pos c2]
        generalize _lock_main_range_lock _ _ _ = l
        cases l with
        | error e => exact writesValid_refl pt
        | ok u =>
          simp only
          rw [store_range_eq]
          have hgood : sv &&& page_allocated ≠ 0 := by
            rcases hsv with h | h | h
            · exact h
            · exfalso
              apply c2.1
              rw [h]; simp [u32]
            · exfalso
              apply c1
              rw [← hnv, if_neg (by omega)]
              exact h.1.symm
          refine writesValid_trans
            (writesValid_range_set pt start (i - start) sv (Or.inr hgood)) ?_
          apply ih _ _ _ _ (by omega) _ hnext
          intro p hp1 hp2
          unfold range_set
          rw [if_neg (by omega)]
          exact hall p (by omega) hp2
      · rw [if_neg c2]
        exact ih _ _ _ _ (by omega) (fun p hp1 hp2 => hall p (by omega) hp2) hnext
    · rw [if_neg c1]
      rw [not_not] at c1
      apply ih _ _ _ _ (by omega) hall
      rcases hnext with h | h | h
      · left; rw [← c1]; exact h
      · omega
      · right; right; rw [← c1]; exact h

theorem page_protect_writes (pt : PageTable) (addr size test set clear : Nat)
    (ha : addr < 0x100000000) (ht : test < 256) (hc : SizeClassConsistent pt)
    (hcl : clear &&& page_allocated = 0) :
    WritesValid pt (page_protect pt addr size test set clear).pages := by
  unfold page_protect
  by_cases c1 : size = 0 ∨ (size ||| addr) % 4096 ≠ 0
  · rw [if_pos c1]; exact writesValid_refl pt
  rw [if_neg c1]
  rw [not_or, not_not, lor_mod_4096] at c1
  obtain ⟨hs, hsa, haa⟩ := c1
  simp only
  have hf : test ||| page_allocated < 256 := by
    have : test ||| page_allocated < 2 ^ 8 := Nat.or_lt_two_pow (by simpa using ht) (by decide)
    simpa using this
  have hiff := check_addr_iff pt addr (test ||| page_allocated) size ha hf hc
  generalize check_addr pt addr (test ||| page_allocated) size = r at hiff ⊢
  cases r with
  | none => exact writesValid_refl pt
  | some v =>
    cases v with
    | false => exact writesValid_refl pt
    | true =>
      simp only
      split
      · exact writesValid_refl pt
      · apply page_protect_loop_writes _ _ _ _ _ _ _ _ _ (le_refl _) _ (Or.inr (Or.inl rfl))
        · have e : page_allocated = 2 ^ 7 := rfl
          rw [e] at hcl ⊢
          rw [and_pow_eq_zero_iff] at hcl ⊢
          rw [Nat.testBit_and, hcl]
          rfl
        · intro p hp1 hp2
          have := (hiff.mp rfl (p * 4096) (by omega) (by omega)).2.1
          rwa [Nat.mul_div_cancel _ (by decide : 0 < 4096)] at this

theorem init_pages_inv : PageInv init_pages := fun _ => Or.inl rfl

theorem one_group_inv : PageInv one_group_pages := by
  intro p
  unfold one_group_pages
  split
  · right; decide
  · left; rfl

theorem check_addr_naive_true_iff (pt : PageTable) (addr flags size : Nat) (hs : size ≠ 0)
    (hov : ¬ 0x100000000 - addr < size) :
    check_addr_naive pt addr flags size = true ↔
      ∀ p, addr / 4096 ≤ p → p ≤ (addr + size - 1) / 4096 →
        u8_not (pt p) &&& (flags ||| page_allocated) = 0 := by
  unfold check_addr_naive
  rw [if_neg hs, if_neg hov, List.all_eq_true]
  constructor
  · intro h p hp1 hp2
    have := h p (by rw [List.mem_range'_1]; omega)
    exact of_decide_eq_true this
  · intro h p hp
    rw [List.mem_range'_1] at hp
    exact decide_eq_true (h p hp.1 (by omega))

theorem range_any_true (pt : PageTable) (lo n p : Nat) (h1 : lo ≤ p) (h2 : p < lo + n)
    (hp : pt p ≠ 0) : (List.range' lo n).any (fun i => pt i != 0) = true := by
  rw [List.any_eq_true]
  exact ⟨p, by rw [List.mem_range'_1]; exact ⟨h1, h2⟩, by simpa using hp⟩

theorem check_addr_all_pages (pt : PageTable) (addr flags size : Nat)
    (ha : addr < 0x100000000) (hf : flags < 256)
    (h : ∀ x, addr ≤ x → x < addr + size → PageHas pt flags (x / 4096)) :
    check_addr pt addr flags size = some true := by
  unfold check_addr
  by_cases hs : size = 0
  · rw [if_pos hs]
  · rw [if_neg hs]
    have hov : ¬ 0x100000000 - addr < size := by
      intro hov
      have := (h 0x100000000 (by omega) (by omega)).1
      omega
    rw [if_neg hov]
    have hl : u32_sub (u32 (addr + size)) 1 / 4096 = (addr + size - 1) / 4096 := by
      unfold u32_sub u32; omega
    simp only [hl]
    apply check_addr_loop_all_pass pt _ _ (by omega) _ _ (by omega) (by omega)
    intro p hp1 hp2
    apply (page_test_iff pt flags p hf).mpr
    by_cases hp0 : p = addr / 4096
    · subst hp0; exact (h addr (le_refl _) (by omega)).2
    · have := (h (p * 4096) (by omega) (by omega)).2
      rwa [Nat.mul_div_cancel _ (by decide : 0 < 4096)] at this

theorem lock_size_decode (lock_val : Nat) :
    u32 (u64 (lock_val <<< range_bits) >>> (range_bits + 32)) = lock_val / 2 ^ 32 % 2 ^ 29 := by
  unfold u32 u64 range_bits
  rw [Nat.shiftLeft_eq, Nat.shiftRight_eq_div_pow]
  norm_num
  omega

theorem one_group_readable : ∀ x, 0x20000000 ≤ x → x < 0x20000000 + 4 →
    PageHas one_group_pages page_readable (x / 4096) := by
  intro x h1 h2
  have : x / 4096 = 0x20000 := by omega
  rw [this]
  decide

theorem shmem_store_get : ∀ n (m : ShmemTable) i v j, v + n * 0x10000 < 2 ^ 64 →
    (shmem_store n m i v).1 j = if i ≤ j ∧ j < i + n then v + (j - i) * 0x10000 else m j := by
  intro n
  induction n with
  | zero =>
    intro m i v j _
    unfold shmem_store
    rw [if_neg (by omega)]
  | succ n ih =>
    intro m i v j h
    unfold shmem_store
    have hu : u64 (v + 0x10000) = v + 0x10000 := by unfold u64; omega
    rw [hu, ih _ _ _ _ (by omega)]
    by_cases c1 : i + 1 ≤ j ∧ j < i + 1 + n
    · rw [if_pos c1, if_pos (by omega)]
      have : j - i = (j - (i + 1)) + 1 := by omega
      rw [this]; ring
    · rw [if_neg c1]
      by_cases c2 : j = i
      · rw [if_pos c2, if_pos (by omega), c2]; simp
      · rw [if_neg c2, if_neg (by omega)]

theorem shmem_clear_get : ∀ n (m : ShmemTable) i j,
    shmem_clear n m i j = if i ≤ j ∧ j < i + n then 0 else m j := by
  intro n
  induction n with
  | zero =>
    intro m i j
    unfold shmem_clear
    rw [if_neg (by omega)]
  | succ n ih =>
    intro m i j
    unfold shmem_clear
    rw [ih]
    by_cases c1 : i + 1 ≤ j ∧ j < i + 1 + n
    · rw [if_pos c1, if_pos (by omega)]
    · rw [if_neg c1]
      by_cases c2 : j = i
      · rw [if_pos c2, if_pos (by omega)]
      · rw [if_neg c2, if_neg (by omega)]

theorem host_ptr_mask (p : Nat) (hp : p < 2 ^ 48) (ha : p % 0x10000 = 0) :
    p &&& 0xffff00000000ffff = 0 := by
  apply Nat.eq_of_testBit_eq
  intro i
  rw [Nat.testBit_and, Nat.zero_testBit]
  by_cases h1 : i < 16
  · have : p.testBit i = false := by
      have e : (p % 2 ^ 16).testBit i = p.testBit i := by
        rw [Nat.testBit_mod_two_pow]; simp [h1]
      rw [← e]
      have : p % 2 ^ 16 = 0 := by norm_num; exact ha
      rw [this, Nat.zero_testBit]
    rw [this, Bool.false_and]
  · by_cases h2 : 48 ≤ i
    · rw [testBit_false_of_lt p 48 i hp h2, Bool.false_and]
    · have : Nat.testBit 0xffff00000000ffff i = false := by
        have hi : 16 ≤ i ∧ i < 48 := by omega
        obtain ⟨hi1, hi2⟩ := hi
        interval_cases i <;> decide
      rw [this, Bool.and_false]

theorem host_ptr_ensure (p : Nat) (hp : p < 2 ^ 48) (ha : p % 0x10000 = 0) :
    (p ^^^ range_locked) &&& 0xffff00000000ffff = range_locked := by
  rw [Nat.and_xor_distrib_right, host_ptr_mask p hp ha, Nat.zero_xor]
  decide

theorem host_ptr_xor (p : Nat) (hp : p < 2 ^ 48) : p ^^^ range_locked = p + 2 ^ 63 := by
  have hr : range_locked = 2 ^ 63 := by unfold range_locked; norm_num
  have hp63 : p < 2 ^ 63 := lt_of_lt_of_le hp (by norm_num)
  have hor : 2 ^ 63 + p = 2 ^ 63 ||| p := by
    have := Nat.mul_add_lt_is_or hp63 1
    rwa [Nat.mul_one] at this
  rw [hr, Nat.add_comm, hor]
  apply Nat.eq_of_testBit_eq
  intro i
  rw [Nat.testBit_xor, Nat.testBit_or, Nat.testBit_two_pow]
  by_cases h : 63 = i
  · subst h
    rw [testBit_false_of_lt p 63 63 hp63 (le_refl _)]
    rfl
  · simp [h]

theorem map_self_ptr (s : ShmObj) (host : Nat) :
    (s.map_self host).1.m_ptr = (s.map_self host).2 ∧
    (s.map_self host).2 = if s.m_ptr ≠ 0 then s.m_ptr else host := by
  unfold ShmObj.map_self
  by_cases h : s.m_ptr ≠ 0
  · rw [if_pos h, if_pos h]; exact ⟨rfl, rfl⟩
  · rw [if_neg h, if_neg h]; exact ⟨rfl, rfl⟩

/-- The mirror code of `_page_map` for a shareable object whose host addresses are below
`2 ^ 48` and 64 KiB aligned: a first mapping (`info = 0`) only counts; any further mapping
succeeds and writes the entries of the span from the object's host address. -/
theorem page_map_mirror_spec (locs : Locations) (m : ShmemTable) (s : ShmObj)
    (addr size host : Nat) (hsz : size < 2 ^ 32) (hsh : s.flags ≠ 0)
    (hptr : s.m_ptr < 2 ^ 48 ∧ s.m_ptr % 0x10000 = 0)
    (hhost : host < 2 ^ 48 ∧ host % 0x10000 = 0) (hinfo : s.info < 2 ^ 64) :
    (s.info = 0 →
      page_map_mirror locs m (some s) addr size host = ⟨m, some { s with info := 1 }, .ok ()⟩) ∧
    (s.info ≠ 0 → ∃ s2, (page_map_mirror locs m (some s) addr size host).shm = some s2 ∧
      (page_map_mirror locs m (some s) addr size host).out = .ok () ∧
      s2.m_ptr = (if s.info = 1 ∧ s.m_ptr = 0 then host else s.m_ptr) ∧
      ∀ k, k < size / 65536 →
        (page_map_mirror locs m (some s) addr size host).shmem (addr / 65536 + k) =
          (s2.m_ptr ^^^ range_locked) + k * 0x10000) := by
  have hstore : ∀ (w : ShmemTable) (p : Nat), p < 2 ^ 48 → ∀ k, k < size / 65536 →
      (shmem_store (size / 65536) w (addr / 65536) (p ^^^ range_locked)).1 (addr / 65536 + k) =
        (p ^^^ range_locked) + k * 0x10000 := by
    intro w p hp k hk
    rw [shmem_store_get _ _ _ _ _ (by rw [host_ptr_xor p hp]; omega), if_pos (by omega)]
    have : addr / 65536 + k - addr / 65536 = k := by omega
    rw [this]
  constructor
  · intro h0
    unfold page_map_mirror
    simp only
    rw [if_neg hsh, if_pos h0, h0]
    rfl
  · intro h0
    unfold page_map_mirror
    simp only
    rw [if_neg hsh, if_neg h0]
    have hu : u64 (s.info + 1) = s.info + 1 ∨ u64 (s.info + 1) = 0 := by unfold u64; omega
    by_cases h1 : s.info = 1
    · have e2 : u64 (s.info + 1) = 2 := by rw [h1]; rfl
      rw [if_pos e2]
      obtain ⟨hm1, hm2⟩ := map_self_ptr { s with info := u64 (s.info + 1) } host
      simp only at hm2
      generalize ShmObj.map_self { s with info := u64 (s.info + 1) } host = ms at hm1 hm2 ⊢
      obtain ⟨ms1, ms2⟩ := ms
      simp only at hm1 hm2 ⊢
      have hP : ms2 < 2 ^ 48 ∧ ms2 % 0x10000 = 0 := by
        rw [hm2]
        by_cases c : s.m_ptr ≠ 0
        · rw [if_pos c]; exact hptr
        · rw [if_neg c]; exact hhost
      have hval : ms2 = if s.info = 1 ∧ s.m_ptr = 0 then host else s.m_ptr := by
        rw [hm2]
        by_cases c : s.m_ptr ≠ 0
        · rw [if_pos c, if_neg (fun h => c h.2)]
        · rw [if_neg c, if_pos ⟨h1, not_not.mp c⟩]
      have hen := host_ptr_ensure ms2 hP.1 hP.2
      rw [if_neg (not_not.mpr hen)]
      simp only
      rw [hm1, if_neg (not_not.mpr hen)]
      exact ⟨_, rfl, rfl, by simp only; exact hval, fun k hk => by
        simp only
        exact hstore _ _ hP.1 k hk⟩
    · have e2 : ¬ u64 (s.info + 1) = 2 := by unfold u64; omega
      rw [if_neg e2]
      simp only
      have hen := host_ptr_ensure s.m_ptr hptr.1 hptr.2
      rw [if_neg (not_not.mpr hen)]
      exact ⟨_, rfl, rfl, by simp only; rw [if_neg (fun h => h1 h.1)], fun k hk => by
        simp only
        exact hstore _ _ hptr.1 k hk⟩

theorem _page_map_shm_eq (locs : Locations) (pt : PageTable) (m : ShmemTable)
    (addr flags size host : Nat) (shm : Option ShmObj) (hs : size ≠ 0)
    (hsa : size % 4096 = 0) (haa : addr % 4096 = 0) (hf : flags &&& page_allocated = 0)
    (hz : ∀ p, addr / 4096 ≤ p → p < addr / 4096 + size / 4096 → pt p = 0)
    (hlim : size < 0x20000000)
    (hok : (page_map_mirror locs m shm addr size host).out = .ok ()) :
    _page_map_shm locs pt m addr flags size shm host =
      ⟨range_set pt (addr / 4096) (size / 4096) (flags ||| page_allocated),
        (page_map_mirror locs m shm addr size host).shmem,
        (page_map_mirror locs m shm addr size host).shm, .ok ()⟩ := by
  unfold _page_map_shm
  have h1 : ¬ (size = 0 ∨ (size ||| addr) % 4096 ≠ 0 ∨ flags &&& page_allocated ≠ 0) := by
    rw [not_or, not_or]
    exact ⟨hs, not_not.mpr ((lor_mod_4096 _ _).mpr ⟨hsa, haa⟩), not_not.mpr hf⟩
  rw [if_neg h1, range_any_false pt _ _ hz]
  have h2 : _lock_main_range_lock range_allocation addr size = .ok () := by
    unfold _lock_main_range_lock
    rw [if_neg hs, if_neg (by omega)]
  simp only [h2, Bool.false_eq_true, if_false, hok]
  rw [page_map_store_eq _ _ _ _ hz]

theorem _page_unmap_shm_region (pt : PageTable) (m : ShmemTable) (k T : Nat) (s : ShmObj)
    (h : RegionMapped pt k T) (hsh : s.flags ≠ 0) (hm : m (k / 65536) ≠ 0) :
    _page_unmap_shm pt m k T (some s) =
      ⟨range_set pt (k / 4096) (T / 4096) 0, shmem_clear (T / 65536) m (k / 65536),
        some { s with info := u64_sub s.info 1 }, .ok T⟩ := by
  obtain ⟨hs, hsa, haa, hlim, hno, hall⟩ := h
  unfold _page_unmap_shm
  have h1 : ¬ (T = 0 ∨ (T ||| k) % 4096 ≠ 0) := by
    rw [not_or]
    exact ⟨hs, not_not.mpr ((lor_mod_4096 _ _).mpr ⟨hsa, haa⟩)⟩
  rw [if_neg h1]
  have h2 := page_unmap_size_mapped pt (decide (pt (k / 4096) &&& page_executable ≠ 0))
    (T / 4096) (k / 4096) 0 false
    (fun p hp1 hp2 => ⟨(hall p hp1 hp2).1, by
      have := (hall p hp1 hp2).2
      by_cases hx : pt (k / 4096) &&& page_executable ≠ 0
      · rw [decide_eq_true hx, decide_eq_true (this.mpr hx)]
      · rw [decide_eq_false hx, decide_eq_false (fun hh => hx (this.mp hh))]⟩)
    (by omega) (fun h => absurd rfl h)
  have e : 0 + T / 4096 * 4096 = T := by omega
  rw [e] at h2
  rw [h2]
  have h3 : _lock_main_range_lock range_allocation k T = .ok () := by
    unfold _lock_main_range_lock
    rw [if_neg hs, if_neg (by omega)]
  simp only [h3]
  rw [page_unmap_clear_eq (T / 4096) pt (k / 4096) (fun p hp1 hp2 => (hall p hp1 hp2).1)]
  simp only
  rw [if_pos ⟨hsh, hm⟩]

theorem countr_one_aux_spec : ∀ n x, (∃ j, j < n ∧ x.testBit j = false) →
    countr_one_aux n x < n ∧ x.testBit (countr_one_aux n x) = false ∧
    (∀ j, j < countr_one_aux n x → x.testBit j = true) ∧
    (∀ i, (x + 1).testBit i =
      if i < countr_one_aux n x then false
      else if i = countr_one_aux n x then true else x.testBit i) := by
  intro n
  induction n with
  | zero => rintro x ⟨j, hj, _⟩; omega
  | succ n ih =>
    rintro x ⟨j, hj, hjc⟩
    unfold countr_one_aux
    by_cases h0 : x.testBit 0 = true
    · rw [if_pos h0]
      have hodd : x % 2 = 1 := by
        rw [Nat.testBit_zero] at h0
        exact of_decide_eq_true h0
      have hj0 : j ≠ 0 := by
        intro h; subst h; rw [h0] at hjc; cases hjc
      obtain ⟨j', rfl⟩ : ∃ j', j = j' + 1 := ⟨j - 1, by omega⟩
      rw [Nat.testBit_succ] at hjc
      obtain ⟨k1, k2, k3, k4⟩ := ih (x / 2) ⟨j', by omega, hjc⟩
      generalize countr_one_aux n (x / 2) = k at k1 k2 k3 k4
      have hk : 1 + k = k + 1 := by omega
      rw [hk]
      refine ⟨by omega, by rw [Nat.testBit_succ]; exact k2, ?_, ?_⟩
      · intro i hi
        cases i with
        | zero => exact h0
        | succ i => rw [Nat.testBit_succ]; exact k3 i (by omega)
      · intro i
        cases i with
        | zero =>
          have hlt : 0 < k + 1 := by omega
          have hodd2 : ¬ (x + 1) % 2 = 1 := by omega
          rw [if_pos hlt, Nat.testBit_zero]
          exact decide_eq_false hodd2
        | succ i =>
          rw [Nat.testBit_succ, Nat.testBit_succ]
          have e : (x + 1) / 2 = x / 2 + 1 := by omega
          rw [e, k4 i]
          split_ifs <;> first | rfl | (exfalso; omega)
    · rw [if_neg h0]
      have h0f : x.testBit 0 = false := by
        cases hb : x.testBit 0 with
        | true => exact absurd hb h0
        | false => rfl
      have heven : x % 2 = 0 := by
        rw [Nat.testBit_zero] at h0f
        have := of_decide_eq_false h0f
        omega
      refine ⟨by omega, h0f, fun j hj => absurd hj (Nat.not_lt_zero _), ?_⟩
      intro i
      cases i with
      | zero =>
        have hodd2 : (x + 1) % 2 = 1 := by omega
        rw [if_neg (Nat.lt_irrefl _), if_pos rfl, Nat.testBit_zero]
        exact decide_eq_true hodd2
      | succ i =>
        have hne : ¬ i + 1 = 0 := by omega
        rw [if_neg (Nat.not_lt_zero _), if_neg hne, Nat.testBit_succ, Nat.testBit_succ]
        have e : (x + 1) / 2 = x / 2 := by omega
        rw [e]

theorem ne_max_of_clear_bit (x j : Nat) (hj : j < 64) (hc : x.testBit j = false) :
    x ≠ 2 ^ 64 - 1 := by
  intro h
  rw [h, Nat.testBit_two_pow_sub_one] at hc
  exact absurd hc (by simp [hj])

theorem u64_not_ne_zero (x j : Nat) (hj : j < 64) (hc : x.testBit j = false) :
    u64_not x ≠ 0 := by
  intro h
  have := testBit_u64_not x j hj
  rw [h, hc] at this
  simp at this

theorem clear_bit_restores (x k : Nat) (hx : x < 2 ^ 64) (hk : k < 64)
    (hc : x.testBit k = false) (y : Nat)
    (hy : ∀ j, y.testBit j = (x.testBit j || decide (j = k))) :
    y &&& u64_not (1 <<< k) = x := by
  apply Nat.eq_of_testBit_eq
  intro j
  rw [Nat.testBit_and, hy j, Nat.one_shiftLeft]
  by_cases hj : j < 64
  · rw [testBit_u64_not _ _ hj, Nat.testBit_two_pow]
    by_cases hjk : j = k
    · subst hjk; simp [hc]
    · have : ¬ k = j := fun h => hjk h.symm
      simp [hjk, this]
  · have h1 : x.testBit j = false := testBit_false_of_lt x 64 j hx (by omega)
    have h2 : (u64_not (2 ^ k)).testBit j = false := by
      unfold u64_not
      have e : (0xFFFFFFFFFFFFFFFF : Nat) = 2 ^ 64 - 1 := by norm_num
      rw [Nat.testBit_xor, Nat.testBit_two_pow, e, Nat.testBit_two_pow_sub_one]
      have : ¬ k = j := by omega
      simp [this, hj]
    rw [h1, h2, Bool.and_false]

/-! ## Properties of the specification -/

/-- C7: if `alloc(S, align)` (no backing supplied) returns a non-zero address `a`, then
`dealloc(a)` on the block returns `S` rounded up to the block's page granularity (4 KiB
for a `page_size_4k` block, 64 KiB otherwise); the two guard pages of a guard-stacked
block are not counted. -/
theorem dealloc_returns_rounded_size (b : Block) (pt : PageTable) (S al flags fresh a : Nat)
    (hb : b.addr + b.size ≤ 0x100000000) (hbs : b.size < 0x100000000)
    (hS : S < 0x100000000)
    (h : (alloc b pt S none al flags fresh).out = .ok a) (ha : a ≠ 0) :
    (dealloc (alloc b pt S none al flags fresh).block
        (alloc b pt S none al flags fresh).pages a none).out =
      .ok (round_up S (if b.flags &&& page_size_4k ≠ 0 then 0x1000 else 0x10000)) := by
  obtain ⟨c, T, shm, _, _, hd⟩ := alloc_then_dealloc b pt S al flags fresh a hb hbs hS h ha
  rw [hd]; rfl

/-- Witness for C7 on the stack block of `vm::init`: a request of 0x3001 bytes is
returned at 0xD0001000 and `dealloc` gives back 0x4000. -/
theorem dealloc_returns_rounded_size_witness :
    (alloc init_stack init_pages 0x3001 none 0x1000 0 7).out = .ok 0xD0001000 ∧
    (dealloc (alloc init_stack init_pages 0x3001 none 0x1000 0 7).block
        (alloc init_stack init_pages 0x3001 none 0x1000 0 7).pages 0xD0001000 none).out =
      .ok 0x4000 :=
  ⟨by decide,
    dealloc_returns_rounded_size init_stack init_pages 0x3001 0x1000 0 7 0xD0001000
      (by decide) (by decide) (by decide) (by decide) (by decide)⟩

/-- C5: whenever `alloc` on a block without stack guards returns a non-zero address `a`
for a request `(size, align)`, `a` is a multiple of `align` and the span
`[a, a + size rounded up to the block's page granularity)` lies within
`[block.addr, block.addr + block.size)`. -/
theorem alloc_result_aligned_in_block (b : Block) (pt : PageTable)
    (size al flags fresh a : Nat)
    (hb : b.addr + b.size ≤ 0x100000000) (hbs : b.size < 0x100000000)
    (hs : size < 0x100000000) (hng : b.flags &&& stack_guarded = 0)
    (h : (alloc b pt size none al flags fresh).out = .ok a) (ha : a ≠ 0) :
    a % al = 0 ∧ b.addr ≤ a ∧
      a + round_up size (if b.flags &&& page_size_4k ≠ 0 then 0x1000 else 0x10000) ≤
        b.addr + b.size := by
  obtain ⟨k, j, hk, hal, hga, horig, hid, hlim, hin, hfree, hbusy, heq⟩ :=
    alloc_none_success b pt size al flags fresh a hb hbs hs h ha
  have hgs : guard_size b = 0 := by unfold guard_size; rw [if_neg (not_not.mpr hng)]
  have hae : a = cand b al j := by
    rw [heq] at h; cases h; omega
  have hpos : 0 < al := by rw [hal]; exact Nat.two_pow_pos k
  refine ⟨?_, ?_, ?_⟩
  · rw [hae, cand_eq_mul]; exact Nat.mul_mod_left _ _
  · rw [hae]; exact cand_ge b al j hpos
  · rw [hae]
    have : round_up size (if b.flags &&& page_size_4k ≠ 0 then 0x1000 else 0x10000) =
        round_up size (min_page b.flags) := rfl
    rw [this]; omega

/-- Witness for C5 on the "user 64k pages" block of `vm::init`. -/
theorem alloc_result_aligned_in_block_witness :
    (alloc init_user64k init_pages 0x10000 none 0x10000 0 7).out = .ok 0x20000000 ∧
    (0x20000000 % 0x10000 = 0 ∧ init_user64k.addr ≤ 0x20000000 ∧
      0x20000000 + round_up 0x10000
          (if init_user64k.flags &&& page_size_4k ≠ 0 then 0x1000 else 0x10000) ≤
        init_user64k.addr + init_user64k.size) :=
  ⟨by decide,
    alloc_result_aligned_in_block init_user64k init_pages 0x10000 0x10000 0 7 0x20000000
      (by decide) (by decide) (by decide) (by decide) (by decide) (by decide)⟩

/-- C3 (as stated, refuted): in the state `stale_block`/`stale_pages`, reached from
`vm::init` by `alloc` and `page_protect`, `alloc` succeeds at 0x20000000 and the `dealloc`
that follows leaves a region map that differs from the one before the `alloc`: the
record of the older region at that address is gone. -/
theorem alloc_dealloc_drops_stale_region :
    (alloc stale_block stale_pages 0x10000 none 0x10000 0 1).out = .ok 0x20000000 ∧
    (dealloc (alloc stale_block stale_pages 0x10000 none 0x10000 0 1).block
        (alloc stale_block stale_pages 0x10000 none 0x10000 0 1).pages 0x20000000 none).block
      ≠ stale_block := by
  decide

/-- C3 (amended): if `alloc(size, align)` (no backing supplied) returns a non-zero
address `a`, then `dealloc(a)` immediately afterwards returns normally and leaves every
page-table entry equal to its value before the `alloc`; the block (its region map
included) is equal to what it was before the `alloc` provided no region was recorded at
the start address of the new region (`a`, or `a - 0x1000` in a guard-stacked block). -/
theorem alloc_dealloc_restores (b : Block) (pt : PageTable) (size al flags fresh a : Nat)
    (hb : b.addr + b.size ≤ 0x100000000) (hbs : b.size < 0x100000000)
    (hs : size < 0x100000000)
    (h : (alloc b pt size none al flags fresh).out = .ok a) (ha : a ≠ 0) :
    (∀ i, (dealloc (alloc b pt size none al flags fresh).block
        (alloc b pt size none al flags fresh).pages a none).pages i = pt i) ∧
    (∃ sz, (dealloc (alloc b pt size none al flags fresh).block
        (alloc b pt size none al flags fresh).pages a none).out = .ok sz) ∧
    (RegionMap.find b.m_map (a - (if b.flags &&& stack_guarded ≠ 0 then 0x1000 else 0)) = none →
      (dealloc (alloc b pt size none al flags fresh).block
        (alloc b pt size none al flags fresh).pages a none).block = b) := by
  obtain ⟨c, T, shm, hac, _, hd⟩ := alloc_then_dealloc b pt size al flags fresh a hb hbs hs h ha
  rw [hd]
  refine ⟨fun i => rfl, ⟨_, rfl⟩, ?_⟩
  intro hf
  have : a - (if b.flags &&& stack_guarded ≠ 0 then 0x1000 else 0) = c := by
    have : (if b.flags &&& stack_guarded ≠ 0 then 0x1000 else 0) = guard_size b := rfl
    rw [this]; omega
  rw [this] at hf
  simp only [RegionMap.erase_assign b.m_map c (T, shm) hf]

/-- Witness for C3 (amended) on the stack block of `vm::init`. -/
theorem alloc_dealloc_restores_witness :
    (alloc init_stack init_pages 0x3001 none 0x1000 0 7).out = .ok 0xD0001000 ∧
    ((∀ i, (dealloc (alloc init_stack init_pages 0x3001 none 0x1000 0 7).block
        (alloc init_stack init_pages 0x3001 none 0x1000 0 7).pages 0xD0001000 none).pages i =
          init_pages i) ∧
    (∃ sz, (dealloc (alloc init_stack init_pages 0x3001 none 0x1000 0 7).block
        (alloc init_stack init_pages 0x3001 none 0x1000 0 7).pages 0xD0001000 none).out = .ok sz) ∧
    (RegionMap.find init_stack.m_map
        (0xD0001000 - (if init_stack.flags &&& stack_guarded ≠ 0 then 0x1000 else 0)) = none →
      (dealloc (alloc init_stack init_pages 0x3001 none 0x1000 0 7).block
        (alloc init_stack init_pages 0x3001 none 0x1000 0 7).pages 0xD0001000 none).block =
          init_stack)) :=
  ⟨by decide,
    alloc_dealloc_restores init_stack init_pages 0x3001 0x1000 0 7 0xD0001000
      (by decide) (by decide) (by decide) (by decide) (by decide)⟩

/-- C9: after a successful `alloc` of `S` bytes (`S` a multiple of 4 KiB, no backing
supplied) on a guard-stacked block returning `a`: the region recorded starts one page
below `a` and is `S + 0x2000` long; every page of `[a, a+S)` holds one entry `v` that has
the allocated bit and the requested protection (readable unless `alloc_hidden`, writable
unless `alloc_hidden` or `alloc_unwritable`, executable iff `alloc_executable`); the page
just below `a` and the page at `a+S` hold exactly `page_allocated`; and `check_addr` with
the readable or the writable flag fails on both guard pages. -/
theorem guarded_alloc_layout (b : Block) (pt : PageTable) (f0 S al flags fresh a : Nat)
    (hb : b.addr + b.size ≤ 0x100000000) (hbs : b.size < 0x100000000)
    (hfl : b.flags = process_block_flags f0) (hg : b.flags &&& stack_guarded ≠ 0)
    (hS : S < 0x100000000) (hSa : S % 4096 = 0)
    (h : (alloc b pt S none al flags fresh).out = .ok a) (ha : a ≠ 0) :
    (0x1000 ≤ a ∧ ∃ shm, (alloc b pt S none al flags fresh).block =
        { b with m_map := b.m_map.assign (a - 0x1000) (S + 0x2000, shm) }) ∧
    (∃ v, (∀ x, a ≤ x → x < a + S → (alloc b pt S none al flags fresh).pages (x / 4096) = v) ∧
      v &&& page_allocated ≠ 0 ∧
      (v &&& page_readable ≠ 0 ↔ flags &&& alloc_hidden = 0) ∧
      (v &&& page_writable ≠ 0 ↔ (flags &&& alloc_hidden = 0 ∧ flags &&& alloc_unwritable = 0)) ∧
      (v &&& page_executable ≠ 0 ↔ flags &&& alloc_executable ≠ 0)) ∧
    ((alloc b pt S none al flags fresh).pages (a / 4096 - 1) = page_allocated ∧
      (alloc b pt S none al flags fresh).pages ((a + S) / 4096) = page_allocated) ∧
    (check_addr (alloc b pt S none al flags fresh).pages (a - 0x1000) page_readable 0x1000
        = some false ∧
      check_addr (alloc b pt S none al flags fresh).pages (a - 0x1000) page_writable 0x1000
        = some false ∧
      check_addr (alloc b pt S none al flags fresh).pages (a + S) page_readable 0x1000
        = some false ∧
      check_addr (alloc b pt S none al flags fresh).pages (a + S) page_writable 0x1000
        = some false) := by
  obtain ⟨k, j, hk, hal, hga, horig, hid, hlim, hin, hfree, hbusy, heq⟩ :=
    alloc_none_success b pt S al flags fresh a hb hbs hS h ha
  have h4k : b.flags &&& page_size_4k ≠ 0 := by
    rw [hfl] at hg ⊢; exact process_block_flags_guard f0 hg
  have hmp : min_page b.flags = 0x1000 := by unfold min_page; rw [if_pos h4k]
  have hR : round_up S (min_page b.flags) = S := by
    rw [hmp]; unfold round_up; omega
  have hgs : guard_size b = 0x1000 := by unfold guard_size; rw [if_pos hg]
  have hcm := cand_mod b al j k hal (le_trans (min_page_ge b.flags) hga)
  have hae : a = cand b al j + 0x1000 := by
    rw [heq] at h; cases h; omega
  generalize cand b al j = c at *
  rw [hR, hgs] at hin heq
  have e2 : S + 2 * 4096 = S + 0x2000 := by omega
  rw [e2] at hin heq
  have hS0 : 0 < S := Nat.pos_of_ne_zero horig
  have hpages : (alloc b pt S none al flags fresh).pages =
      alloc_pages pt true c S (try_alloc_flags (eff_flags b flags) ||| page_allocated) := by
    rw [heq, decide_eq_true hg]
  have hg1 : (alloc b pt S none al flags fresh).pages (a / 4096 - 1) = page_allocated := by
    rw [hpages]
    simp only [alloc_pages, range_set, PageTable.set, if_true]
    rw [if_neg (by omega), if_neg (by omega), if_pos (by omega)]
  have hg2 : (alloc b pt S none al flags fresh).pages ((a + S) / 4096) = page_allocated := by
    rw [hpages]
    simp only [alloc_pages, range_set, PageTable.set, if_true]
    rw [if_neg (by omega), if_pos (by omega)]
  have e1 : (a - 0x1000) / 4096 = a / 4096 - 1 := by omega
  refine ⟨⟨by omega, ?_⟩, ?_, ⟨hg1, hg2⟩, ?_, ?_, ?_, ?_⟩
  · refine ⟨own_shm b fresh (S + 0x2000), ?_⟩
    have : a - 0x1000 = c := by omega
    rw [this, heq]
  · refine ⟨try_alloc_flags (eff_flags b flags) ||| page_allocated, ?_, lor_allocated_ne _,
      ?_, ?_, ?_⟩
    · intro x hx1 hx2
      rw [hpages]
      simp only [alloc_pages, range_set, if_true]
      rw [if_pos (by omega)]
    · rw [try_alloc_flags_readable, eff_flags_hidden]
    · rw [try_alloc_flags_writable, eff_flags_hidden, eff_flags_unwritable]
    · rw [try_alloc_flags_executable, eff_flags_executable]
  · apply check_addr_page_fail _ _ _ (by omega) (by omega)
    rw [e1, hg1]; decide
  · apply check_addr_page_fail _ _ _ (by omega) (by omega)
    rw [e1, hg1]; decide
  · apply check_addr_page_fail _ _ _ (by omega) (by omega)
    rw [hg2]; decide
  · apply check_addr_page_fail _ _ _ (by omega) (by omega)
    rw [hg2]; decide

/-- C9 witness on the stack block of `vm::init`: 0x4000 bytes are returned at 0xD0001000,
the guard pages 0xD0000 and 0xD0005 hold `page_allocated` and fail `check_addr`. -/
theorem guarded_alloc_layout_witness :
    (alloc init_stack init_pages 0x4000 none 0x1000 0 7).out = .ok 0xD0001000 ∧
    ((alloc init_stack init_pages 0x4000 none 0x1000 0 7).pages (0xD0001000 / 4096 - 1)
        = page_allocated ∧
      (alloc init_stack init_pages 0x4000 none 0x1000 0 7).pages ((0xD0001000 + 0x4000) / 4096)
        = page_allocated) :=
  ⟨by decide,
    (guarded_alloc_layout init_stack init_pages
      (page_size_4k ||| preallocated ||| stack_guarded ||| bf0_0x1) 0x4000 0x1000 0 7 0xD0001000
      (by decide) (by decide) (by decide) (by decide) (by decide) (by decide) (by decide)
      (by decide)).2.2.1⟩

theorem free_cand_area (b : Block) (pt : PageTable) (al T j : Nat) (hT : 0 < T)
    (hb : b.addr + b.size ≤ 0x100000000) :
    FreeCand b pt al T j ↔
      (cand b al j + T ≤ b.addr + b.size ∧ area_mapped pt (cand b al j) T = false) := by
  unfold FreeCand
  constructor
  · rintro ⟨h1, h2⟩
    exact ⟨h1, (area_mapped_false_iff pt _ T hT (by omega)).mpr h2⟩
  · rintro ⟨h1, h2⟩
    exact ⟨h1, (area_mapped_false_iff pt _ T hT (by omega)).mp h2⟩

/-- C4 (as stated, refuted): in the "SPU reserved" block of `vm::init` (512 MiB, empty), a
request of 512 MiB with alignment 64 KiB has the candidate 0xE0000000, whose span lies in
the block and covers only absent pages, and `alloc` neither returns it nor returns 0: it
throws from the range lock. -/
theorem alloc_512M_throws :
    cand init_spu 0x10000 0 = 0xE0000000 ∧
    FreeCand init_spu init_pages 0x10000 0x20000000 0 ∧
    (alloc init_spu init_pages 0x20000000 none 0x10000 0 0).out = .error .lock_range := by
  have hc : cand init_spu 0x10000 0 = 0xE0000000 := by decide
  have hfree : area_mapped init_pages (cand init_spu 0x10000 0) 0x20000000 = false := by
    rw [hc]
    exact (area_mapped_false_iff init_pages _ _ (by decide) (by decide)).mpr (fun _ _ _ => rfl)
  have hfc : FreeCand init_spu init_pages 0x10000 0x20000000 0 :=
    (free_cand_area init_spu init_pages 0x10000 0x20000000 0 (by decide) (by decide)).mpr
      ⟨by decide, hfree⟩
  refine ⟨hc, hfc, ?_⟩
  have hR : round_up 0x20000000 (min_page init_spu.flags) + 2 * guard_size init_spu
      = 0x20000000 := by decide
  have hff := alloc_none_first_fit init_spu init_pages 0x20000000 0x10000 0 0 16 0
    (by decide) (by decide) (by decide) (by decide) (by decide) (by decide) (by decide)
    (by decide) (by rw [hR]; decide) (by rw [hR]; exact hfree) (fun i hi => by omega)
  rw [hff, hR]
  exact alloc_at_lock_fault init_spu init_pages 0 _ 0x20000000 0x20000000 _ (by decide)
    (by decide) (by decide) (by decide) (by decide) (by decide) hfree

/-- C4 (amended): for a live block, an alignment that is a power of two no smaller than
the block's granularity, and a request whose rounded size is below 512 MiB, `alloc` (no
backing supplied) is first-fit.  With `T` the rounded size plus the guard pages: when the
request is not empty and candidate `j` is the lowest qualifying one, `alloc` returns its
address (plus 0x1000 in a guard-stacked block); when the request is empty, `T` exceeds the
block size, or no candidate qualifies, it returns 0 and changes nothing; and in a block
whose base address is not 0 it returns 0 exactly in those cases. -/
theorem alloc_first_fit (b : Block) (pt : PageTable) (size al flags fresh k : Nat)
    (hb : b.addr + b.size ≤ 0x100000000) (hbs : b.size < 0x100000000)
    (hs : size < 0x100000000) (hk : k < 32) (hal : al = 2 ^ k)
    (hga : (if b.flags &&& page_size_4k ≠ 0 then 0x1000 else 0x10000) ≤ al)
    (hid : b.m_id ≠ 0)
    (hlim : round_up size (if b.flags &&& page_size_4k ≠ 0 then 0x1000 else 0x10000)
      < 0x20000000) :
    (∀ j, size ≠ 0 →
      FreeCand b pt al (round_up size (if b.flags &&& page_size_4k ≠ 0 then 0x1000 else 0x10000)
        + (if b.flags &&& stack_guarded ≠ 0 then 0x2000 else 0)) j →
      (∀ i, i < j → ¬ FreeCand b pt al
        (round_up size (if b.flags &&& page_size_4k ≠ 0 then 0x1000 else 0x10000)
          + (if b.flags &&& stack_guarded ≠ 0 then 0x2000 else 0)) i) →
      (alloc b pt size none al flags fresh).out =
        .ok (cand b al j + (if b.flags &&& stack_guarded ≠ 0 then 0x1000 else 0))) ∧
    ((size = 0 ∨
        b.size < round_up size (if b.flags &&& page_size_4k ≠ 0 then 0x1000 else 0x10000)
          + (if b.flags &&& stack_guarded ≠ 0 then 0x2000 else 0) ∨
        ¬ ∃ j, FreeCand b pt al
          (round_up size (if b.flags &&& page_size_4k ≠ 0 then 0x1000 else 0x10000)
            + (if b.flags &&& stack_guarded ≠ 0 then 0x2000 else 0)) j) →
      alloc b pt size none al flags fresh = ⟨pt, b, .ok 0⟩) ∧
    (0 < b.addr →
      ((alloc b pt size none al flags fresh).out = .ok 0 ↔
        (size = 0 ∨
          b.size < round_up size (if b.flags &&& page_size_4k ≠ 0 then 0x1000 else 0x10000)
            + (if b.flags &&& stack_guarded ≠ 0 then 0x2000 else 0) ∨
          ¬ ∃ j, FreeCand b pt al
            (round_up size (if b.flags &&& page_size_4k ≠ 0 then 0x1000 else 0x10000)
              + (if b.flags &&& stack_guarded ≠ 0 then 0x2000 else 0)) j))) := by
  have hmp : (if b.flags &&& page_size_4k ≠ 0 then 0x1000 else 0x10000) = min_page b.flags := rfl
  have hg1 : (if b.flags &&& stack_guarded ≠ 0 then 0x1000 else 0) = guard_size b := rfl
  have hg2 : (if b.flags &&& stack_guarded ≠ 0 then 0x2000 else 0) = 2 * guard_size b := by
    unfold guard_size; split <;> rfl
  rw [hmp] at hga hlim ⊢
  rw [hg1, hg2]
  generalize hTd : round_up size (min_page b.flags) + 2 * guard_size b = T
  have hpos : 0 < al := by rw [hal]; exact Nat.two_pow_pos k
  have hRge := roundup_ge size (min_page b.flags) (by have := min_page_ge b.flags; omega)
  have hRm := round_up_mod size (min_page b.flags) (min_page_cases _)
  -- the lowest qualifying candidate is taken
  have hA : ∀ j, size ≠ 0 → FreeCand b pt al T j → (∀ i, i < j → ¬ FreeCand b pt al T i) →
      (alloc b pt size none al flags fresh).out = .ok (cand b al j + guard_size b) := by
    intro j hs0 hfc hmin
    have hTpos : 0 < T := by unfold round_up at *; omega
    obtain ⟨hin, hfree⟩ := (free_cand_area b pt al T j hTpos hb).mp hfc
    have hbusy : ∀ i, i < j → area_mapped pt (cand b al i) T = true := by
      intro i hi
      by_contra hc
      have := cand_mono b al i j (by omega)
      exact hmin i hi ((free_cand_area b pt al T i hTpos hb).mpr ⟨by omega, by simpa using hc⟩)
    subst hTd
    rw [alloc_none_first_fit b pt size al flags fresh k j hb hbs hs hk hal hga hs0 hid hin
      hfree hbusy]
    rw [alloc_at_eq b pt flags (cand b al j) (round_up size (min_page b.flags)) _ _ rfl
      (cand_mod b al j k hal (le_trans (min_page_ge b.flags) hga))
      (by unfold round_up at *; omega) hRm hlim (by omega) hfree]
  -- the failing cases
  have hB : (size = 0 ∨ b.size < T ∨ ¬ ∃ j, FreeCand b pt al T j) →
      alloc b pt size none al flags fresh = ⟨pt, b, .ok 0⟩ := by
    intro hf
    by_cases hrej : size = 0 ∨ b.size < T
    · subst hTd
      exact alloc_none_reject b pt size al flags fresh k hbs hs hk hal hga hrej
    · rw [not_or] at hrej
      have hno : ¬ ∃ j, FreeCand b pt al T j := by
        rcases hf with h | h | h
        · exact absurd h hrej.1
        · exact absurd h hrej.2
        · exact h
      have hTpos : 0 < T := by unfold round_up at *; omega
      subst hTd
      apply alloc_none_exhaust b pt size al flags fresh k hb hbs hs hk hal hga hrej.1 (by omega)
      intro j hj
      by_contra hc
      exact hno ⟨j, (free_cand_area b pt al _ j hTpos hb).mpr ⟨hj, by simpa using hc⟩⟩
  refine ⟨hA, hB, ?_⟩
  intro hbase
  constructor
  · intro hout
    by_contra hf
    rw [not_or, not_or, not_not] at hf
    obtain ⟨hs0, _, hex⟩ := hf
    obtain ⟨j, hj, hmin⟩ := exists_least _ hex
    rw [hA j hs0 hj hmin] at hout
    have := cand_ge b al j hpos
    have h0 := Except.ok.inj hout
    omega
  · intro hf
    rw [hB hf]

/-- C6 (as stated, refuted): `alloc` on the "user 64k pages" block with alignment 0x1000,
which is below the block's 64 KiB granularity, does not return 0: it throws. -/
theorem alloc_small_alignment_throws :
    (alloc init_user64k init_pages 0x10000 none 0x1000 0 0).out = .error .invalid_alignment ∧
    (alloc init_user64k init_pages 0x10000 none 0x1000 0 0).out ≠ .ok 0 := by
  decide

/-- C6 (amended): `alloc` (no backing supplied) called with an alignment that is not a
power of two, or that is smaller than the block's page granularity (4 KiB or 64 KiB),
throws the "Invalid alignment" exception and leaves the page table and the block as they
were. -/
theorem alloc_invalid_alignment_throws (b : Block) (pt : PageTable)
    (size al flags fresh : Nat)
    (h : al < (if b.flags &&& page_size_4k ≠ 0 then 0x1000 else 0x10000) ∨ ¬ ∃ k, al = 2 ^ k) :
    alloc b pt size none al flags fresh = ⟨pt, b, .error .invalid_alignment⟩ :=
  alloc_none_invalid b pt size al flags fresh h

/-- Witness for C6 (amended): alignment 3 on the stack block of `vm::init`. -/
theorem alloc_invalid_alignment_throws_witness :
    ((3 : Nat) < (if init_stack.flags &&& page_size_4k ≠ 0 then 0x1000 else 0x10000) ∨
      ¬ ∃ k, (3 : Nat) = 2 ^ k) ∧
    alloc init_stack init_pages 0x1000 none 3 0 0 =
      ⟨init_pages, init_stack, .error .invalid_alignment⟩ :=
  ⟨Or.inl (by decide),
    alloc_invalid_alignment_throws init_stack init_pages 0x1000 3 0 0 (Or.inl (by decide))⟩

/-- C8: `dealloc(addr, src)` returns 0 and leaves the page table and the block (its region
map included) unchanged when no region of the block starts at `addr` (at `addr - 0x1000`
in a guard-stacked block), or when a backing handle `src` is supplied that is not the
handle recorded for that region. -/
theorem dealloc_no_match (b : Block) (pt : PageTable) (addr : Nat) (src : Option ShmPtr)
    (h : RegionMap.find b.m_map
          (u32_sub addr (if b.flags &&& stack_guarded ≠ 0 then 0x1000 else 0)) = none ∨
      ∃ rsize rshm p,
        RegionMap.find b.m_map
          (u32_sub addr (if b.flags &&& stack_guarded ≠ 0 then 0x1000 else 0))
            = some (rsize, rshm) ∧
        src = some p ∧ ShmPtr.get_id rshm ≠ ShmPtr.get_id p) :
    dealloc b pt addr src = ⟨pt, b, .ok 0⟩ := by
  unfold dealloc
  rcases h with h | ⟨rsize, rshm, p, h, hs, hne⟩
  · simp only [h]
  · subst hs
    simp only [h, Option.isSome_some, Option.getD_some, true_and]
    rw [if_pos hne]

/-- Witness for C8: in `mixed_block`, whose only region starts at 0x20000000 and was made
by the block itself (identity 0), `dealloc` with the foreign handle of identity 9. -/
theorem dealloc_no_match_witness :
    (∃ rsize rshm p,
        RegionMap.find mixed_block.m_map
          (u32_sub 0x20000000 (if mixed_block.flags &&& stack_guarded ≠ 0 then 0x1000 else 0))
            = some (rsize, rshm) ∧
        (some (some ⟨9, 0x10000, 0⟩) : Option ShmPtr) = some p ∧
          ShmPtr.get_id rshm ≠ ShmPtr.get_id p) ∧
    dealloc mixed_block mixed_pages 0x20000000 (some (some ⟨9, 0x10000, 0⟩)) =
      ⟨mixed_pages, mixed_block, .ok 0⟩ :=
  ⟨⟨0x10000, some ⟨0, 0x10000, 0⟩, some ⟨9, 0x10000, 0⟩, by decide, rfl, by decide⟩,
    dealloc_no_match mixed_block mixed_pages 0x20000000 (some (some ⟨9, 0x10000, 0⟩))
      (Or.inr ⟨0x10000, some ⟨0, 0x10000, 0⟩, some ⟨9, 0x10000, 0⟩, by decide, rfl, by decide⟩)⟩

/-- C2: in a block (inside the 32-bit address space) whose recorded regions all have
non-zero page entries on every page they cover, a successful `alloc` or `falloc` (non-zero
result, with or without a supplied backing) adds one region `[c, c+T)` to the region map,
inside the block, and no page of it is a page of a region recorded before. -/
theorem alloc_regions_disjoint (b : Block) (pt : PageTable)
    (hb : b.addr + b.size ≤ 0x100000000)
    (hlive : ∀ k sz s, (k, sz, s) ∈ b.m_map → ∀ y, k ≤ y → y < k + sz → pt (y / 4096) ≠ 0) :
    (∀ orig src al flags fresh a,
      (alloc b pt orig src al flags fresh).out = .ok a → a ≠ 0 →
      ∃ c T shm, 0 < T ∧ c + T ≤ b.addr + b.size ∧
        (alloc b pt orig src al flags fresh).block =
          { b with m_map := b.m_map.assign c (T, shm) } ∧
        ∀ k sz s, (k, sz, s) ∈ b.m_map →
          ∀ x y, c ≤ x → x < c + T → k ≤ y → y < k + sz → x / 4096 ≠ y / 4096) ∧
    (∀ addr orig src flags fresh a,
      (falloc b pt addr orig src flags fresh).out = .ok a → a ≠ 0 →
      ∃ c T shm, 0 < T ∧ c + T ≤ b.addr + b.size ∧
        (falloc b pt addr orig src flags fresh).block =
          { b with m_map := b.m_map.assign c (T, shm) } ∧
        ∀ k sz s, (k, sz, s) ∈ b.m_map →
          ∀ x y, c ≤ x → x < c + T → k ≤ y → y < k + sz → x / 4096 ≠ y / 4096) := by
  have key : ∀ c T, 0 < T → c + T ≤ b.addr + b.size → area_mapped pt c T = false →
      ∀ k sz s, (k, sz, s) ∈ b.m_map →
        ∀ x y, c ≤ x → x < c + T → k ≤ y → y < k + sz → x / 4096 ≠ y / 4096 := by
    intro c T hT hin hfree k sz s hm x y hx1 hx2 hy1 hy2 hxy
    have hz := (area_mapped_false_iff pt c T hT (by omega)).mp hfree x hx1 hx2
    rw [hxy] at hz
    exact hlive k sz s hm y hy1 hy2 hz
  constructor
  · intro orig src al flags fresh a h ha
    obtain ⟨c, T, shm, hT, hin, hfree, hblk⟩ :=
      alloc_success_region b pt orig src al flags fresh a hb h ha
    exact ⟨c, T, shm, hT, hin, hblk, key c T hT hin hfree⟩
  · intro addr orig src flags fresh a h ha
    obtain ⟨c, T, shm, hT, hin, hfree, hblk⟩ :=
      falloc_success_region b pt addr orig src flags fresh a hb h ha
    exact ⟨c, T, shm, hT, hin, hblk, key c T hT hin hfree⟩

theorem one_group_consistent : SizeClassConsistent one_group_pages := by
  intro i j _
  constructor
  · intro h _
    exfalso
    apply h
    simp only [one_group_pages]
    split <;> decide
  · intro _ hj
    simp only [one_group_pages]
    have : (j / 16 = 0x2000) ↔ (i / 16 = 0x2000) := by
      norm_num at hj ⊢; omega
    by_cases hi : i / 16 = 0x2000
    · rw [if_pos hi, if_pos (this.mpr hi)]
    · rw [if_neg hi, if_neg (fun h => hi (this.mp h))]

/-- C1 (as stated, refuted): in `mixed_pages`, reached from `vm::init` by `alloc` and
`page_protect`, `check_addr(0x20000000, readable, 0x2000)` returns true although page
0x20001, which lies in the range, lacks the readable bit: the scan skipped it. -/
theorem check_addr_skips_page :
    check_addr mixed_pages 0x20000000 page_readable 0x2000 = some true ∧
    ¬ (∀ x, 0x20000000 ≤ x → x < 0x20000000 + 0x2000 →
        PageHas mixed_pages page_readable (x / 4096)) := by
  refine ⟨by decide, ?_⟩
  intro h
  have := h 0x20001000 (by decide) (by decide)
  revert this
  decide

/-- C1 (amended): for every page table in which a page carrying the 64 KiB (1 MiB)
size-class flag has the same entry as every page of its aligned 64 KiB (1 MiB) group,
every 32-bit `addr`, every flag set and every size, `check_addr(addr, flags, size)`
returns, and it returns true if and only if every 4 KiB page that intersects
`[addr, addr+size)` is a page of the 32-bit address space, has the allocated bit and has
every bit of `flags`. -/
theorem check_addr_iff_of_consistent (pt : PageTable) (addr flags size : Nat)
    (ha : addr < 0x100000000) (hf : flags < 256) (hc : SizeClassConsistent pt) :
    (∃ r, check_addr pt addr flags size = some r) ∧
    (check_addr pt addr flags size = some true ↔
      ∀ x, addr ≤ x → x < addr + size → PageHas pt flags (x / 4096)) :=
  ⟨check_addr_total pt addr flags size ha, check_addr_iff pt addr flags size ha hf hc⟩

/-- Witness for C1 (amended) on `one_group_pages`. -/
theorem check_addr_iff_of_consistent_witness :
    check_addr one_group_pages 0x20003000 page_writable 0x5000 = some true ∧
    (check_addr one_group_pages 0x20003000 page_writable 0x5000 = some true ↔
      ∀ x, 0x20003000 ≤ x → x < 0x20003000 + 0x5000 →
        PageHas one_group_pages page_writable (x / 4096)) :=
  ⟨by decide,
    (check_addr_iff_of_consistent one_group_pages 0x20003000 page_writable 0x5000
      (by decide) (by decide) one_group_consistent).2⟩

/-- C10 (as stated, refuted): in `mixed_pages`, `page_protect(0x20000000, 0x2000,
test = readable, set = 0, clear = 0)` returns true although page 0x20001 of the range
lacks the readable bit. -/
theorem page_protect_skips_page :
    (page_protect mixed_pages 0x20000000 0x2000 page_readable 0 0).out = .ok true ∧
    ¬ PageHas mixed_pages page_readable (0x20001000 / 4096) := by
  decide

/-- C10 (amended): for every page table in which a page carrying a size-class flag has
the same entry as every page of its aligned group, every page-aligned `addr` and non-zero
page-aligned `size`, `page_protect(addr, size, test, set, clear)` returns false if and
only if some page of `[addr, addr+size)` is absent (not a page of the address space, or
without the allocated bit) or lacks a bit of `test`; and whenever it returns false the page
table is left unchanged. -/
theorem page_protect_false_iff_of_consistent (pt : PageTable)
    (addr size test set clear : Nat)
    (ha : addr < 0x100000000) (haa : addr % 4096 = 0) (hs0 : size ≠ 0)
    (hsa : size % 4096 = 0) (ht : test < 256) (hc : SizeClassConsistent pt) :
    ((page_protect pt addr size test set clear).out = .ok false ↔
      ∃ x, addr ≤ x ∧ x < addr + size ∧ ¬ PageHas pt test (x / 4096)) ∧
    ((page_protect pt addr size test set clear).out = .ok false →
      (page_protect pt addr size test set clear).pages = pt) := by
  obtain ⟨h1, h2⟩ := page_protect_false_iff pt addr size test set clear ha haa hs0 hsa
  refine ⟨?_, h2⟩
  rw [h1]
  obtain ⟨r, hr⟩ := check_addr_total pt addr test size ha
  have hiff := check_addr_iff pt addr test size ha ht hc
  constructor
  · intro hf
    by_contra hne
    have : check_addr pt addr test size = some true := by
      apply hiff.mpr
      intro x hx1 hx2
      by_contra hp
      exact hne ⟨x, hx1, hx2, hp⟩
    rw [hf] at this; cases this
  · rintro ⟨x, hx1, hx2, hp⟩
    cases r with
    | false => exact hr
    | true => exact absurd (hiff.mp hr x hx1 hx2) hp

/-- Witness for C10 (amended) on `one_group_pages`: the range runs one page past the
mapped group. -/
theorem page_protect_false_iff_of_consistent_witness :
    (page_protect one_group_pages 0x2000F000 0x2000 page_readable 0 0).out = .ok false ∧
    ((page_protect one_group_pages 0x2000F000 0x2000 page_readable 0 0).out = .ok false ↔
      ∃ x, 0x2000F000 ≤ x ∧ x < 0x2000F000 + 0x2000 ∧
        ¬ PageHas one_group_pages page_readable (x / 4096)) :=
  ⟨by decide,
    (page_protect_false_iff_of_consistent one_group_pages 0x2000F000 0x2000 page_readable 0 0
      (by decide) (by decide) (by decide) (by decide) (by decide) one_group_consistent).1⟩

/-- Witness for C4 (amended) on the empty "user 64k pages" block of `vm::init`: candidate
0 qualifies and is returned. -/
theorem alloc_first_fit_witness :
    FreeCand init_user64k init_pages 0x10000
      (round_up 0x12345 (if init_user64k.flags &&& page_size_4k ≠ 0 then 0x1000 else 0x10000)
        + (if init_user64k.flags &&& stack_guarded ≠ 0 then 0x2000 else 0)) 0 ∧
    (alloc init_user64k init_pages 0x12345 none 0x10000 0 7).out =
      .ok (cand init_user64k 0x10000 0 +
        (if init_user64k.flags &&& stack_guarded ≠ 0 then 0x1000 else 0)) :=
  ⟨⟨by decide, fun _ _ _ => rfl⟩,
    (alloc_first_fit init_user64k init_pages 0x12345 0x10000 0 7 16
      (by decide) (by decide) (by decide) (by decide) (by decide) (by decide) (by decide)
      (by decide)).1 0 (by decide) ⟨by decide, fun _ _ _ => rfl⟩ (fun i hi => absurd hi (by omega))⟩

theorem mixed_pages_region : ∀ i, i < 16 → mixed_pages (0x20000 + i) ≠ 0 := by
  decide

/-- Witness for C2 on `mixed_block`/`mixed_pages`, where one region is already recorded:
a second `alloc` of 64 KiB succeeds at 0x20010000. -/
theorem alloc_regions_disjoint_witness :
    (alloc mixed_block mixed_pages 0x10000 none 0x10000 0 7).out = .ok 0x20010000 ∧
    ∃ c T shm, 0 < T ∧ c + T ≤ mixed_block.addr + mixed_block.size ∧
      (alloc mixed_block mixed_pages 0x10000 none 0x10000 0 7).block =
        { mixed_block with m_map := mixed_block.m_map.assign c (T, shm) } ∧
      ∀ k sz s, (k, sz, s) ∈ mixed_block.m_map →
        ∀ x y, c ≤ x → x < c + T → k ≤ y → y < k + sz → x / 4096 ≠ y / 4096 :=
  ⟨by decide,
    (alloc_regions_disjoint mixed_block mixed_pages (by decide)
      (by
        intro k sz s hm y hy1 hy2
        have hmap : mixed_block.m_map = [(0x20000000, 0x10000, some ⟨0, 0x10000, 0⟩)] := by
          decide
        rw [hmap] at hm
        simp only [List.mem_singleton, Prod.mk.injEq] at hm
        obtain ⟨rfl, rfl, _⟩ := hm
        have := mixed_pages_region (y / 4096 - 0x20000) (by omega)
        rwa [show 0x20000 + (y / 4096 - 0x20000) = y / 4096 by omega] at this)).1
      0x10000 none 0x10000 0 7 0x20010000 (by decide) (by decide)⟩

/-- C11 evaluated at a failing input: in `mixed_pages` page 0x20000 holds 0xA3 and page
0x20001 holds 0xA2 (readable cleared).  `page_protect(0x20000000, 0x2000, test = 0,
set = readable, clear = 0)` returns true; the two pages have the same new value 0xA3, so
they form one run, and the run is written only if its first page differs from the new
value: page 0x20001 keeps 0xA2, whereas `(old | (set & ~clear)) & ~(clear & ~set)` is
0xA3. -/
theorem page_protect_run_not_written :
    mixed_pages 0x20000 = 0xA3 ∧ mixed_pages 0x20001 = 0xA2 ∧
    (page_protect mixed_pages 0x20000000 0x2000 0 page_readable 0).out = .ok true ∧
    (page_protect mixed_pages 0x20000000 0x2000 0 page_readable 0).pages 0x20001 = 0xA2 ∧
    (mixed_pages 0x20001 ||| (page_readable &&& u8_not 0)) &&& u8_not (0 &&& u8_not page_readable)
      = 0xA3 := by
  decide

/-- C12: for every 32-bit `addr` and non-zero 32-bit `size` with `addr + size` greater
than `2 ^ 32`, `check_addr` returns false for every page table and every flag set, and
reads no page entry; and for all arguments every index at which the scan reads `g_pages`
is at most 0xFFFFF, the last page of the 32-bit address space. -/
theorem check_addr_overflow_rejected (pt : PageTable) (addr flags size : Nat)
    (ha : addr < 0x100000000) (hs : size < 0x100000000) :
    (size ≠ 0 → 0x100000000 < addr + size →
      check_addr pt addr flags size = some false ∧ check_addr_reads pt addr flags size = []) ∧
    (∀ p ∈ check_addr_reads pt addr flags size, p ≤ 0xFFFFF) := by
  constructor
  · intro h0 hov
    unfold check_addr check_addr_reads
    rw [if_neg h0, if_pos (by omega), if_neg h0, if_pos (by omega)]
    exact ⟨rfl, rfl⟩
  · intro p hp
    unfold check_addr_reads at hp
    by_cases h0 : size = 0
    · rw [if_pos h0] at hp; simp at hp
    · rw [if_neg h0] at hp
      by_cases hov : 0x100000000 - addr < size
      · rw [if_pos hov] at hp; simp at hp
      · rw [if_neg hov] at hp
        have := check_addr_loop_reads_le pt _ _ _ _ p hp
        have hl : u32_sub (u32 (addr + size)) 1 / 4096 = (addr + size - 1) / 4096 := by
          unfold u32_sub u32; omega
        rw [hl] at this
        omega

/-- Witness for C12: a range of 0x2000 bytes starting at the last page of the address
space. -/
theorem check_addr_overflow_rejected_witness :
    check_addr one_group_pages 0xFFFFF000 page_readable 0x2000 = some false ∧
    check_addr_reads one_group_pages 0xFFFFF000 page_readable 0x2000 = [] :=
  (check_addr_overflow_rejected one_group_pages 0xFFFFF000 page_readable 0x2000
    (by decide) (by decide)).1 (by decide) (by decide)

/-- C13: after `alloc` (no backing supplied) with default protection (neither
`alloc_hidden` nor `alloc_unwritable`) returns a non-zero address `a` for size `S` on a
block without stack guards, `check_addr(a, readable | writable, S rounded up to the
block's granularity)` returns true. -/
theorem alloc_default_passes_check_addr (b : Block) (pt : PageTable)
    (S al flags fresh a : Nat)
    (hb : b.addr + b.size ≤ 0x100000000) (hbs : b.size < 0x100000000)
    (hS : S < 0x100000000) (hng : b.flags &&& stack_guarded = 0)
    (hh : flags &&& alloc_hidden = 0) (hw : flags &&& alloc_unwritable = 0)
    (h : (alloc b pt S none al flags fresh).out = .ok a) (ha : a ≠ 0) :
    check_addr (alloc b pt S none al flags fresh).pages a (page_readable ||| page_writable)
      (round_up S (if b.flags &&& page_size_4k ≠ 0 then 0x1000 else 0x10000)) = some true := by
  obtain ⟨k, j, hk, hal, hga, horig, hid, hlim, hin, hfree, hbusy, heq⟩ :=
    alloc_none_success b pt S al flags fresh a hb hbs hS h ha
  have hgs : guard_size b = 0 := by unfold guard_size; rw [if_neg (not_not.mpr hng)]
  have hae : a = cand b al j := by
    rw [heq] at h; cases h; omega
  have hcm := cand_mod b al j k hal (le_trans (min_page_ge b.flags) hga)
  have hRm := round_up_mod S (min_page b.flags) (min_page_cases _)
  have hR0 : 0 < round_up S (min_page b.flags) := by
    have := roundup_ge S (min_page b.flags) (by have := min_page_ge b.flags; omega)
    unfold round_up; omega
  have hfold : round_up S (if b.flags &&& page_size_4k ≠ 0 then 0x1000 else 0x10000) =
      round_up S (min_page b.flags) := rfl
  rw [hfold, heq, hae]
  have hd : decide (b.flags &&& stack_guarded ≠ 0) = false := by
    rw [decide_eq_false_iff_not]; exact not_not.mpr hng
  simp only [hd]
  generalize cand b al j = c at *
  generalize round_up S (min_page b.flags) = R at *
  rw [hgs] at hin
  have hv : u8_not ((try_alloc_flags (eff_flags b flags) ||| page_allocated)) &&&
      ((page_readable ||| page_writable) ||| page_allocated) = 0 := by
    have hr : (try_alloc_flags (eff_flags b flags) ||| page_allocated) &&& page_readable ≠ 0 := by
      rw [try_alloc_flags_readable, eff_flags_hidden]; exact hh
    have hwr : (try_alloc_flags (eff_flags b flags) ||| page_allocated) &&& page_writable ≠ 0 := by
      rw [try_alloc_flags_writable, eff_flags_hidden, eff_flags_unwritable]; exact ⟨hh, hw⟩
    have key := (page_test_iff (fun _ => try_alloc_flags (eff_flags b flags) ||| page_allocated)
      (page_readable ||| page_writable) 0 (by decide)).mpr
    apply key
    refine ⟨lor_allocated_ne _, ?_⟩
    rw [land_lor_eq_iff]
    exact ⟨(land_single_bit _ 1).mpr hwr, (land_single_bit _ 0).mpr hr⟩
  unfold check_addr
  rw [if_neg (by omega), if_neg (by omega)]
  have hl : u32_sub (u32 (c + R)) 1 / 4096 = (c + R - 1) / 4096 := by
    unfold u32_sub u32; omega
  simp only [hl]
  apply check_addr_loop_all_pass _ _ _ (by omega) _ _ (by omega) (by omega)
  intro p hp1 hp2
  have : alloc_pages pt false c R (try_alloc_flags (eff_flags b flags) ||| page_allocated) p =
      try_alloc_flags (eff_flags b flags) ||| page_allocated := by
    simp only [alloc_pages, range_set, Bool.false_eq_true, if_false]
    rw [if_pos (by omega)]
  rw [this]
  exact hv

/-- Witness for C13 on the "user 64k pages" block of `vm::init`. -/
theorem alloc_default_passes_check_addr_witness :
    (alloc init_user64k init_pages 0x12345 none 0x10000 0 7).out = .ok 0x20000000 ∧
    check_addr (alloc init_user64k init_pages 0x12345 none 0x10000 0 7).pages 0x20000000
      (page_readable ||| page_writable)
      (round_up 0x12345 (if init_user64k.flags &&& page_size_4k ≠ 0 then 0x1000 else 0x10000))
        = some true :=
  ⟨by decide,
    alloc_default_passes_check_addr init_user64k init_pages 0x12345 0x10000 0 7 0x20000000
      (by decide) (by decide) (by decide) (by decide) (by decide) (by decide) (by decide)
      (by decide)⟩

/-- C17 (as stated, refuted): `oversize_block` records one region, 0x10000 bytes at
0x20000000, whose supplied backing is 0x20000 bytes long.  `peek(0x20000000, 0x20000)`
returns that backing although no region of the block covers `[addr, addr+size)`: the
range check of `peek` measures with the size of the backing, not of the region. -/
theorem peek_uncovered_range :
    oversize_block.m_map = [(0x20000000, 0x10000, some ⟨9, 0x20000, 0⟩)] ∧
    (peek oversize_block oversize_pages 0x20000000 0x20000).out
      = .ok (0x20000000, some ⟨9, 0x20000, 0⟩) ∧
    ¬ ∃ k len s, (k, len, s) ∈ oversize_block.m_map ∧ k ≤ 0x20000000 ∧
        0x20000000 + 0x20000 ≤ k + len := by
  have hm : oversize_block.m_map = [(0x20000000, 0x10000, some ⟨9, 0x20000, 0⟩)] := by decide
  refine ⟨hm, by decide, ?_⟩
  rintro ⟨k, len, s, hmem, hk, hcov⟩
  rw [hm] at hmem
  simp only [List.mem_singleton, Prod.mk.injEq] at hmem
  obtain ⟨rfl, rfl, _⟩ := hmem
  omega

/-- C17 (amended): `peek(addr, size)` never changes the block or the page table.  It
returns a non-null backing handle `s` together with the start `k` of a region only when
the block has no common backing, the region `(k, len, s)` is recorded in the block,
`k ≤ addr` (`k = addr` when `size` is 0) and `[addr, addr+size)` lies within
`[k, k + s.size)`, the span of the backing, which is the span of the region whenever the
backing is no longer than the region.  In every other case it returns `(addr, null)`,
except that it dereferences a null pointer when the region found has no backing. -/
theorem peek_result (b : Block) (pt : PageTable) (addr size : Nat) :
    (peek b pt addr size).pages = pt ∧ (peek b pt addr size).block = b ∧
    ((peek b pt addr size).out = .ok (addr, none) ∨
     ((peek b pt addr size).out = .error .null_deref ∧ b.m_common = none ∧
        ∃ k len, (k, len, none) ∈ b.m_map ∧ k ≤ addr) ∨
     (∃ k len s, (peek b pt addr size).out = .ok (k, some s) ∧ b.m_common = none ∧
        (k, len, some s) ∈ b.m_map ∧ k ≤ addr ∧ (size = 0 → k = addr) ∧
        addr + size ≤ k + s.size ∧ (s.size ≤ len → addr + size ≤ k + len))) := by
  unfold peek
  by_cases h1 : addr < b.addr ∨ addr + size > b.addr + b.size
  · rw [if_pos h1]; exact ⟨rfl, rfl, Or.inl rfl⟩
  · rw [if_neg h1]
    cases hf : RegionMap.floor_from none b.m_map addr with
    | none => exact ⟨rfl, rfl, Or.inl rfl⟩
    | some r =>
      obtain ⟨k, len, shm⟩ := r
      have hspec := RegionMap.floor_from_spec b.m_map none addr _ hf
      rcases hspec with h | ⟨hmem, hk⟩
      · cases h
      · simp only
        by_cases h2 : size = 0 ∧ k ≠ addr
        · rw [if_pos h2]; exact ⟨rfl, rfl, Or.inl rfl⟩
        · rw [if_neg h2]
          by_cases h3 : b.m_common.isSome = true
          · rw [if_pos h3]; exact ⟨rfl, rfl, Or.inl rfl⟩
          · rw [if_neg h3]
            have hc : b.m_common = none := by
              cases hcm : b.m_common with
              | none => rfl
              | some x => rw [hcm] at h3; simp at h3
            cases shm with
            | none =>
              exact ⟨rfl, rfl, Or.inr (Or.inl ⟨rfl, hc, k, len, hmem, hk⟩)⟩
            | some s =>
              simp only
              by_cases h4 : addr + size > k + s.size
              · rw [if_pos h4]; exact ⟨rfl, rfl, Or.inl rfl⟩
              · rw [if_neg h4]
                refine ⟨rfl, rfl, Or.inr (Or.inr ⟨k, len, s, rfl, hc, hmem, hk, ?_, ?_, ?_⟩)⟩
                · intro hs0
                  by_contra hne
                  exact h2 ⟨hs0, hne⟩
                · omega
                · intro hle; omega

/-- C18 (as stated, refuted), two inputs.  On the live block `exec_stack_block`, whose
one region has guard pages without and a usable page with the executable bit,
`block_t::unmap` does not return true: the `ensure` of `_page_unmap` fails.  On the
torn-down block `torn_user64k`, `alloc` with alignment 0x1000 (below the 64 KiB
granularity) does not return 0: it throws. -/
theorem unmap_and_torn_alloc_throw :
    exec_stack_block.m_id ≠ 0 ∧
    (block_t.unmap exec_stack_block exec_stack_pages).out = .error .ensure_failed ∧
    torn_user64k.m_id = 0 ∧
    (alloc torn_user64k init_pages 0x10000 none 0x1000 0 0).out
      = .error .invalid_alignment := by
  decide

/-- C18 (amended).  On a live block whose recorded regions are pairwise disjoint and
fully mapped (page-aligned, shorter than 512 MiB, every page allocated, one executable
setting per region), `block_t::unmap` returns true, sets the id to zero, leaves zero in
every page of every recorded region and changes no other page entry.  On a torn-down
block `unmap` returns false and changes nothing; `alloc` and `falloc` leave the page
table and the block as they are and return 0, unless they throw first: `alloc` for an
invalid alignment, either for a backing supplied to a block with a common backing. -/
theorem block_unmap_once (b : Block) (pt : PageTable) :
    (b.m_id ≠ 0 → RegionsMapped b.m_map pt →
      (block_t.unmap b pt).out = .ok true ∧
      (block_t.unmap b pt).block = { b with m_id := 0 } ∧
      (∀ e ∈ b.m_map, ∀ x, e.1 ≤ x → x < e.1 + e.2.1 →
        (block_t.unmap b pt).pages (x / 4096) = 0) ∧
      (∀ p, (¬ ∃ e ∈ b.m_map, e.1 / 4096 ≤ p ∧ p < e.1 / 4096 + e.2.1 / 4096) →
        (block_t.unmap b pt).pages p = pt p)) ∧
    (b.m_id = 0 →
      block_t.unmap b pt = ⟨pt, b, .ok false⟩ ∧
      (∀ orig src al flags fresh,
        (alloc b pt orig src al flags fresh).pages = pt ∧
        (alloc b pt orig src al flags fresh).block = b ∧
        ((alloc b pt orig src al flags fresh).out = .ok 0 ∨
          (alloc b pt orig src al flags fresh).out = .error .invalid_alignment ∨
          (alloc b pt orig src al flags fresh).out = .error .ensure_failed)) ∧
      (∀ orig al flags fresh k, k < 32 → al = 2 ^ k →
        (if b.flags &&& page_size_4k ≠ 0 then 0x1000 else 0x10000) ≤ al →
        alloc b pt orig none al flags fresh = ⟨pt, b, .ok 0⟩) ∧
      (∀ addr orig src flags fresh,
        (falloc b pt addr orig src flags fresh).pages = pt ∧
        (falloc b pt addr orig src flags fresh).block = b ∧
        ((falloc b pt addr orig src flags fresh).out = .ok 0 ∨
          (falloc b pt addr orig src flags fresh).out = .error .ensure_failed) ∧
        (src = none → (falloc b pt addr orig src flags fresh).out = .ok 0))) := by
  constructor
  · intro hid hm
    have hu := unmap_regions_eq b.m_map pt hm
    unfold block_t.unmap
    rw [if_pos hid]
    simp only [hu]
    refine ⟨trivial, trivial, ?_, ?_⟩
    · intro e he x hx1 hx2
      rw [clear_regions_apply, if_pos]
      obtain ⟨_, h2, h3, _, _, _⟩ := hm.1 e he
      exact ⟨e, he, by omega, by omega⟩
    · intro p hp
      rw [clear_regions_apply, if_neg hp]
  · intro hid
    refine ⟨?_, ?_, ?_, ?_⟩
    · unfold block_t.unmap
      rw [if_neg (not_not.mpr hid)]
    · intro orig src al flags fresh
      exact alloc_torn b pt orig src al flags fresh hid
    · intro orig al flags fresh k hk hal hga
      exact alloc_none_torn b pt orig al flags fresh k hk hal hga hid
    · intro addr orig src flags fresh
      exact falloc_torn b pt addr orig src flags fresh hid

/-- Witness for C18 (amended): `unmap` on the live block `mixed_block`, and on the
torn-down block `torn_user64k`. -/
theorem block_unmap_once_witness :
    ((block_t.unmap mixed_block mixed_pages).out = .ok true ∧
      (block_t.unmap mixed_block mixed_pages).block = { mixed_block with m_id := 0 }) ∧
    block_t.unmap torn_user64k init_pages = ⟨init_pages, torn_user64k, .ok false⟩ :=
  ⟨⟨((block_unmap_once mixed_block mixed_pages).1 (by decide) mixed_regions_mapped).1,
      ((block_unmap_once mixed_block mixed_pages).1 (by decide) mixed_regions_mapped).2.1⟩,
    ((block_unmap_once torn_user64k init_pages).2 (by decide)).1⟩

/-- C20: the address ranges of the blocks held in distinct slots of the registry never
overlap.  The invariant (every block has a non-empty range inside the address space, and
the ranges are pairwise disjoint) holds for the blocks `vm::init` installs and is
preserved by `vm::map`, `vm::find_map`, `vm::reserve_map` and `vm::unmap` for all `u32`
arguments; so it holds in every state reached from `vm::init`. -/
theorem registry_blocks_never_overlap :
    (∀ g, Reachable g → Locations.NoOverlap g.locations) ∧
    RegistryInv init_vm.locations ∧
    (∀ g, RegistryInv g.locations →
      Locations.NoOverlap g.locations ∧
      (∀ addr size flags fresh, addr < 0x100000000 → size < 0x100000000 →
        RegistryInv (map g addr size flags fresh).vm.locations) ∧
      (∀ orig_size al flags fresh,
        RegistryInv (find_map g orig_size al flags fresh).vm.locations) ∧
      (∀ location addr area_size flags fresh, addr < 0x100000000 → area_size < 0x100000000 →
        RegistryInv (reserve_map g location addr area_size flags fresh).vm.locations) ∧
      (∀ addr must_be_empty ptr,
        RegistryInv (unmap g addr must_be_empty ptr).vm.locations)) :=
  ⟨fun g h => (reachable_inv g h).2, init_registry_inv,
    fun g h => ⟨h.2,
      fun addr size flags fresh ha hs => _map_inv g addr size flags fresh ha hs h,
      fun o al f fr => find_map_inv g o al f fr h,
      fun l a s f fr ha hs => reserve_map_inv g l a s f fr ha hs h,
      fun a m p => unmap_inv g a m p h⟩⟩

set_option maxRecDepth 100000 in
/-- Witness for C20: after `vm::map(0x30000000, 0x100000, page_size_64k)` on the state of
`vm::init` the registry holds eight slots and no two blocks overlap. -/
theorem registry_blocks_never_overlap_witness :
    (map init_vm 0x30000000 0x100000 page_size_64k 9).vm.locations.length = 8 ∧
    Locations.NoOverlap (map init_vm 0x30000000 0x100000 page_size_64k 9).vm.locations :=
  ⟨by decide,
    registry_blocks_never_overlap.1 _
      (Reachable.map init_vm 0x30000000 0x100000 page_size_64k 9 Reachable.init
        (by decide) (by decide))⟩

set_option maxRecDepth 100000 in
/-- C19 (as stated, refuted): in `flagged_vm` slot 7 holds a dynamically reserved block
at 0x30000000 with the flag `bf0_0x1` and one outstanding region of 64 KiB.
`vm::unmap(0x30000000, must_be_empty = true)` does not return that block: blocks with a
bf0 flag are skipped, and the result is `(null, false)`. -/
theorem unmap_skips_flagged_block :
    (∃ p b, flagged_vm.locations.getD 7 none = some (p, b) ∧ b.addr = 0x30000000 ∧
      imp_used b = 0x10000) ∧
    (unmap flagged_vm 0x30000000 true none).out = .ok (none, false) := by
  refine ⟨⟨9, (alloc (block_t 6 0x30000000 0x100000 (page_size_64k ||| bf0_0x1) 9) init_pages
    0x10000 none 0x10000 0 11).block, by decide, by decide, by decide⟩, by decide⟩

/-- C19 (amended): in a registry that satisfies the invariant, `vm::unmap(addr,
must_be_empty = true)` applied to the address of a dynamically reserved block (a slot from
`memory_location_max` on) that carries no bf0 flag and still has outstanding regions
(`imp_used` non-zero) returns that block with the removed flag false and leaves the
registry, the block and the page table unchanged; and whenever `vm::unmap` with
`must_be_empty = true` reports a removal, the block removed had no bf0 flag and no
outstanding region. -/
theorem unmap_must_be_empty (g : VM) :
    (∀ (pre post : Locations) (p : Nat) (b : Block),
      RegistryInv g.locations → g.locations = pre ++ some (p, b) :: post →
      memory_location_max ≤ pre.length → b.flags &&& bf0_mask = 0 → imp_used b ≠ 0 →
      unmap g b.addr true none = ⟨g, .ok (some (p, b), false)⟩) ∧
    (∀ addr ptr blk, (unmap g addr true ptr).out = .ok (some blk, true) →
      ∃ p b, some (p, b) ∈ g.locations.drop memory_location_max ∧
        b.flags &&& bf0_mask = 0 ∧ imp_used b = 0 ∧
        blk = (p, (block_t.unmap b g.pages).block)) := by
  constructor
  · intro pre post p b hinv hl hpre hflag hused
    unfold unmap
    simp only
    have hdrop : g.locations.drop memory_location_max =
        pre.drop memory_location_max ++ some (p, b) :: post := by
      rw [hl, List.drop_append_of_le_length hpre]
    rw [hdrop]
    have hne : ∀ q c, some (q, c) ∈ pre.drop memory_location_max → c.addr ≠ b.addr := by
      intro q c hm
      have hm2 : some (q, c) ∈ pre := List.mem_of_mem_drop hm
      have hpw := hinv.2
      unfold Locations.NoOverlap at hpw
      rw [hl, List.pairwise_append] at hpw
      have hd := hpw.2.2 _ hm2 _ (List.mem_cons_self _ _) q c p b rfl rfl
      have hvc := hinv.1 q c (by rw [hl]; exact List.mem_append_left _ hm2)
      have hvb := hinv.1 p b (by
        rw [hl]; exact List.mem_append_right _ (List.mem_cons_self _ _))
      omega
    rw [unmap_from_skip g b.addr true none _ _ _ hne, unmap_from]
    rw [if_pos rfl, if_neg (by simp [hflag]), if_neg (by simp), if_neg (by simp),
      if_pos ⟨rfl, hused⟩]
  · intro addr ptr blk h
    unfold unmap at h
    obtain ⟨p, b, hm, _, hf, hu, hb⟩ := unmap_from_removed g _ ptr _ _ blk h
    exact ⟨p, b, hm, hf, hu, hb⟩

set_option maxRecDepth 100000 in
/-- Witness for C19 (amended): `plain_vm`, whose block at 0x30000000 in slot 7 has no bf0
flag and one outstanding region. -/
theorem unmap_must_be_empty_witness :
    ∃ p b, plain_vm.locations.getD 7 none = some (p, b) ∧ b.addr = 0x30000000 ∧
      unmap plain_vm 0x30000000 true none = ⟨plain_vm, .ok (some (p, b), false)⟩ := by
  have hr : Reachable plain_vm :=
    Reachable.vm_alloc _ 0x10000 7 0x10000 11
      (Reachable.map init_vm 0x30000000 0x100000 page_size_64k 9 Reachable.init
        (by decide) (by decide))
  have hl : plain_vm.locations = plain_vm.locations.take 7 ++
      some (9, (alloc (block_t 6 0x30000000 0x100000 page_size_64k 9) init_pages
        0x10000 none 0x10000 0 11).block) :: [] := by
    decide
  exact ⟨9, _, by decide, by decide,
    (unmap_must_be_empty plain_vm).1 _ _ 9 _ (reachable_inv _ hr) hl (by decide) (by decide)
      (by decide)⟩

/-- C14: for every requested stack size, when `_sys_ppu_thread_create` succeeds on a
state whose `vm::stack` slot holds a guard-stacked block, the recorded `stack_size` is
`max(request, 4096)` rounded up to 4 KiB, and `ppu_thread_exit` run on the state the
creation left passes its assertion: `vm::dealloc(stack_addr, vm::stack)` returns exactly
`stack_size`.  The same holds in every later state in which the stack block still
records the region and the pages of the region (guard pages included) are as the
creation left them. -/
theorem stack_released_on_exit (g : VM) (p f0 : Nat) (b : Block)
    (param_ok : Bool) (prio : Int) (dbg : Bool) (sz flags : Nat) (take_ok import_ok : Bool)
    (fresh : Nat) (t : ppu_thread_params)
    (hget : g.locations.getD stack none = some (p, b))
    (hb : b.addr + b.size ≤ 0x100000000) (hbs : b.size < 0x100000000)
    (hfl : b.flags = process_block_flags f0) (hg : b.flags &&& stack_guarded ≠ 0)
    (h : (_sys_ppu_thread_create g param_ok prio dbg sz flags take_ok import_ok fresh).out
      = .ok (.CELL_OK, some t)) :
    t.stack_size = align (max sz 4096) 4096 ∧
    (ppu_thread_exit
      (_sys_ppu_thread_create g param_ok prio dbg sz flags take_ok import_ok fresh).vm t).out
        = .ok () ∧
    (∀ (g2 : VM) (p2 : Nat) (b2 : Block) (shm : ShmPtr),
      g2.locations.getD stack none = some (p2, b2) → b2.flags = b.flags →
      RegionMap.find b2.m_map (t.stack_addr - 0x1000) = some (t.stack_size + 0x2000, shm) →
      (∀ x, t.stack_addr - 0x1000 ≤ x → x < t.stack_addr + t.stack_size + 0x1000 →
        g2.pages (x / 4096) =
          (_sys_ppu_thread_create g param_ok prio dbg sz flags take_ok import_ok
            fresh).vm.pages (x / 4096)) →
      (ppu_thread_exit g2 t).out = .ok ()) := by
  obtain ⟨a, ht, ha0, hout, hvm⟩ :=
    create_success g param_ok prio dbg sz flags take_ok import_ok fresh p b t hget h
  obtain ⟨hSm, hSlt⟩ := stack_size_aligned sz
  generalize align (max sz 4096) 4096 = S at *
  subst ht
  have h4k : b.flags &&& page_size_4k ≠ 0 := by
    rw [hfl] at hg ⊢; exact process_block_flags_guard f0 hg
  have hmp : min_page b.flags = 0x1000 := by unfold min_page; rw [if_pos h4k]
  have hR : round_up S (min_page b.flags) = S := by
    rw [hmp]; unfold round_up; omega
  have hgs : guard_size b = 0x1000 := by unfold guard_size; rw [if_pos hg]
  obtain ⟨k, j, hk, hal, hga, horig, hid, hlim, hin, hfree, hbusy, heq⟩ :=
    alloc_none_success b g.pages S 4096 0 fresh a hb hbs hSlt hout ha0
  have hcm := cand_mod b 4096 j k hal (le_refl _)
  have hae : a = cand b 4096 j + 0x1000 := by
    rw [heq] at hout; cases hout; omega
  generalize cand b 4096 j = c at *
  rw [hR, hgs] at hin heq
  rw [hR] at hlim
  have e2 : S + 2 * 4096 = S + 0x2000 := by omega
  rw [e2] at hin heq
  have hS0 : 0 < S := Nat.pos_of_ne_zero horig
  have hd : decide (b.flags &&& stack_guarded ≠ 0) = true := decide_eq_true hg
  rw [hd] at heq
  have hv := lor_allocated_ne (try_alloc_flags (eff_flags b 0))
  generalize try_alloc_flags (eff_flags b 0) ||| page_allocated = v at *
  have hpg1 : alloc_pages g.pages true c S v (c / 4096) = page_allocated := by
    simp only [alloc_pages, range_set, PageTable.set, if_true]
    rw [if_neg (by omega), if_neg (by omega)]
  have hpg2 : alloc_pages g.pages true c S v (c / 4096 + 1 + S / 4096) = page_allocated := by
    simp only [alloc_pages, range_set, PageTable.set, if_true]
    rw [if_neg (by omega), if_pos (by omega)]
  have hpin : ∀ q, c / 4096 + 1 ≤ q → q < c / 4096 + 1 + S / 4096 →
      alloc_pages g.pages true c S v q = v := by
    intro q hq1 hq2
    simp only [alloc_pages, range_set, PageTable.set, if_true]
    rw [if_pos (by omega)]
  have hexit : ∀ (g2 : VM) (p2 : Nat) (b2 : Block) (shm : ShmPtr),
      g2.locations.getD stack none = some (p2, b2) → b2.flags = b.flags →
      RegionMap.find b2.m_map c = some (S + 0x2000, shm) →
      (∀ q, c / 4096 ≤ q → q ≤ c / 4096 + 1 + S / 4096 →
        g2.pages q = alloc_pages g.pages true c S v q) →
      (ppu_thread_exit g2 ⟨a, S⟩).out = .ok () := by
    intro g2 p2 b2 shm hget2 hfl2 hfind hpages
    have hdr := dealloc_guarded_region b2 g2.pages c S v shm (by rw [hfl2]; exact hg)
      hcm hS0 hSm hlim (by omega) hv hfind
      (by rw [hpages _ (le_refl _) (by omega)]; exact hpg1)
      (by rw [hpages _ (by omega) (le_refl _)]; exact hpg2)
      (fun q hq1 hq2 => by rw [hpages q (by omega) (by omega)]; exact hpin q hq1 hq2)
    unfold ppu_thread_exit
    simp only
    rw [vm_dealloc_fixed g2 a stack p2 none b2 (by decide) hget2]
    simp only
    rw [hae, hdr.1]
    simp only [if_true]
  refine ⟨rfl, ?_, ?_⟩
  · rw [hvm, heq]
    apply hexit _ p _ (own_shm b fresh (S + 0x2000))
    · simp only
      exact getD_set_self _ _ _ _ (getD_some_lt _ _ _ hget)
    · rfl
    · simp only
      exact RegionMap.find_assign _ _ _
    · intro q _ _; rfl
  · intro g2 p2 b2 shm hget2 hfl2 hfind hpages
    have e1 : a - 0x1000 = c := by omega
    simp only [e1] at hfind hpages
    apply hexit g2 p2 b2 shm hget2 hfl2 hfind
    intro q hq1 hq2
    have := hpages (q * 4096) (by omega) (by omega)
    rw [Nat.mul_div_cancel _ (by decide : 0 < 4096), hvm, heq] at this
    exact this

/-- Witness for C14 on the state of `vm::init`: a request of 0x3001 bytes gets a stack of
0x4000 bytes at 0xD0001000, and the exit that follows passes its assertion. -/
theorem stack_released_on_exit_witness :
    (_sys_ppu_thread_create init_vm true 1000 false 0x3001 0 true true 7).out
      = .ok (.CELL_OK, some ⟨0xD0001000, 0x4000⟩) ∧
    (ppu_thread_exit
      (_sys_ppu_thread_create init_vm true 1000 false 0x3001 0 true true 7).vm
      ⟨0xD0001000, 0x4000⟩).out = .ok () :=
  ⟨by decide,
    (stack_released_on_exit init_vm 4
      (page_size_4k ||| preallocated ||| stack_guarded ||| bf0_0x1) init_stack
      true 1000 false 0x3001 0 true true 7 ⟨0xD0001000, 0x4000⟩
      (by decide) (by decide) (by decide) (by decide) (by decide) (by decide)).2.1⟩

/-- C15: on the write paths the token advances by exactly 128 (in `u64` arithmetic) on
success and not at all on failure.  `try_reservation_update` leaves the token it meets
unchanged unless it reports success; it reports success only if the unique-lock bit of
the value it loaded is clear and the token still has that value, and then the token is
that value plus 128.  `reservation_op_internal`, entered with the token at `pre + 1` (the
caller holds one shared-lock count), leaves it at `pre + 128` when the operation returns
true and at `pre` when it returns false. -/
theorem reservation_version_advance :
    (∀ res_load res_now : Nat,
      ((try_reservation_update res_load res_now).2.1 = true →
        res_load &&& rsrv_unique_lock = 0 ∧ res_now = res_load ∧
        (try_reservation_update res_load res_now).1 = u64 (res_now + 128) ∧
        (res_now + 128 < 0x10000000000000000 →
          (try_reservation_update res_load res_now).1 = res_now + 128)) ∧
      ((try_reservation_update res_load res_now).2.1 = false →
        (try_reservation_update res_load res_now).1 = res_now) ∧
      (try_reservation_update res_load res_now).2.2 = res_load) ∧
    (∀ (σ : Type) (func : σ → Bool × σ) (s : σ) (pre : Nat), pre < 0x10000000000000000 →
      ((func s).1 = true →
        (reservation_op_internal (u64 (pre + 1)) func s).1 = u64 (pre + 128) ∧
        (pre + 128 < 0x10000000000000000 →
          (reservation_op_internal (u64 (pre + 1)) func s).1 = pre + 128)) ∧
      ((func s).1 = false → (reservation_op_internal (u64 (pre + 1)) func s).1 = pre)) := by
  constructor
  · intro r0 r1
    unfold try_reservation_update compare_and_swap_test
    simp only
    by_cases c : r0 &&& rsrv_unique_lock ≠ 0
    · rw [if_pos c]
      exact ⟨(fun h => by cases h), fun _ => rfl, rfl⟩
    · rw [if_neg c]
      by_cases hc : r1 = r0
      · rw [if_pos hc]
        refine ⟨fun _ => ⟨not_not.mp c, hc, by rw [hc], ?_⟩, (fun h => by cases h), rfl⟩
        intro hlt
        rw [hc] at hlt ⊢
        exact Nat.mod_eq_of_lt hlt
      · rw [if_neg hc]
        exact ⟨(fun h => by cases h), fun _ => rfl, rfl⟩
  · intro σ func s pre hpre
    unfold reservation_op_internal
    constructor
    · intro h
      rw [if_pos h]
      simp only
      unfold u64
      constructor
      · omega
      · intro hlt; omega
    · intro h
      rw [if_neg (by rw [h]; simp)]
      simp only
      unfold u64_sub u64
      omega

/-- Witness for C15: a successful update of the token 256, and a successful operation
entered with the token at 257. -/
theorem reservation_version_advance_witness :
    (try_reservation_update 256 256).1 = 384 ∧
    (reservation_op_internal (u64 (256 + 1)) (fun (s : Nat) => (true, s)) 0).1 = 384 :=
  ⟨((reservation_version_advance.1 256 256).1 (by decide)).2.2.2 (by decide),
    ((reservation_version_advance.2 Nat (fun s => (true, s)) 0 256 (by decide)).1 rfl).2
      (by decide)⟩

/-- C16: lock grants respect the lock bits of the token.  One attempt of
`reservation_shared_lock_internal` succeeds exactly when the unique-lock bit is clear,
then adds one to the token (to its reader count), and leaves the token untouched when it
is rejected; the loop returns at the first attempt that is not rejected.
`reservation_lock_internal` calls `reservation_try_lock` only with token values whose low
7 bits are zero, and when it returns a value other than -1 that value is such a token
value, the token had it when the lock was taken, and the token is left with the
unique-lock bit set; when it returns -1 no lock was taken. -/
theorem reservation_locks_respect_bits :
    (∀ r : Nat,
      ((shared_lock_attempt r).2 = true ↔ r &&& rsrv_unique_lock = 0) ∧
      ((shared_lock_attempt r).2 = true → (shared_lock_attempt r).1 = u64 (r + 1)) ∧
      ((shared_lock_attempt r).2 = true → r < 0x10000000000000000 →
        (shared_lock_attempt r).1 = r + 1) ∧
      ((shared_lock_attempt r).2 = false → (shared_lock_attempt r).1 = r)) ∧
    (∀ obs tok, reservation_shared_lock_internal obs = some tok →
      ∃ pre r post, obs = pre ++ r :: post ∧ (∀ x ∈ pre, x &&& rsrv_unique_lock ≠ 0) ∧
        r &&& rsrv_unique_lock = 0 ∧ tok = u64 (r + 1)) ∧
    (∀ obs i, ∀ a ∈ reservation_lock_attempts obs i, a &&& 127 = 0) ∧
    (∀ obs i rt tok, reservation_lock_internal obs i = some (rt, tok) →
      (∃ o ∈ obs, o.load &&& 127 = 0 ∧ o.now = o.load ∧ rt = o.load ∧
        tok = o.load ||| rsrv_unique_lock) ∨
      (rt = 0xFFFFFFFFFFFFFFFF ∧ ∃ o ∈ obs, tok = o.now ∧ o.page &&& page_writable = 0)) := by
  refine ⟨?_, shared_lock_loop_spec, reservation_lock_attempts_low,
    reservation_lock_internal_spec⟩
  intro r
  unfold shared_lock_attempt
  by_cases c : r &&& rsrv_unique_lock ≠ 0
  · rw [if_pos c]
    refine ⟨⟨(fun h => by cases h), fun h => absurd h c⟩, (fun h => by cases h),
      (fun h => by cases h), fun _ => rfl⟩
  · rw [if_neg c]
    refine ⟨⟨fun _ => not_not.mp c, fun _ => rfl⟩, fun _ => rfl, ?_, (fun h => by cases h)⟩
    intro _ hr
    simp only
    unfold u64
    apply Nat.mod_eq_of_lt
    by_contra hge
    have : r = 0xFFFFFFFFFFFFFFFF := by omega
    rw [this] at c
    exact c (by decide)

/-- Witness for C16: a shared lock on the token 256 with one reader, and a unique lock
taken at the second iteration on the token 384. -/
theorem reservation_locks_respect_bits_witness :
    (shared_lock_attempt 257).1 = 258 ∧
    ((∃ o ∈ [(⟨385, 385, false, 3⟩ : LockObs), ⟨384, 384, false, 3⟩],
        o.load &&& 127 = 0 ∧ o.now = o.load ∧ 384 = o.load ∧
          448 = o.load ||| rsrv_unique_lock) ∨
      ((384 : Nat) = 0xFFFFFFFFFFFFFFFF ∧
        ∃ o ∈ [(⟨385, 385, false, 3⟩ : LockObs), ⟨384, 384, false, 3⟩],
          448 = o.now ∧ o.page &&& page_writable = 0)) :=
  ⟨(reservation_locks_respect_bits.1 257).2.2.1 (by decide) (by decide),
    reservation_locks_respect_bits.2.2.2
      [⟨385, 385, false, 3⟩, ⟨384, 384, false, 3⟩] 0 384 448 (by decide)⟩

set_option maxRecDepth 100000 in
/-- C21 (as stated, refuted): two calls of `page_protect` that leave a non-zero entry
without the allocated bit.  In `user64k_pages` (`vm::init`, then `alloc` of 64 KiB in the
"user 64k" block) `page_protect(0x20000000, 0x10000, 0, 0, page_allocated)` clears the
allocated bit of the region's pages and leaves `0x23`.  In `one_meg_pages` (`vm::init`,
then `alloc` of 64 KiB in a 1 MiB-class block) `page_protect(0x30000000, 0x20000, 0,
page_readable, 0)` passes `check_addr`, which skips the absent pages behind the first
page's 1 MiB flag, and stores `page_readable` into the absent page 0x30010.  Both page
tables satisfy the invariant before the call. -/
theorem page_protect_breaks_entry_invariant :
    (PageInv user64k_pages ∧
      (page_protect user64k_pages 0x20000000 0x10000 0 0 page_allocated).out = .ok true ∧
      (page_protect user64k_pages 0x20000000 0x10000 0 0 page_allocated).pages 0x20000 = 0x23 ∧
      ¬ PageInv (page_protect user64k_pages 0x20000000 0x10000 0 0 page_allocated).pages) ∧
    (PageInv one_meg_pages ∧ one_meg_pages 0x30010 = 0 ∧
      (page_protect one_meg_pages 0x30000000 0x20000 0 page_readable 0).out = .ok true ∧
      (page_protect one_meg_pages 0x30000000 0x20000 0 page_readable 0).pages 0x30010 = 0x01 ∧
      ¬ PageInv (page_protect one_meg_pages 0x30000000 0x20000 0 page_readable 0).pages) := by
  have e1 : (page_protect user64k_pages 0x20000000 0x10000 0 0 page_allocated).pages 0x20000
      = 0x23 := by decide
  have e2 : (page_protect one_meg_pages 0x30000000 0x20000 0 page_readable 0).pages 0x30010
      = 0x01 := by decide
  refine ⟨⟨pageInv_of_writes init_pages_inv (alloc_writes _ _ _ _ _ _ _), by decide, e1, ?_⟩,
    ⟨pageInv_of_writes init_pages_inv (alloc_writes _ _ _ _ _ _ _), by decide, by decide, e2,
      ?_⟩⟩
  · intro h
    have := h 0x20000
    rw [e1] at this
    revert this
    decide
  · intro h
    have := h 0x30010
    rw [e2] at this
    revert this
    decide

/-- C21 (amended): every page entry is zero or has the allocated bit after `vm::init`,
and from a page table with this property `alloc`, `falloc`, `dealloc` and the teardown
`block_t::unmap` lead to a page table with this property, for every block and all
arguments and also when they throw; so does `page_protect(addr, size, test, set, clear)`
when `clear` does not contain the allocated bit and the page table is size-class
consistent (every page carrying a size-class flag has the same entry as the pages of its
aligned group, so that `check_addr` vouches for every page of the range). -/
theorem page_entry_invariant (pt : PageTable) (h : PageInv pt) :
    PageInv init_vm.pages ∧
    (∀ b orig src al flags fresh, PageInv (alloc b pt orig src al flags fresh).pages) ∧
    (∀ b addr orig src flags fresh, PageInv (falloc b pt addr orig src flags fresh).pages) ∧
    (∀ b addr src, PageInv (dealloc b pt addr src).pages) ∧
    (∀ b, PageInv (block_t.unmap b pt).pages) ∧
    (∀ addr size test set clear, addr < 0x100000000 → test < 256 →
      SizeClassConsistent pt → clear &&& page_allocated = 0 →
      PageInv (page_protect pt addr size test set clear).pages) :=
  ⟨init_pages_inv,
    fun _ _ _ _ _ _ => pageInv_of_writes h (alloc_writes _ _ _ _ _ _ _),
    fun _ _ _ _ _ _ => pageInv_of_writes h (falloc_writes _ _ _ _ _ _ _),
    fun _ _ _ => pageInv_of_writes h (dealloc_writes _ _ _ _),
    fun _ => pageInv_of_writes h (block_unmap_writes _ _),
    fun _ _ _ _ _ ha ht hc hcl =>
      pageInv_of_writes h (page_protect_writes _ _ _ _ _ _ ha ht hc hcl)⟩

set_option maxRecDepth 100000 in
/-- Witness for C21 (amended): on `one_group_pages`, `page_protect` that clears the
writable bit of the mapped 64 KiB group succeeds and keeps the invariant. -/
theorem page_entry_invariant_witness :
    PageInv one_group_pages ∧
    (page_protect one_group_pages 0x20000000 0x10000 0 0 page_writable).out = .ok true ∧
    (page_protect one_group_pages 0x20000000 0x10000 0 0 page_writable).pages 0x20000 = 0xA1 ∧
    PageInv (page_protect one_group_pages 0x20000000 0x10000 0 0 page_writable).pages :=
  ⟨one_group_inv, by decide, by decide,
    (page_entry_invariant one_group_pages one_group_inv).2.2.2.2.2 0x20000000 0x10000 0 0
      page_writable (by decide) (by decide) one_group_consistent (by decide)⟩

/-- C23: for every page table `pt`, every 32-bit `addr`, every flag set and every size,
the loop of `check_addr` terminates with a result; and when every page carrying the
64 KiB (1 MiB) size-class flag has the same entry as every page of its aligned 64 KiB
(1 MiB) group, that result is the result of the naive scan `check_addr_naive`, which tests
every page of `[addr, addr+size)` one by one. -/
theorem check_addr_refines_naive_scan (pt : PageTable) (addr flags size : Nat)
    (ha : addr < 0x100000000) :
    (∃ r, check_addr pt addr flags size = some r) ∧
    (SizeClassConsistent pt →
      check_addr pt addr flags size = some (check_addr_naive pt addr flags size)) := by
  refine ⟨check_addr_total pt addr flags size ha, ?_⟩
  intro hc
  by_cases hs : size = 0
  · unfold check_addr check_addr_naive
    rw [if_pos hs, if_pos hs]
  · by_cases hov : 0x100000000 - addr < size
    · unfold check_addr check_addr_naive
      rw [if_neg hs, if_neg hs, if_pos hov, if_pos hov]
    · obtain ⟨r, hr⟩ := check_addr_total pt addr flags size ha
      have hiff : check_addr pt addr flags size = some true ↔
          check_addr_naive pt addr flags size = true := by
        rw [check_addr_naive_true_iff pt addr flags size hs hov]
        unfold check_addr
        rw [if_neg hs, if_neg hov]
        have hl : u32_sub (u32 (addr + size)) 1 / 4096 = (addr + size - 1) / 4096 := by
          unfold u32_sub u32; omega
        simp only [hl]
        exact check_addr_loop_spec pt _ _ (by omega) hc _ _ (by omega) (by omega)
      rw [hr] at hiff ⊢
      cases r with
      | true =>
        rw [hiff.mp rfl]
      | false =>
        cases hn : check_addr_naive pt addr flags size with
        | false => rfl
        | true => exact absurd (hiff.mpr hn) (by simp)

/-- Witness for C23 on `one_group_pages`: a range that starts inside a 64 KiB group. -/
theorem check_addr_refines_naive_scan_witness :
    check_addr one_group_pages 0x20003000 page_writable 0x5000 = some true ∧
    check_addr one_group_pages 0x20003000 page_writable 0x5000 =
      some (check_addr_naive one_group_pages 0x20003000 page_writable 0x5000) :=
  ⟨by decide,
    (check_addr_refines_naive_scan one_group_pages 0x20003000 page_writable 0x5000
      (by decide)).2 one_group_consistent⟩

/-- C22 (as stated, refuted): on the page table of `vm::init`, where every entry is zero,
`_page_map(0xE0000000, 0, 0x20000000)` has a non-zero size, aligned arguments, flags
without the allocated bit and only zero pages in its range, so that none of the fault
conditions of the claim holds; yet it raises a fault (from the range lock, which refuses
512 MiB) and sets no page of the range. -/
theorem _page_map_512M_throws :
    (0x20000000 ≠ 0 ∧ 0xE0000000 % 4096 = 0 ∧ 0x20000000 % 4096 = 0 ∧
      0 &&& page_allocated = 0 ∧ ∀ p, init_pages p = 0) ∧
    (_page_map init_pages 0xE0000000 0 0x20000000).out = .error .lock_range ∧
    (_page_map init_pages 0xE0000000 0 0x20000000).pages 0xE0000 ≠ 0 ||| page_allocated := by
  have h := _page_map_lock_fault init_pages 0xE0000000 0 0x20000000 (by decide) (by decide)
    (by decide) (fun _ _ _ => rfl) (by decide)
  refine ⟨⟨by decide, by decide, by decide, by decide, fun _ => rfl⟩, ?_, ?_⟩
  · rw [h]
  · rw [h]; decide

/-- C22 (amended): `_page_map(addr, flags, size)` raises a fault without changing any page
entry when size is zero, `addr` or `size` is not a multiple of 4096 or `flags` contains
the allocated bit (invalid arguments); otherwise when some page of the range is non-zero
(already mapped); otherwise when `size` is 512 MiB or more (the range lock refuses it).
In every other case it succeeds, sets every page of the range to `flags | allocated` and
changes no page outside the range. -/
theorem _page_map_outcome (pt : PageTable) (addr flags size : Nat) :
    ((size = 0 ∨ addr % 4096 ≠ 0 ∨ size % 4096 ≠ 0 ∨ flags &&& page_allocated ≠ 0) →
      _page_map pt addr flags size = ⟨pt, .error .invalid_arguments⟩) ∧
    (¬ (size = 0 ∨ addr % 4096 ≠ 0 ∨ size % 4096 ≠ 0 ∨ flags &&& page_allocated ≠ 0) →
      ((∃ p, addr / 4096 ≤ p ∧ p < addr / 4096 + size / 4096 ∧ pt p ≠ 0) →
        _page_map pt addr flags size = ⟨pt, .error .already_mapped⟩) ∧
      (¬ (∃ p, addr / 4096 ≤ p ∧ p < addr / 4096 + size / 4096 ∧ pt p ≠ 0) →
        (0x20000000 ≤ size → _page_map pt addr flags size = ⟨pt, .error .lock_range⟩) ∧
        (size < 0x20000000 →
          (_page_map pt addr flags size).out = .ok () ∧
          ∀ p, (_page_map pt addr flags size).pages p =
            if addr / 4096 ≤ p ∧ p < addr / 4096 + size / 4096 then flags ||| page_allocated
            else pt p))) := by
  constructor
  · intro h
    unfold _page_map
    rw [if_pos]
    rcases h with h | h | h | h
    · exact Or.inl h
    · refine Or.inr (Or.inl ?_)
      intro hh; exact h ((lor_mod_4096 _ _).mp hh).2
    · refine Or.inr (Or.inl ?_)
      intro hh; exact h ((lor_mod_4096 _ _).mp hh).1
    · exact Or.inr (Or.inr h)
  · intro h
    rw [not_or, not_or, not_or, not_not, not_not, not_not] at h
    obtain ⟨hs, haa, hsa, hf⟩ := h
    have h1 : ¬ (size = 0 ∨ (size ||| addr) % 4096 ≠ 0 ∨ flags &&& page_allocated ≠ 0) := by
      rw [not_or, not_or]
      exact ⟨hs, not_not.mpr ((lor_mod_4096 _ _).mpr ⟨hsa, haa⟩), not_not.mpr hf⟩
    constructor
    · rintro ⟨p, hp1, hp2, hp3⟩
      unfold _page_map
      rw [if_neg h1, range_any_true pt _ _ p hp1 hp2 hp3]
      rfl
    · intro hz
      have hz2 : ∀ p, addr / 4096 ≤ p → p < addr / 4096 + size / 4096 → pt p = 0 := by
        intro p hp1 hp2
        by_contra hne
        exact hz ⟨p, hp1, hp2, hne⟩
      constructor
      · intro hlim
        exact _page_map_lock_fault pt addr flags size hsa haa hf hz2 hlim
      · intro hlim
        rw [_page_map_eq pt addr flags size hs hsa haa hf hz2 hlim]
        exact ⟨rfl, fun p => rfl⟩

/-- Witness for C22 (amended): mapping the first 64 KiB of the user area on the page table
of `vm::init` succeeds and sets page 0x20003. -/
theorem _page_map_outcome_witness :
    (_page_map init_pages 0x20000000 0x23 0x10000).out = .ok () ∧
    (_page_map init_pages 0x20000000 0x23 0x10000).pages 0x20003 = 0xA3 ∧
    (_page_map init_pages 0x20000000 0x23 0x10000).pages 0x20010 = 0 := by
  have h := ((_page_map_outcome init_pages 0x20000000 0x23 0x10000).2 (by decide)).2
    (by rintro ⟨p, _, _, hp⟩; exact hp rfl)
  have h2 := h.2 (by decide)
  refine ⟨h2.1, ?_, ?_⟩
  · rw [h2.2]; decide
  · rw [h2.2]; decide

/-- C24 (as stated, refuted): the access `[0x20000000, 0x20000004)` lies in readable,
non-mirrored memory of `one_group_pages`.  In a pass that first reads the descriptor 0
(no writer) and then, at the second read, the descriptor of a writer on
`[0x30000000, 0x30001000)`, the access overlaps neither range, yet the pass does not let
it proceed: it clears the slot and retries. -/
theorem range_lock_retries_without_overlap :
    (∀ x, 0x20000000 ≤ x → x < 0x20000000 + 4 →
      PageHas one_group_pages page_readable (x / 4096)) ∧
    ¬ ranges_overlap 0x20000000 4 (writer_range 0).1 (writer_range 0).2 ∧
    writer_range (0x30000000 ||| (0x1000 <<< 32)) = (0x30000000, 0x1000) ∧
    ¬ ranges_overlap 0x20000000 4 0x30000000 0x1000 ∧
    range_lock_pass one_group_pages 0x20000000 4 0 0 (0x30000000 ||| (0x1000 <<< 32)) =
      some ⟨0, .wait_retry⟩ := by
  exact ⟨one_group_readable, by decide, by decide, by decide, by decide⟩

/-- C24 (amended): let `[begin, begin+size)` be an access range in non-mirrored memory
(the mirror entry read is zero) all of whose pages are allocated and readable.  A pass of
the loop of `range_lock_internal` that reads the descriptor `lock_val` first and
`new_lock_val` at its second read lets the access proceed if and only if the range does
not overlap the range encoded in `lock_val` (128 bytes from its address for a descriptor
flagged `range_locked`) and `new_lock_val` is zero or equal to `lock_val`; the slot then
keeps the claim `begin | size << 32`.  On overlap the pass clears the slot and retries
after a wait, and on every pass that does not proceed the slot is left zero. -/
theorem range_lock_admission (pt : PageTable) (begin size lock_val new_lock_val : Nat)
    (hb : begin < 2 ^ 32) (hs : size < 2 ^ 32)
    (hread : ∀ x, begin ≤ x → x < begin + size → PageHas pt page_readable (x / 4096)) :
    ∃ r, range_lock_pass pt begin size lock_val 0 new_lock_val = some r ∧
      (r.step = .proceed ↔
        (¬ ranges_overlap begin size (writer_range lock_val).1 (writer_range lock_val).2 ∧
          (new_lock_val = 0 ∨ new_lock_val = lock_val))) ∧
      (r.step = .proceed → r.slot = begin ||| (size <<< 32)) ∧
      (ranges_overlap begin size (writer_range lock_val).1 (writer_range lock_val).2 →
        r = ⟨0, .wait_retry⟩) ∧
      (r.step ≠ .proceed → r.slot = 0) := by
  have hca := check_addr_all_pages pt begin page_readable size hb (by decide) hread
  have hdec := lock_size_decode lock_val
  unfold range_lock_pass
  simp only [hca, hdec, ne_eq, not_true_eq_false, and_false, if_false, true_and]
  unfold writer_range ranges_overlap
  simp only
  have hlsb : (if lock_val &&& range_full_mask = range_locked then 128
    else lock_val / 2 ^ 32 % 2 ^ 29) < 2 ^ 32 := by
    split
    · norm_num
    · omega
  generalize (if lock_val &&& range_full_mask = range_locked then 128
    else lock_val / 2 ^ 32 % 2 ^ 29) = ls at hlsb
  have e1 : u32 lock_val = lock_val % 2 ^ 32 := rfl
  rw [e1]
  generalize hla : lock_val % 2 ^ 32 = la
  have hlab : la < 2 ^ 32 := by rw [← hla]; exact Nat.mod_lt _ (by norm_num)
  have e2 : u64 (begin + size) = begin + size := by unfold u64; omega
  have e3 : u64 (la + ls) = la + ls := by unfold u64; omega
  rw [e2, e3]
  by_cases hno : begin + size ≤ la ∨ begin ≥ la + ls
  · rw [if_pos hno]
    have hnov : ¬ (begin < la + ls ∧ la < begin + size) := by omega
    by_cases hnew : new_lock_val = 0 ∨ new_lock_val = lock_val
    · rw [if_pos hnew]
      exact ⟨_, rfl, ⟨fun _ => ⟨hnov, hnew⟩, fun _ => rfl⟩, fun _ => rfl,
        fun h => absurd h hnov, fun h => absurd rfl h⟩
    · rw [if_neg hnew]
      split
      · exact ⟨_, rfl, ⟨(fun h => by cases h), fun h => absurd h.2 hnew⟩,
          (fun h => by cases h), fun h => absurd h hnov, fun _ => rfl⟩
      · exact ⟨_, rfl, ⟨(fun h => by cases h), fun h => absurd h.2 hnew⟩,
          (fun h => by cases h), fun h => absurd h hnov, fun _ => rfl⟩
  · rw [if_neg hno]
    have hov : begin < la + ls ∧ la < begin + size := by omega
    exact ⟨_, rfl, ⟨(fun h => by cases h), fun h => absurd hov h.1⟩,
      (fun h => by cases h), fun _ => rfl, fun _ => rfl⟩

/-- Witness for C24 (amended): with a `range_locked` descriptor on the 128 bytes from
0x20000080, read unchanged twice, the access `[0x20000000, 0x20000004)` proceeds and the
slot keeps its claim. -/
theorem range_lock_admission_witness :
    range_lock_pass one_group_pages 0x20000000 4 (0x20000080 ||| range_locked) 0
        (0x20000080 ||| range_locked) = some ⟨0x20000000 ||| (4 <<< 32), .proceed⟩ ∧
    writer_range (0x20000080 ||| range_locked) = (0x20000080, 128) ∧
    ∃ r, range_lock_pass one_group_pages 0x20000000 4 (0x20000080 ||| range_locked) 0
        (0x20000080 ||| range_locked) = some r ∧
      (r.step = .proceed ↔
        (¬ ranges_overlap 0x20000000 4 (writer_range (0x20000080 ||| range_locked)).1
            (writer_range (0x20000080 ||| range_locked)).2 ∧
          (0x20000080 ||| range_locked = 0 ∨
            0x20000080 ||| range_locked = 0x20000080 ||| range_locked))) ∧
      (r.step = .proceed → r.slot = 0x20000000 ||| (4 <<< 32)) ∧
      (ranges_overlap 0x20000000 4 (writer_range (0x20000080 ||| range_locked)).1
          (writer_range (0x20000080 ||| range_locked)).2 → r = ⟨0, .wait_retry⟩) ∧
      (r.step ≠ .proceed → r.slot = 0) :=
  ⟨by decide, by decide,
    range_lock_admission one_group_pages 0x20000000 4 (0x20000080 ||| range_locked)
      (0x20000080 ||| range_locked) (by decide) (by decide) one_group_readable⟩

/-- C26: let `_page_map` map `[addr, addr+size)` (valid arguments, absent pages, less
than 512 MiB) from a shareable backing object (`flags() != 0`) whose host addresses are
below `2 ^ 48` and 64 KiB aligned.  If the object has been mapped before (`info` is not
zero) the call succeeds and, for every `k < size / 65536`, the mirror entry of the `k`-th
64 KiB granule of the span is the object's host address XOR `range_locked`, plus
`k * 0x10000`, which is non-zero and at least `2 ^ 32`; the host address is the one
`get()` returns after the call (the address `map_self()` obtains on the second mapping).
If the object has not been mapped before (`info` is zero) the call succeeds and the
mirror table is left as it was.  And `_page_unmap` of a fully mapped span from a
shareable object whose first mirror entry is non-zero returns the size of the span and
leaves every mirror entry of the span zero. -/
theorem mirror_entries_of_shared_handle (locs : Locations) (pt : PageTable) (m : ShmemTable)
    (addr flags size host : Nat) (s : ShmObj) (hs : size ≠ 0)
    (hsa : size % 4096 = 0) (haa : addr % 4096 = 0) (hf : flags &&& page_allocated = 0)
    (hz : ∀ p, addr / 4096 ≤ p → p < addr / 4096 + size / 4096 → pt p = 0)
    (hlim : size < 0x20000000) (hsh : s.flags ≠ 0)
    (hptr : s.m_ptr < 2 ^ 48 ∧ s.m_ptr % 0x10000 = 0)
    (hhost : host < 2 ^ 48 ∧ host % 0x10000 = 0) (hinfo : s.info < 2 ^ 64) :
    (s.info ≠ 0 → ∃ s2,
      (_page_map_shm locs pt m addr flags size (some s) host).out = .ok () ∧
      (_page_map_shm locs pt m addr flags size (some s) host).shm = some s2 ∧
      s2.m_ptr = (if s.info = 1 ∧ s.m_ptr = 0 then host else s.m_ptr) ∧
      ∀ k, k < size / 65536 →
        (_page_map_shm locs pt m addr flags size (some s) host).shmem (addr / 65536 + k) =
          (s2.m_ptr ^^^ range_locked) + k * 0x10000 ∧
        (_page_map_shm locs pt m addr flags size (some s) host).shmem (addr / 65536 + k) ≠ 0 ∧
        2 ^ 32 ≤ (_page_map_shm locs pt m addr flags size (some s) host).shmem
          (addr / 65536 + k)) ∧
    (s.info = 0 →
      (_page_map_shm locs pt m addr flags size (some s) host).out = .ok () ∧
      (_page_map_shm locs pt m addr flags size (some s) host).shmem = m) ∧
    (∀ (pt2 : PageTable) (m2 : ShmemTable) (s3 : ShmObj) (a T : Nat),
      RegionMapped pt2 a T → s3.flags ≠ 0 → m2 (a / 65536) ≠ 0 →
      (_page_unmap_shm pt2 m2 a T (some s3)).out = .ok T ∧
      ∀ k, k < T / 65536 → (_page_unmap_shm pt2 m2 a T (some s3)).shmem (a / 65536 + k) = 0) := by
  obtain ⟨c0, c1⟩ := page_map_mirror_spec locs m s addr size host (by omega) hsh hptr hhost hinfo
  refine ⟨?_, ?_, ?_⟩
  · intro h0
    obtain ⟨s2, d1, d2, d3, d4⟩ := c1 h0
    rw [_page_map_shm_eq locs pt m addr flags size host (some s) hs hsa haa hf hz hlim d2]
    refine ⟨s2, rfl, d1, d3, ?_⟩
    intro k hk
    have hp : s2.m_ptr < 2 ^ 48 := by
      rw [d3]
      split
      · exact hhost.1
      · exact hptr.1
    have hv := d4 k hk
    simp only
    rw [hv, host_ptr_xor _ hp]
    exact ⟨rfl, by omega, by omega⟩
  · intro h0
    have d := c0 h0
    rw [_page_map_shm_eq locs pt m addr flags size host (some s) hs hsa haa hf hz hlim
      (by rw [d])]
    exact ⟨rfl, by simp only; rw [d]⟩
  · intro pt2 m2 s3 a T hr hsh3 hm
    rw [_page_unmap_shm_region pt2 m2 a T s3 hr hsh3 hm]
    refine ⟨rfl, ?_⟩
    intro k hk
    simp only
    rw [shmem_clear_get, if_pos (by omega)]

set_option maxRecDepth 100000 in
/-- Witness for C26: right after `vm::init`, mapping 128 KiB at 0x20000000 from
`shared_obj`, which the host maps at 0x7f0000000000, writes the mirror entries
0x80007f0000000000 and 0x80007f0000010000 for the two granules of the span. -/
theorem mirror_entries_of_shared_handle_witness :
    (_page_map_shm init_vm.locations init_pages (fun _ => 0) 0x20000000 0x23 0x20000
      (some shared_obj) 0x7f0000000000).shmem 0x2000 = 0x80007f0000000000 ∧
    (_page_map_shm init_vm.locations init_pages (fun _ => 0) 0x20000000 0x23 0x20000
      (some shared_obj) 0x7f0000000000).shmem 0x2001 = 0x80007f0000010000 ∧
    ∃ s2,
      (_page_map_shm init_vm.locations init_pages (fun _ => 0) 0x20000000 0x23 0x20000
        (some shared_obj) 0x7f0000000000).out = .ok () ∧
      (_page_map_shm init_vm.locations init_pages (fun _ => 0) 0x20000000 0x23 0x20000
        (some shared_obj) 0x7f0000000000).shm = some s2 ∧
      s2.m_ptr = (if shared_obj.info = 1 ∧ shared_obj.m_ptr = 0 then 0x7f0000000000
        else shared_obj.m_ptr) ∧
      ∀ k, k < 0x20000 / 65536 →
        (_page_map_shm init_vm.locations init_pages (fun _ => 0) 0x20000000 0x23 0x20000
          (some shared_obj) 0x7f0000000000).shmem (0x20000000 / 65536 + k) =
          (s2.m_ptr ^^^ range_locked) + k * 0x10000 ∧
        (_page_map_shm init_vm.locations init_pages (fun _ => 0) 0x20000000 0x23 0x20000
          (some shared_obj) 0x7f0000000000).shmem (0x20000000 / 65536 + k) ≠ 0 ∧
        2 ^ 32 ≤ (_page_map_shm init_vm.locations init_pages (fun _ => 0) 0x20000000 0x23
          0x20000 (some shared_obj) 0x7f0000000000).shmem (0x20000000 / 65536 + k) :=
  ⟨by decide, by decide,
    (mirror_entries_of_shared_handle init_vm.locations init_pages (fun _ => 0) 0x20000000 0x23
      0x20000 0x7f0000000000 shared_obj (by decide) (by decide) (by decide) (by decide)
      (fun _ _ _ => rfl) (by decide) (by decide) (by decide) (by decide) (by decide)).1
      (by decide)⟩

/-- C27: for every slot bitmap (a `u64`) with at least one clear bit, `alloc_range_lock`
returns the slot `k` that is the lowest-numbered clear bit and sets exactly that bit,
leaving the slots themselves untouched; `k` differs from every slot that is held (whose
bit is set); and `free_range_lock` on slot `k` then succeeds, zeroes that slot's claim,
leaves the other slots alone and gives the bitmap the value it had before the alloc. -/
theorem range_lock_slot_alloc_free (s : RangeLocks) (hb : s.bits < 2 ^ 64)
    (hfree : ∃ j, j < 64 ∧ s.bits.testBit j = false) :
    ∃ k s1 s2, alloc_range_lock s = .ok (s1, k) ∧ k < 64 ∧
      s.bits.testBit k = false ∧ (∀ j, j < k → s.bits.testBit j = true) ∧
      (∀ j, s.bits.testBit j = true → j ≠ k) ∧
      (∀ j, s1.bits.testBit j = (s.bits.testBit j || decide (j = k))) ∧ s1.set = s.set ∧
      free_range_lock s1 k = .ok s2 ∧ s2.bits = s.bits ∧ s2.set k = 0 ∧
      (∀ j, j ≠ k → s2.set j = s.set j) := by
  obtain ⟨j, hj, hjc⟩ := hfree
  obtain ⟨k1, k2, k3, k4⟩ := countr_one_aux_spec 64 s.bits ⟨j, hj, hjc⟩
  have hne := ne_max_of_clear_bit s.bits j hj hjc
  have hu : u64 (s.bits + 1) = s.bits + 1 := by unfold u64; omega
  have hbits : ∀ i, (s.bits ||| u64 (s.bits + 1)).testBit i =
      (s.bits.testBit i || decide (i = countr_one s.bits)) := by
    intro i
    rw [hu, Nat.testBit_or, k4 i]
    unfold countr_one
    by_cases c1 : i < countr_one_aux 64 s.bits
    · rw [if_pos c1, k3 i c1]
      simp
    · rw [if_neg c1]
      by_cases c2 : i = countr_one_aux 64 s.bits
      · rw [if_pos c2]; simp [c2]
      · rw [if_neg c2]; simp [c2]
  refine ⟨countr_one s.bits, { s with bits := s.bits ||| u64 (s.bits + 1) },
    ⟨s.bits, fun i => if i = countr_one s.bits then 0 else s.set i⟩, ?_, k1, k2, k3, ?_, hbits,
    rfl, ?_, rfl, ?_, ?_⟩
  · unfold alloc_range_lock
    rw [if_pos (u64_not_ne_zero s.bits j hj hjc)]
  · intro i hi h
    rw [h] at hi
    unfold countr_one at hi
    rw [k2] at hi
    cases hi
  · unfold free_range_lock
    have hk : ¬ (((countr_one s.bits : Nat) : Int) < 0 ∨
        ((countr_one s.bits : Nat) : Int) ≥ 64) := by
      unfold countr_one; omega
    rw [if_neg hk]
    simp only [Int.toNat_ofNat]
    rw [clear_bit_restores s.bits (countr_one s.bits) hb k1 k2 _ hbits]
  · simp
  · intro i hi
    simp [hi]

/-- Witness for C27: with slots 0, 1 and 3 held (bitmap `0b1011`) the slot granted is 2,
the bitmap becomes `0b1111`, and freeing slot 2 gives `0b1011` back. -/
theorem range_lock_slot_alloc_free_witness :
    (alloc_range_lock ⟨0b1011, fun _ => 0⟩).map (fun r => (r.1.bits, r.2)) = .ok (0b1111, 2) ∧
    ∃ k s1 s2, alloc_range_lock ⟨0b1011, fun _ => 0⟩ = .ok (s1, k) ∧ k < 64 ∧
      (0b1011).testBit k = false ∧ (∀ j, j < k → (0b1011).testBit j = true) ∧
      (∀ j, (0b1011).testBit j = true → j ≠ k) ∧
      (∀ j, s1.bits.testBit j = ((0b1011).testBit j || decide (j = k))) ∧
      s1.set = (fun _ => 0) ∧
      free_range_lock s1 k = .ok s2 ∧ s2.bits = 0b1011 ∧ s2.set k = 0 ∧
      (∀ j, j ≠ k → s2.set j = 0) :=
  ⟨by decide,
    range_lock_slot_alloc_free ⟨0b1011, fun _ => 0⟩ (by decide) ⟨2, by decide, by decide⟩⟩

/-- C28 (as stated, refuted): a thread that calls `sys_ppu_thread_join` on itself gets
`CELL_EDEADLK` whatever its status: on a joinable thread no joiner is recorded (the
status stays joinable), and on a thread that already has a joiner (status `0x1000002`,
the id of the joining thread) the result is not `CELL_EINVAL`. -/
theorem join_self_returns_edeadlk :
    sys_ppu_thread_join 0x1000001 0x1000001 (some ppu_join_status.joinable) =
      (some ppu_join_status.joinable, .CELL_EDEADLK) ∧
    ppu_join_status.joinable ≠ 0x1000001 ∧
    sys_ppu_thread_join 0x1000001 0x1000001 (some 0x1000002) =
      (some 0x1000002, .CELL_EDEADLK) ∧
    0x1000002 ≥ ppu_join_status.max := by
  decide

/-- C28 (amended): the transitions of the join status `v` of a thread, for every value
of `v`.  Thread exit turns joinable into zombie and every other status into exited.
`sys_ppu_thread_join` called by the thread itself returns `CELL_EDEADLK` and leaves the
status unchanged; called by another thread, and `sys_ppu_thread_detach` called by any
thread, turn zombie into exited, and on an exited thread return `CELL_ESRCH` leaving the
status unchanged; on a thread that already has a joiner (a status from `max` on) join
returns `CELL_EINVAL` and detach `CELL_EBUSY`, and detach on a detached thread returns
`CELL_EINVAL`, each leaving the status unchanged; otherwise join records the caller's id
as the status and detach sets detached, both returning `CELL_OK`.  No call of join or
detach changes the status exited. -/
theorem join_status_transitions (v ppu_id thread_id : Nat) :
    (_sys_ppu_thread_exit ppu_join_status.joinable = ppu_join_status.zombie ∧
      (v ≠ ppu_join_status.joinable → _sys_ppu_thread_exit v = ppu_join_status.exited)) ∧
    (ppu_id = thread_id →
      sys_ppu_thread_join ppu_id thread_id (some v) = (some v, .CELL_EDEADLK)) ∧
    (ppu_id ≠ thread_id →
      sys_ppu_thread_join ppu_id thread_id (some ppu_join_status.zombie) =
        (some ppu_join_status.exited, .CELL_EAGAIN) ∧
      sys_ppu_thread_join ppu_id thread_id (some ppu_join_status.exited) =
        (some ppu_join_status.exited, .CELL_ESRCH) ∧
      (v ≥ ppu_join_status.max →
        sys_ppu_thread_join ppu_id thread_id (some v) = (some v, .CELL_EINVAL)) ∧
      (v = ppu_join_status.joinable ∨ v = ppu_join_status.detached →
        sys_ppu_thread_join ppu_id thread_id (some v) = (some ppu_id, .CELL_OK))) ∧
    (sys_ppu_thread_detach (some ppu_join_status.zombie) =
        (some ppu_join_status.exited, .CELL_EAGAIN) ∧
      sys_ppu_thread_detach (some ppu_join_status.exited) =
        (some ppu_join_status.exited, .CELL_ESRCH) ∧
      sys_ppu_thread_detach (some ppu_join_status.detached) =
        (some ppu_join_status.detached, .CELL_EINVAL) ∧
      (v ≥ ppu_join_status.max →
        sys_ppu_thread_detach (some v) = (some v, .CELL_EBUSY)) ∧
      sys_ppu_thread_detach (some ppu_join_status.joinable) =
        (some ppu_join_status.detached, .CELL_OK)) ∧
    ((v = ppu_join_status.joinable ∨ v = ppu_join_status.detached ∨
        v = ppu_join_status.zombie ∨ v = ppu_join_status.exited ∨ v ≥ ppu_join_status.max) ∧
      (sys_ppu_thread_join ppu_id thread_id (some ppu_join_status.exited)).1 =
        some ppu_join_status.exited ∧
      (sys_ppu_thread_detach (some ppu_join_status.exited)).1 = some ppu_join_status.exited) := by
  refine ⟨⟨rfl, ?_⟩, ?_, ?_, ⟨rfl, rfl, rfl, ?_, rfl⟩, ?_, ?_, rfl⟩
  · intro h
    unfold _sys_ppu_thread_exit
    rw [if_neg h]
  · intro h
    unfold sys_ppu_thread_join
    simp only
    rw [if_pos h]
  · intro h
    refine ⟨?_, ?_, ?_, ?_⟩
    · unfold sys_ppu_thread_join
      simp only
      rw [if_neg h]
      rfl
    · unfold sys_ppu_thread_join
      simp only
      rw [if_neg h]
      rfl
    · intro hv
      have h1 : v ≠ ppu_join_status.zombie := by
        unfold ppu_join_status.max at hv; unfold ppu_join_status.zombie; omega
      have h2 : v ≠ ppu_join_status.exited := by
        unfold ppu_join_status.max at hv; unfold ppu_join_status.exited; omega
      unfold sys_ppu_thread_join
      simp only
      rw [if_neg h, if_neg h1, if_neg h2, if_pos hv]
    · intro hv
      have h1 : v ≠ ppu_join_status.zombie := by
        rcases hv with hv | hv <;> rw [hv] <;> decide
      have h2 : v ≠ ppu_join_status.exited := by
        rcases hv with hv | hv <;> rw [hv] <;> decide
      have h3 : ¬ v ≥ ppu_join_status.max := by
        rcases hv with hv | hv <;> rw [hv] <;> decide
      unfold sys_ppu_thread_join
      simp only
      rw [if_neg h, if_neg h1, if_neg h2, if_neg h3]
  · intro hv
    have h1 : v ≠ ppu_join_status.zombie := by
      unfold ppu_join_status.max at hv; unfold ppu_join_status.zombie; omega
    have h2 : v ≠ ppu_join_status.exited := by
      unfold ppu_join_status.max at hv; unfold ppu_join_status.exited; omega
    have h3 : v ≠ ppu_join_status.detached := by
      unfold ppu_join_status.max at hv; unfold ppu_join_status.detached; omega
    unfold sys_ppu_thread_detach
    simp only
    rw [if_neg h1, if_neg h2, if_neg h3, if_pos hv]
  · unfold ppu_join_status.joinable ppu_join_status.detached ppu_join_status.zombie
      ppu_join_status.exited ppu_join_status.max
    omega
  · unfold sys_ppu_thread_join
    simp only
    by_cases h : ppu_id = thread_id
    · rw [if_pos h]
    · rw [if_neg h]
      rfl

/-- Witness for C28 (amended): thread `0x1000001` joins the joinable thread `0x1000002`,
whose status becomes the caller's id; a detach on that thread then returns
`CELL_EBUSY`. -/
theorem join_status_transitions_witness :
    sys_ppu_thread_join 0x1000001 0x1000002 (some ppu_join_status.joinable) =
      (some 0x1000001, .CELL_OK) ∧
    sys_ppu_thread_detach (some 0x1000001) = (some 0x1000001, .CELL_EBUSY) :=
  ⟨((join_status_transitions ppu_join_status.joinable 0x1000001 0x1000002).2.2.1
      (by decide)).2.2.2 (Or.inl rfl),
    (join_status_transitions 0x1000001 0x1000001 0x1000002).2.2.2.1.2.2.2.1 (by decide)⟩

end vm
